import Mathlib

/-!
# Verification of the impacker dependency-resolution and tree-shaking engine

This file gives a shallow embedding of the core of `impacker` (a Python
bundler) and proves properties of it.  The embedding follows the source:

* `src/impacker/core/import_group.py` — import entries (`ImportModule`,
  `ImportStarFromModule`, `ImportFromModule`), `ImportGroup.add`,
  `ImportGroup.to_asts`, `split_module_name`;
* `src/impacker/core/impacker.py` — the requirement-propagation engine
  (`_mark_source_code_requires`, `_gather_source_code_requires_from_imports`)
  and the bundle assembler (`_pack_from`, `pack`);
* `src/impacker/source_code.py` — `SourceCodeReader`, symbol/dependency
  extraction;
* `src/impacker/core/import_resolve.py` — `find_spec_from` over a model of
  the file system, together with the module cache of `Impacker`
  (`get_source_code`, `_put_source_code`, `get_import`).

Python sets are modelled by `Finset String`; dictionaries whose absent key
behaves like an empty set (`dict.get` followed by a truthiness test) are
modelled by total functions defaulting to `∅`.  Recursions that Python
performs with memoized termination are modelled with an explicit fuel
parameter (`Option`-valued, `none` = out of fuel); termination theorems show
sufficient fuel exists.
-/

namespace Impacker

/-- A minimal Python expression shape: enough to distinguish name reads
(`ast.Name` in `Load` context) from other atoms, mirroring what
`SourceCodeReader` inspects. -/
inductive Expr where
  | const : Expr
  | nm : String → Expr
  | bin : Expr → Expr → Expr
deriving DecidableEq, Repr

/-- A minimal Python statement shape covering what the engine inspects:
`ast.Import`, `ast.ImportFrom` (level, module, aliases as
`(name, asname)`), assignments `target = value`, bare expression
statements, and top-level definitions (`ast.FunctionDef` with `name`,
argument names, body, `lineno`, `col_offset`). -/
inductive Stmt where
  | imprt : List (String × Option String) → Stmt
  | impFrom : Nat → String → List (String × Option String) → Stmt
  | asgn : String → Expr → Stmt
  | exprS : Expr → Stmt
  | fdef : String → List String → List Stmt → Nat → Nat → Stmt

/-- `lineno` of a definition statement (0 for non-definitions). -/
def Stmt.linenoOf : Stmt → Nat
  | .fdef _ _ _ ln _ => ln
  | _ => 0

/-- `col_offset` of a definition statement (0 for non-definitions). -/
def Stmt.colOf : Stmt → Nat
  | .fdef _ _ _ _ c => c
  | _ => 0

/-- Import entries, the closed tagged variant of `import_group.py`:
`ImportModule(module, alias)`, `ImportStarFromModule(module)`,
`ImportFromModule(module, name, alias)`. -/
inductive Imp where
  | mod : String → String → Imp
  | star : String → Imp
  | fromI : String → String → String → Imp
deriving DecidableEq, Repr

/-- `split_module_name` from `import_resolve.py`: the count of leading dots
and the remainder. -/
def splitModuleName (s : String) : Nat × String :=
  let l := (s.toList.takeWhile (· = '.')).length
  (l, String.mk (s.toList.drop l))

/-- `ImportGroup.add` applied to one `ast.Import`/`ast.ImportFrom`
statement: the list of entries it appends (in order).  Non-import
statements contribute nothing. -/
def groupAddStmt : Stmt → List Imp
  | .imprt names => names.map (fun p => .mod p.1 (p.2.getD p.1))
  | .impFrom lvl m names =>
      let moduleName := String.mk (List.replicate lvl '.') ++ m
      names.map (fun p =>
        if p.1 = "*" then .star moduleName
        else .fromI moduleName p.1 (p.2.getD p.1))
  | _ => []

/-- One source file's extracted model (`SourceCode` of
`source_code.py`): import entries in order (`imports.ordered_imports`), `global_defines` as an
association list (later entries shadow earlier ones, matching dict
overwrite), `dependency` as a total function (absent key ↝ `∅`),
`unresolved_globals`, and the raw statement list `root_ast.body`. -/
structure Module where
  name : String
  imports : List Imp
  defines : List (String × Stmt)
  dependency : String → Finset String
  unresolved : Finset String
  body : List Stmt

/-- Lookup in an association list where the LAST binding wins (Python dict
assignment overwrites). -/
def lookupLast (l : List (String × Stmt)) (k : String) : Option Stmt :=
  (l.reverse.find? (fun p => p.1 = k)).map Prod.snd

/-- The keys of `global_defines`. -/
def Module.defNames (M : Module) : Finset String :=
  (M.defines.map Prod.fst).toFinset

/-- `global_defines[k]` (the last binding of `k`). -/
def Module.lookupDef (M : Module) (k : String) : Option Stmt :=
  lookupLast M.defines k

/-- A whole program as seen by one `pack` run: the finite set of module
identities, the entry module, each module's extracted model, and
the import resolver (`get_import` as a pure function: `none` = unresolvable,
treated as external).  `get_import` memoizes the deterministic
`find_spec_from`, so a pure function is a faithful model of it at this
layer; the cache/identity layer itself is modelled separately below. -/
structure Program where
  mods : List Nat
  entry : Nat
  src : Nat → Module
  resolve : Nat → String → Option Nat

/-- Well-formedness of a program: the entry is a module and the resolver
only returns modules. -/
structure Program.WF (P : Program) : Prop where
  entry_mem : P.entry ∈ P.mods
  resolve_mem : ∀ m s m2, P.resolve m s = some m2 → m2 ∈ P.mods

/-- The mutable propagation state of one `pack` run:
`_source_code_requires` and `_source_code_externals`, keyed by module
identity, absent key ↝ `∅`. -/
structure PState where
  req : Nat → Finset String
  ext : Nat → Finset String

/-- The initial state of `pack`: `_put_source_code(in_code)` sets
`_source_code_requires[id(in_code)] = set()` and then
`_source_code_externals[id(in_code)] = in_code.unresolved_globals.copy()`. -/
def initState (P : Program) : PState where
  req := fun _ => ∅
  ext := fun m => if m = P.entry then (P.src P.entry).unresolved else ∅

/-!
## The inner while-loop of `_mark_source_code_requires`

```
while requires:
    next_requires = set()
    for req in requires:
        if req in req_set: continue
        if req in externals: continue
        if req in code.global_defines:
            req_set.add(req)
            if next_reqs := code.dependency.get(req):
                next_requires.update(next_reqs)
        else:
            externals.add(req)
    requires = next_requires
```

Distinct names of the batch are processed independently (additions for one
name never alter the branch taken for a different name within the same
iteration), so the set-iteration order is irrelevant and one iteration is
the simultaneous `Finset` update below.  `req_set` is the module's global
requirement set threaded through; `externals` is the local set that starts
empty for each call.
-/

/-- One execution of the while-loop, with fuel bounding the number of
iterations (`none` = fuel exhausted before the loop finished). -/
def innerLoopF (defs : Finset String) (deps : String → Finset String) :
    Nat → Finset String → Finset String → Finset String →
    Option (Finset String × Finset String)
  | 0, _, _, _ => none
  | f + 1, reqSet, ext, R =>
    if R = ∅ then some (reqSet, ext)
    else
      let active := R.filter (fun n => n ∉ reqSet ∧ n ∉ ext)
      let newDefs := active.filter (fun n => n ∈ defs)
      let newExts := active.filter (fun n => n ∉ defs)
      innerLoopF defs deps f
        (reqSet ∪ newDefs) (ext ∪ newExts) (newDefs.biUnion deps)

/-- The recursion modes of the propagation engine: a
`_mark_source_code_requires(code, requires)` call, or the loop of
`_gather_source_code_requires_from_imports` part-way through the
reversed import list with the current pending set. -/
inductive EMode where
  | mark : Nat → Finset String → EMode
  | gather : Nat → List Imp → Finset String → EMode

/-- The propagation engine, structurally recursive on fuel.

* `mark m R` is `_mark_source_code_requires`: return unchanged on an empty
  batch; run the while-loop against `global_defines`/`dependency`
  (`innerLoopF`, fuel `(defs \ req).card + 1` which theorem
  `innerLoopF_isSome` shows is always enough); store the grown requirement
  set; record `externals - prev_externals` into the module's external set;
  gather only that difference from the imports.
* `gather m imps R` is the loop of
  `_gather_source_code_requires_from_imports` over the
  already-reversed import list: return when the pending set empties; `ImportModule` is
  skipped; a resolvable `ImportStarFromModule` forwards the whole pending
  set; a resolvable `ImportFromModule` whose alias is pending removes the
  alias and forwards the exported name; unresolvable targets are skipped. -/
def engine (P : Program) : Nat → PState → EMode → Option PState
  | 0, _, _ => none
  | f + 1, st, .mark m R =>
    if R = ∅ then some st
    else
      let M := P.src m
      match innerLoopF M.defNames M.dependency ((M.defNames \ st.req m).card + 2)
          (st.req m) ∅ R with
      | none => none
      | some (req2, extLocal) =>
        let delta := extLocal \ st.ext m
        let st2 : PState :=
          { req := Function.update st.req m req2
            ext := Function.update st.ext m (st.ext m ∪ delta) }
        engine P f st2 (.gather m (P.src m).imports.reverse delta)
  | _ + 1, st, .gather _ [] _ => some st
  | f + 1, st, .gather m (imp :: rest) R =>
    if R = ∅ then some st
    else
      match imp with
      | .mod _ _ => engine P f st (.gather m rest R)
      | .star mod =>
        match P.resolve m mod with
        | some m2 => do
            let st2 ← engine P f st (.mark m2 R)
            engine P f st2 (.gather m rest R)
        | none => engine P f st (.gather m rest R)
      | .fromI mod y a =>
        match P.resolve m mod with
        | some m2 =>
          if a ∈ R then do
            let st2 ← engine P f st (.mark m2 {y})
            engine P f st2 (.gather m rest (R.erase a))
          else engine P f st (.gather m rest R)
        | none => engine P f st (.gather m rest R)

/-- The propagation phase of `pack` with `shake_tree` enabled:
`_gather_source_code_requires_from_imports(in_code,
in_code.unresolved_globals.copy())` run from the initial state. -/
def propagate (P : Program) (f : Nat) : Option PState :=
  engine P f (initState P)
    (.gather P.entry (P.src P.entry).imports.reverse (P.src P.entry).unresolved)

/-!
## The bundle assembler: `_pack_from` and `pack`
-/

/-- The module string of a non-plain import entry (`imp.module` in the
`case _:` branch of `_pack_from`). -/
def Imp.moduleOf : Imp → String
  | .mod m _ => m
  | .star m => m
  | .fromI m _ _ => m

/-- One emitted `CodeChunk`, with its provenance kept explicit: the module
identity it came from, the required symbol (`none` for a whole-module
chunk), the `(lineno, col_offset)` sort key of a shaken chunk, and the
statements. -/
structure Chunk where
  mod : Nat
  sym : Option String
  pos : Nat × Nat
  stmts : List Stmt

/-- Python tuple comparison on `(lineno, col_offset)`: lexicographic. -/
def posLE (a b : Nat × Nat) : Prop :=
  a.1 < b.1 ∨ (a.1 = b.1 ∧ a.2 ≤ b.2)

instance : DecidableRel posLE := fun a b => by unfold posLE; infer_instance

instance : IsTotal (Nat × Nat) posLE :=
  ⟨fun x y => by unfold posLE; omega⟩

instance : IsTrans (Nat × Nat) posLE :=
  ⟨fun x y z => by unfold posLE; omega⟩

/-- The comparison used by `sorted(req_defs)`: by the key tuple
`(lineno, col_offset)`. -/
def defLE (a b : String × Stmt) : Prop :=
  posLE (a.2.linenoOf, a.2.colOf) (b.2.linenoOf, b.2.colOf)

instance : DecidableRel defLE := fun a b => by unfold defLE; infer_instance

instance : IsTotal (String × Stmt) defLE :=
  ⟨fun _ _ => IsTotal.total (r := posLE) _ _⟩

instance : IsTrans (String × Stmt) defLE :=
  ⟨fun _ _ _ => IsTrans.trans (r := posLE) _ _ _⟩

/-- The whole-module statement emission of `_pack_from` (root module, or
tree shaking disabled): drop `ast.Import` statements; replace each
`ast.ImportFrom` by one assignment `asname = name` per alias that has an
`asname`; keep everything else. -/
def rootStmts (body : List Stmt) : List Stmt :=
  body.flatMap fun s =>
    match s with
    | .imprt _ => []
    | .impFrom _ _ names =>
        names.filterMap (fun p => p.2.map (fun z => Stmt.asgn z (.nm p.1)))
    | s => [s]

/-- The shaken emission of `_pack_from`: one chunk per required symbol,
`req_def = code.global_defines[req]`, sorted by `(lineno, col_offset)`.
Python iterates the `requires` set in unspecified order before sorting;
we concretize that order by sorting the names (ties on the position key
are therefore resolved deterministically, as `sorted` is stable).  The
unguarded dict lookup is modelled with a default; the safety theorem for
the lookup shows the default is never used on reachable states. -/
def shakenChunks (m : Nat) (M : Module) (req : Finset String) : List Chunk :=
  let names := req.sort (· ≤ ·)
  let keyed := names.map (fun n => (n, (M.lookupDef n).getD (Stmt.exprS .const)))
  (keyed.insertionSort defLE).map fun p =>
    { mod := m, sym := some p.1, pos := (p.2.linenoOf, p.2.colOf), stmts := [p.2] }

/-- The chunk(s) `_pack_from` emits for the module itself, after the import
loop: the whole filtered body if this is the root module or shaking is
disabled (and the filtered body is nonempty), else one chunk per required
symbol (none when the module's requirement set is absent or empty). -/
def ownChunks (P : Program) (shake : Bool) (st : PState) (isRoot : Bool)
    (m : Nat) : List Chunk :=
  let M := P.src m
  if isRoot || !shake then
    let s := rootStmts M.body
    if s.isEmpty then [] else [{ mod := m, sym := none, pos := (0, 0), stmts := s }]
  else if st.req m = ∅ then []
  else shakenChunks m M (st.req m)

/-- The recursion modes of the assembler: a whole `_pack_from(code,
visited)` call, or its import loop part-way through the import list. -/
inductive PMode where
  | one : Nat → PMode
  | imps : Nat → List Imp → PMode

/-- `_pack_from`, structurally recursive on fuel.

* `.one m`: record whether this is the root (`len(visited) == 0`), add `m`
  to the visited set, run the import loop, then append the module's own
  chunk(s).
* `.imps m imps`: the import loop.  `ImportModule` entries are kept in
  the import group iff shaking is off or the alias is in the module's external
  set.  Other entries: if the import resolves and the target is unvisited,
  recurse into it and splice its chunks and import group in before the
  rest; if it resolves but was already visited, contribute nothing; if it
  does not resolve, keep the entry iff shaking is off or the module's
  external set is nonempty. -/
def packF (P : Program) (shake : Bool) (st : PState) :
    Nat → PMode → Finset Nat → Option (List Chunk × List Imp × Finset Nat)
  | 0, _, _ => none
  | f + 1, .one m, vis => do
      let isRoot : Bool := vis = ∅
      let r ← packF P shake st f (.imps m (P.src m).imports) (insert m vis)
      pure (r.1 ++ ownChunks P shake st isRoot m, r.2.1, r.2.2)
  | _ + 1, .imps _ [], vis => some ([], [], vis)
  | f + 1, .imps m (imp :: rest), vis =>
    match imp with
    | .mod _ a => do
        let r ← packF P shake st f (.imps m rest) vis
        pure (r.1, (if shake = false ∨ a ∈ st.ext m then [imp] else []) ++ r.2.1, r.2.2)
    | imp2 =>
      match P.resolve m imp2.moduleOf with
      | some m2 =>
        if m2 ∈ vis then packF P shake st f (.imps m rest) vis
        else do
          let r1 ← packF P shake st f (.one m2) vis
          let r2 ← packF P shake st f (.imps m rest) r1.2.2
          pure (r1.1 ++ r2.1, r1.2.1 ++ r2.2.1, r2.2.2)
      | none => do
          let r ← packF P shake st f (.imps m rest) vis
          pure (r.1, (if shake = false ∨ st.ext m ≠ ∅ then [imp2] else []) ++ r.2.1, r.2.2)

/-- `Impacker.pack` at the statement level: seed the caches, run
requirement propagation when shaking, then assemble from the entry with an
empty visited set.  Returns the chunks and the merged import group. -/
def packRun (P : Program) (shake : Bool) (f1 f2 : Nat) :
    Option (List Chunk × List Imp) := do
  let st ← if shake then propagate P f1 else some (initState P)
  let r ← packF P shake st f2 (.one P.entry) ∅
  pure (r.1, r.2.1)

/-!
## `ImportGroup.to_asts`

Python uses a `set` for plain imports and insertion-ordered `dict`s for
star- and from-imports; we concretize every iteration order as
first-occurrence order.
-/

/-- Deduplicate keeping the first occurrence of each element. -/
def dedupF {α : Type} [DecidableEq α] : List α → List α
  | [] => []
  | x :: xs => x :: (dedupF xs).filter (· ≠ x)

/-- The `(name, alias)` pairs of the from-imports of one module, in order,
deduplicated by alias keeping the first-seen exported name. -/
def dedupByAlias : List (String × String) → List (String × String)
  | [] => []
  | p :: xs => p :: (dedupByAlias xs).filter (fun q => q.2 ≠ p.2)

/-- The alias list `to_asts` builds for one from-import module. -/
def fromAliases (l : List Imp) (mod : String) : List (String × String) :=
  dedupByAlias (l.filterMap fun i =>
    match i with
    | .fromI m n a => if m = mod then some (n, a) else none
    | _ => none)

/-- `ast.alias(name, alias if alias != name else None)`. -/
def mkAlias (p : String × String) : String × Option String :=
  (p.1, if p.2 = p.1 then none else some p.2)

/-- `ImportGroup.to_asts`: one combined `ast.Import` for all deduplicated
plain imports (omitted when there are none), one star `ast.ImportFrom`
per module, then one `ast.ImportFrom` per from-import module with its
deduplicated aliases; from-module strings are split back into
`(level, module)` by `split_module_name`. -/
def toAsts (l : List Imp) : List Stmt :=
  let plains := dedupF (l.filterMap fun i =>
    match i with | .mod m a => some (m, a) | _ => none)
  let stars := dedupF (l.filterMap fun i =>
    match i with | .star m => some m | _ => none)
  let fromMods := dedupF (l.filterMap fun i =>
    match i with | .fromI m _ _ => some m | _ => none)
  (if plains.isEmpty then [] else [Stmt.imprt (plains.map mkAlias)])
    ++ stars.map (fun m =>
        Stmt.impFrom (splitModuleName m).1 (splitModuleName m).2 [("*", none)])
    ++ fromMods.map (fun m =>
        Stmt.impFrom (splitModuleName m).1 (splitModuleName m).2
          ((fromAliases l m).map mkAlias))

/-- The final bundle as a statement sequence: the merged import header
(`to_asts`) followed by the statements of every chunk in order. -/
def bundleStmts (r : List Chunk × List Imp) : List Stmt :=
  toAsts r.2 ++ r.1.flatMap (·.stmts)

/-!
## The spec-side requirement closure (§4.3 of the spec)

The spec describes `propagate(module, names)` name-by-name: a pending name
walks the module's imports in reverse declaration order; a resolvable
star-import forwards it (it stays pending); the first resolvable
from-import whose alias matches consumes it and forwards the exported
name; plain imports and unresolvable targets leave it pending.  `crossGo`
computes the module/name pairs this walk forwards a single pending name
to.
-/

/-- The forwarding targets of one pending name along a (already
reversed) import list. -/
def crossGo (res : String → Option Nat) : List Imp → String → List (Nat × String)
  | [], _ => []
  | .mod _ _ :: rest, n => crossGo res rest n
  | .star mod :: rest, n =>
    match res mod with
    | some m2 => (m2, n) :: crossGo res rest n
    | none => crossGo res rest n
  | .fromI mod y a :: rest, n =>
    match res mod with
    | some m2 => if a = n then [(m2, y)] else crossGo res rest n
    | none => crossGo res rest n

/-- The forwarding targets of a name pending at module `m`. -/
def crossSteps (P : Program) (m : Nat) (n : String) : List (Nat × String) :=
  crossGo (P.resolve m) (P.src m).imports.reverse n

/-- The three mutually-defined stages of the requirement closure: a name
arriving as a requirement request at a module, a name required (to be
emitted) at a module, and a name external at a module. -/
inductive CKind where
  | arr : CKind
  | rq : CKind
  | ext : CKind

/-- The transitive-reference closure seeded by the entry module's
unresolved globals (§4.3): seeds cross the entry module's imports; an
arriving name that is a top-level definition becomes required; a required
name's dependencies become required (when defined) or external (when
not); an arriving name that is not defined becomes external; an external
name's forwarding targets arrive at the imported modules. -/
inductive Clo (P : Program) : CKind → Nat → String → Prop where
  | seed : ∀ n m2 y, n ∈ (P.src P.entry).unresolved →
      (m2, y) ∈ crossSteps P P.entry n → Clo P .arr m2 y
  | toReq : ∀ m n, Clo P .arr m n → n ∈ (P.src m).defNames → Clo P .rq m n
  | depReq : ∀ m n d, Clo P .rq m n → d ∈ (P.src m).dependency n →
      d ∈ (P.src m).defNames → Clo P .rq m d
  | toExt : ∀ m n, Clo P .arr m n → n ∉ (P.src m).defNames → Clo P .ext m n
  | depExt : ∀ m n d, Clo P .rq m n → d ∈ (P.src m).dependency n →
      d ∉ (P.src m).defNames → Clo P .ext m d
  | cross : ∀ m n m2 y, Clo P .ext m n → (m2, y) ∈ crossSteps P m n →
      Clo P .arr m2 y

/-- "Symbol `n` of module `m` is on the transitive closure of references
from the entry module's unresolved globals, through definitions and
imports" — the dead-code-elimination criterion of the spec. -/
def RequiredSym (P : Program) (m : Nat) (n : String) : Prop :=
  Clo P .rq m n

/-- The import edges of the module graph actually followed by the
assembler and the propagation engine: a star- or from-import of `v` whose
module string resolves to `w`. -/
def Edge (P : Program) (v w : Nat) : Prop :=
  ∃ i ∈ (P.src v).imports,
    (∀ mod a, i ≠ Imp.mod mod a) ∧ P.resolve v i.moduleOf = some w

/-- Modules reachable from the entry along import edges. -/
inductive Reaches (P : Program) : Nat → Prop where
  | entry : Reaches P P.entry
  | step : ∀ v w, Reaches P v → Edge P v w → Reaches P w

/-- The module graph is acyclic: no edge closes a path back to its own
source. -/
def Acyclic (P : Program) : Prop :=
  ∀ v w, Edge P v w → ¬ Relation.ReflTransGen (Edge P) w v

/-- A cyclic module graph (two modules importing each other directly or
via a chain). -/
def Cyclic (P : Program) : Prop :=
  ∃ v w, Edge P v w ∧ Relation.ReflTransGen (Edge P) w v

/-!
## The name universe and the termination measure of the engine
-/

/-- All names a module can ever contribute to a propagation batch: its
unresolved globals, the dependencies of its top-level definitions, and the
exported names of its from-imports. -/
def Module.nameUniv (M : Module) : Finset String :=
  M.unresolved ∪ M.defNames.biUnion M.dependency ∪
    (M.imports.filterMap fun i =>
      match i with | .fromI _ y _ => some y | _ => none).toFinset

/-- All names of a program that can ever be pending. -/
def namesUniv (P : Program) : Finset String :=
  P.mods.foldr (fun m acc => (P.src m).nameUniv ∪ acc) ∅

/-- The termination measure of the propagation engine: the total number of
names not yet recorded required or external. -/
def engMeasure (P : Program) (st : PState) : Nat :=
  (P.mods.map (fun m => (namesUniv P \ (st.req m ∪ st.ext m)).card)).sum

/-!
## Counting and ordering helpers for the emitted chunk list
-/

/-- How many chunks of the list carry symbol `n` of module `v`. -/
def symCount (cs : List Chunk) (v : Nat) (n : String) : Nat :=
  cs.countP (fun c => c.mod = v ∧ c.sym = some n)

/-- How many whole-module chunks of the list belong to module `v`. -/
def wholeCount (cs : List Chunk) (v : Nat) : Nat :=
  cs.countP (fun c => c.mod = v ∧ c.sym = none)

/-- All chunks of module `w` occur before all chunks of module `v`. -/
def precede (cs : List Chunk) (w v : Nat) : Prop :=
  ∀ i j (hi : i < cs.length) (hj : j < cs.length),
    (cs.get ⟨i, hi⟩).mod = w → (cs.get ⟨j, hj⟩).mod = v → i < j


/-!
## Invariants and landing predicates used by the engine proofs
-/

/-- Invariant of the propagation state: a module's requirement set only
holds keys of that module's `global_defines` (the implicit safety
invariant behind the unguarded `code.global_defines[req]` lookup). -/
def ReqWF (P : Program) (st : PState) : Prop :=
  ∀ m n, n ∈ st.req m → n ∈ (P.src m).defNames

/-- Pointwise growth of propagation states. -/
def stLE (s t : PState) : Prop :=
  ∀ m, s.req m ⊆ t.req m ∧ s.ext m ⊆ t.ext m

/-- Every forwarding target of name `n` pending at module `m` has landed
in the state: in the target's requirement set when it is a definition
there, in the target's external set otherwise. -/
def CrossLanded (P : Program) (st : PState) (m : Nat) (n : String) : Prop :=
  ∀ p ∈ crossSteps P m n,
    (p.2 ∈ (P.src p.1).defNames → p.2 ∈ st.req p.1) ∧
    (p.2 ∉ (P.src p.1).defNames → p.2 ∈ st.ext p.1)

/-- Every dependency of required name `n` of module `m` has landed in the
state. -/
def DepsLanded (P : Program) (st : PState) (m : Nat) (n : String) : Prop :=
  ∀ d ∈ (P.src m).dependency n,
    (d ∈ (P.src m).defNames → d ∈ st.req m) ∧
    (d ∉ (P.src m).defNames → d ∈ st.ext m)

/-- Whether a module `v` can emit shaken chunks in the given assembler
mode: every module except the root one (the `.one` call with an empty
visited set). -/
def prootOK : PMode → Finset Nat → Nat → Bool
  | .one m, vis, v => decide (vis ≠ ∅) || decide (v ≠ m)
  | .imps _ _, _, _ => true

/-- Whether a module `v` can emit a whole-module chunk in the given
assembler mode: always when shaking is off, otherwise only as the root. -/
def pwholeOK (shake : Bool) : PMode → Finset Nat → Nat → Bool
  | .one m, vis, v => !shake || (decide (vis = ∅) && decide (v = m))
  | .imps _ _, _, _ => !shake

/-- Mode precondition for the assembler lemmas: a `_pack_from` call is
only made on an unvisited module. -/
def PModeOK : PMode → Finset Nat → Prop
  | .one m, vis => m ∉ vis
  | .imps _ _, _ => True

/-- Split form of "all chunks of module `w` occur before all chunks of
module `v`": the list splits into a left part without `v`-chunks and a
right part without `w`-chunks. -/
def precedeS (cs : List Chunk) (w v : Nat) : Prop :=
  ∃ l1 l2, cs = l1 ++ l2 ∧ (∀ c ∈ l2, c.mod ≠ w) ∧ (∀ c ∈ l1, c.mod ≠ v)

/-- Mode precondition: the import loop is only entered with a nonempty
visited set (the module being processed was just inserted). -/
def PModeVis : PMode → Finset Nat → Prop
  | .one _, _ => True
  | .imps _ _, vis => vis ≠ ∅

/-- Mode precondition: an import-loop mode only walks entries of the
module's true import list (it is always entered on a suffix of it). -/
def PModeSub (P : Program) : PMode → Prop
  | .one _ => True
  | .imps m l => ∀ i ∈ l, i ∈ (P.src m).imports

/-- Edge-closedness of the final visited set relative to a mode: the
module of a `.one` call has all its import edges landing inside; an
import-loop suffix has all its remaining resolvable non-plain entries
landing inside. -/
def modeClosed (P : Program) (vis2 : Finset Nat) : PMode → Prop
  | .one m => ∀ w, Edge P m w → w ∈ vis2
  | .imps m l => ∀ i ∈ l, ∀ w, (∀ mod a, i ≠ Imp.mod mod a) →
      P.resolve m i.moduleOf = some w → w ∈ vis2

/-- The module a mode is working on. -/
def modeRoot : PMode → Nat
  | .one m => m
  | .imps m _ => m

/-- Justification of an engine mode by the closure: every name of a mark
batch has arrived at its module; every pending name of a gather suffix has
all its remaining forwarding targets arriving. -/
def ModeJust (P : Program) : EMode → Prop
  | .mark m R => ∀ n ∈ R, Clo P .arr m n
  | .gather m imps R =>
      ∀ n ∈ R, ∀ p ∈ crossGo (P.resolve m) imps n, Clo P .arr p.1 p.2

/-- Justification of a propagation state by the closure: requirement sets
are required names; external sets are external names (or the entry seeds,
which `pack` records before propagation runs). -/
def StJust (P : Program) (st : PState) : Prop :=
  (∀ m n, n ∈ st.req m → Clo P .rq m n) ∧
  (∀ m n, n ∈ st.ext m →
    Clo P .ext m n ∨ (m = P.entry ∧ n ∈ (P.src P.entry).unresolved))

/-- Landing obligations of an engine mode, relative to the state the
engine call returns: every mark-batch name lands (required when defined,
external otherwise); every gather-pending name's remaining forwarding
targets land at their modules. -/
def ModeLand (P : Program) (st2 : PState) : EMode → Prop
  | .mark m R => ∀ n ∈ R,
      (n ∈ (P.src m).defNames → n ∈ st2.req m) ∧
      (n ∉ (P.src m).defNames → n ∈ st2.ext m)
  | .gather m imps R =>
      ∀ n ∈ R, ∀ p ∈ crossGo (P.resolve m) imps n,
        (p.2 ∈ (P.src p.1).defNames → p.2 ∈ st2.req p.1) ∧
        (p.2 ∉ (P.src p.1).defNames → p.2 ∈ st2.ext p.1)

/-!
## Spec-side reference sets, the non-import statements of a bundle, and
concrete example programs used by witnesses and counterexamples
-/

/-- The names an expression reads (`ast.Name` in `Load` context),
including nested subexpressions. -/
def Expr.refs : Expr → Finset String
  | .const => ∅
  | .nm n => {n}
  | .bin a b => a.refs ∪ b.refs

/-- The names a statement list refers to (reads), including inside the
bodies of definitions — the spec's "the statement list refers to `Z`". -/
def stmtsRefs : List Stmt → Finset String
  | [] => ∅
  | .imprt _ :: r => stmtsRefs r
  | .impFrom _ _ _ :: r => stmtsRefs r
  | .asgn _ e :: r => e.refs ∪ stmtsRefs r
  | .exprS e :: r => e.refs ∪ stmtsRefs r
  | .fdef _ _ body _ _ :: r => stmtsRefs body ∪ stmtsRefs r

/-- The statements of a bundle that are not import statements (the part of
the output the spec's "differs only in import-statement formatting"
leaves fixed). -/
def nonImports (l : List Stmt) : List Stmt :=
  l.filter fun s =>
    match s with
    | .imprt _ => false
    | .impFrom _ _ _ => false
    | _ => true

/-- The entry module of the three-module example: reads the undefined
global `g` and star-imports `m`. -/
def MexA : Module where
  name := "main.py"
  imports := [.star "m"]
  defines := []
  dependency := fun k => if k = "" then {"g"} else ∅
  unresolved := {"g"}
  body := [.impFrom 0 "m" [("*", none)], .exprS (.nm "g")]

/-- The middle module of the three-module example: re-exports `g` from `n`
via a from-import and has no definitions of its own. -/
def MexB : Module where
  name := "m.py"
  imports := [.fromI "n" "g" "g"]
  defines := []
  dependency := fun _ => ∅
  unresolved := ∅
  body := [.impFrom 0 "n" [("g", none)]]

/-- The definition of `g` in the leaf module of the three-module example. -/
def gdef : Stmt := .fdef ("g") [] [.exprS .const] 3 0

/-- The leaf module of the three-module example: defines `g`. -/
def MexC : Module where
  name := "n.py"
  imports := []
  defines := [("g", gdef)]
  dependency := fun _ => ∅
  unresolved := ∅
  body := [gdef]

/-- The three-module example program: `0 = MexA` star-imports `1 = MexB`,
which from-imports `g` from `2 = MexC`. -/
def Pc : Program where
  mods := [0, 1, 2]
  entry := 0
  src := fun m => if m = 0 then MexA else if m = 1 then MexB else MexC
  resolve := fun m s =>
    if m = 0 ∧ s = "m" then some 1
    else if m = 1 ∧ s = "n" then some 2
    else none

/-- First module of the cyclic example: star-imports the other. -/
def McyA : Module where
  name := "a.py"
  imports := [.star "b"]
  defines := []
  dependency := fun _ => ∅
  unresolved := ∅
  body := [.impFrom 0 "b" [("*", none)], .exprS .const]

/-- Second module of the cyclic example: star-imports the first. -/
def McyB : Module where
  name := "b.py"
  imports := [.star "a"]
  defines := []
  dependency := fun _ => ∅
  unresolved := ∅
  body := [.impFrom 0 "a" [("*", none)], .exprS .const]

/-- The two-module cyclic program: `0` star-imports `1` and `1`
star-imports `0`. -/
def Pcyc : Program where
  mods := [0, 1]
  entry := 0
  src := fun m => if m = 0 then McyA else McyB
  resolve := fun m s =>
    if m = 0 ∧ s = "b" then some 1
    else if m = 1 ∧ s = "a" then some 0
    else none

/-- A single module with an aliased from-import whose alias `z` is never
referred to by any statement. -/
def Malias : Module where
  name := "main.py"
  imports := [.fromI "x" "y" "z"]
  defines := []
  dependency := fun k => if k = "" then {"a"} else ∅
  unresolved := {"a"}
  body := [.impFrom 0 "x" [("y", some "z")], .exprS (.nm "a")]

/-- The one-module program around `Malias`; nothing resolves. -/
def Palias : Program where
  mods := [0]
  entry := 0
  src := fun _ => Malias
  resolve := fun _ _ => none


/-!
## The symbol/dependency extractor: `SourceCodeReader` of `source_code.py`

The reader walks the AST keeping `defined_stack` (a stack of scopes) and
`curr_top_def_name`, and fills the module model's `imports`,
`global_defines`, `dependency` and `unresolved_globals`.  We model
`defined_stack[0]` as `glob` and `defined_stack[1:]` (topmost first) as
`scopes`.
-/

/-- The mutable state of `SourceCodeReader` together with the `SourceCode`
fields it fills in. -/
structure RState where
  glob : Finset String
  scopes : List (Finset String)
  curr : String
  imports : List Imp
  gdefs : List (String × Stmt)
  dep : String → Finset String
  unres : Finset String

/-- The initial reader state: `defined_stack = [set()]`,
`curr_top_def_name = ""`, everything else empty. -/
def initR : RState :=
  ⟨∅, [], "", [], [], fun _ => ∅, ∅⟩

/-- `SourceCodeReader.add_name_read`.  The Python loop walks
`defined_stack` from the top down; a name found in a local scope returns
before index `0` is reached; at index `0` the dependency edge
`dependency[curr_top_def_name] += {name}` is recorded *before* the
membership test on the global scope; a name found nowhere is added to
`unresolved_globals`.  The first line returns unchanged on a read of the
definition currently being scanned. -/
def addNameRead (st : RState) (name : String) : RState :=
  if name = st.curr then st
  else if st.scopes.any (fun d => name ∈ d) then st
  else
    let dep2 : String → Finset String :=
      fun k => if k = st.curr then insert name (st.dep k) else st.dep k
    if name ∈ st.glob then { st with dep := dep2 }
    else { st with dep := dep2, unres := insert name st.unres }

/-- `visit_Name` in `Store` context: add to the innermost scope. -/
def addStore (st : RState) (name : String) : RState :=
  match st.scopes with
  | [] => { st with glob := insert name st.glob }
  | d :: rest => { st with scopes := insert name d :: rest }

/-- `add_define`: bind the definition's name in the innermost scope and,
at module level, record it in `global_defines`. -/
def addDefine (st : RState) (name : String) (s : Stmt) : RState :=
  match st.scopes with
  | [] => { st with glob := insert name st.glob, gdefs := st.gdefs ++ [(name, s)] }
  | d :: rest => { st with scopes := insert name d :: rest }

/-- Reading an expression left-to-right (`generic_visit` order): every
`ast.Name` in `Load` context goes through `add_name_read`. -/
def visitExpr (st : RState) : Expr → RState
  | .const => st
  | .nm n => addNameRead st n
  | .bin a b => visitExpr (visitExpr st a) b

/-- Entering `handle_visit_scope` for a definition: `add_define`, set
`curr_top_def_name` at module level, push a scope holding the argument
names. -/
def scopePush (st : RState) (name : String) (args : List String)
    (body : List Stmt) (ln c : Nat) : RState :=
  let st1 := addDefine st name (.fdef name args body ln c)
  let st2 := if st1.scopes.isEmpty then { st1 with curr := name } else st1
  { st2 with scopes := args.toFinset :: st2.scopes }

/-- Leaving `handle_visit_scope`: pop the scope and reset
`curr_top_def_name` back at module level. -/
def scopePop (st : RState) : RState :=
  let st5 := { st with scopes := st.scopes.tail }
  if st5.scopes.isEmpty then { st5 with curr := "" } else st5

/-- The reader's statement walk, fuelled (the AST nesting is finite but
not structural for Lean).  `visit_Import`/`visit_ImportFrom` append to
the import group; `visit_Name(Store)` on an assignment target runs before the
value is read; `handle_visit_scope` records the definition, sets
`curr_top_def_name` at module level, pushes a scope holding the argument
names, walks the body, pops, and resets `curr_top_def_name` back at module
level. -/
def visitStmts : Nat → List Stmt → RState → Option RState
  | 0, _, _ => none
  | _ + 1, [], st => some st
  | f + 1, s :: r, st =>
    match s with
    | .imprt names =>
        visitStmts f r
          { st with imports := st.imports ++ groupAddStmt (.imprt names) }
    | .impFrom lvl m names =>
        visitStmts f r
          { st with imports := st.imports ++ groupAddStmt (.impFrom lvl m names) }
    | .asgn z e => visitStmts f r (visitExpr (addStore st z) e)
    | .exprS e => visitStmts f r (visitExpr st e)
    | .fdef name args body ln c => do
        let st4 ← visitStmts f body (scopePush st name args body ln c)
        visitStmts f r (scopePop st4)

/-- `SourceCode.__init__` + reader walk: build the module model of a
statement list (`root_ast.body`). -/
def mkModule (name : String) (f : Nat) (body : List Stmt) : Option Module :=
  (visitStmts f body initR).map fun st =>
    { name := name, imports := st.imports, defines := st.gdefs,
      dependency := st.dep, unresolved := st.unres, body := body }

/-- The one-module program around `M` in which no import resolves locally. -/
def oneModP (M : Module) : Program where
  mods := [0]
  entry := 0
  src := fun _ => M
  resolve := fun _ _ => none

/-- All import entries a statement list contributes (including inside
definition bodies), in visit order. -/
def stmtsImports : List Stmt → List Imp
  | [] => []
  | .imprt names :: r => groupAddStmt (.imprt names) ++ stmtsImports r
  | .impFrom lvl m names :: r =>
      groupAddStmt (.impFrom lvl m names) ++ stmtsImports r
  | .asgn _ _ :: r => stmtsImports r
  | .exprS _ :: r => stmtsImports r
  | .fdef _ _ body _ _ :: r => stmtsImports body ++ stmtsImports r

/-- A fuel bound sufficient for the reader to walk a statement list. -/
def stmtsFuel : List Stmt → Nat
  | [] => 1
  | .fdef _ _ body _ _ :: r => stmtsFuel body + stmtsFuel r + 1
  | _ :: r => stmtsFuel r + 1

/-- The aliased-from-import module for the re-bundling counterexample:
`from x import y as z` followed by `a = z`. -/
def Mc7 : Module where
  name := "main.py"
  imports := [.fromI "x" "y" "z"]
  defines := []
  dependency := fun k => if k = "" then {"z"} else ∅
  unresolved := {"z"}
  body := [.impFrom 0 "x" [("y", some "z")], .asgn "a" (.nm "z")]

/-- A module whose from-imports carry no nontrivial alias, for the
re-bundling fixed-point witness. -/
def Mc7w : Module where
  name := "main.py"
  imports := [.fromI "x" "y" "y"]
  defines := []
  dependency := fun k => if k = "" then {"y"} else ∅
  unresolved := {"y"}
  body := [.impFrom 0 "x" [("y", none)], .exprS (.nm "y")]


/-!
## The resolver (`find_spec_from` of `core/import_resolve.py`) and the
module cache (`get_source_code` / `get_import` of `core/impacker.py`)

The file system is abstracted as a set of canonical absolute paths; a
`pathlib.Path` value is a spelling: an absolute/relative flag plus
segments.  `Path` equality (the cache key) is spelling equality; existence
on disk is canonical.  `PathFinder.find_spec` (CPython stdlib) is a
parameter of the resolver embedding; a concrete model of it over the same
file-system abstraction (`pathFinder`) is used for concrete scenarios.
-/

/-- A `pathlib.Path` value: absolute or relative, with its segments.
Joining drops empty segments and `parent` drops the last one, as
`pathlib` does. -/
structure FPath where
  abs : Bool
  segs : List String
deriving DecidableEq, Repr

/-- `path / seg` (empty segments are ignored by `pathlib`). -/
def FPath.child (p : FPath) (s : String) : FPath :=
  if s = "" then p else ⟨p.abs, p.segs ++ [s]⟩

/-- `path.parent` (the parent of a root is itself). -/
def FPath.parent (p : FPath) : FPath :=
  ⟨p.abs, p.segs.dropLast⟩

/-- `path.parent` iterated. -/
def parentN : Nat → FPath → FPath
  | 0, p => p
  | n + 1, p => parentN n p.parent

/-- The file system: a working directory and the canonical absolute paths
that exist as files and as directories. -/
structure FileSys where
  cwd : List String
  files : List (List String)
  dirs : List (List String)

/-- The canonical absolute path a spelling denotes. -/
def canonP (fs : FileSys) (p : FPath) : List String :=
  if p.abs then p.segs else fs.cwd ++ p.segs

/-- `path.is_file()`. -/
def FileSys.isFile (fs : FileSys) (p : FPath) : Bool :=
  canonP fs p ∈ fs.files

/-- `path.is_dir()`. -/
def FileSys.isDir (fs : FileSys) (p : FPath) : Bool :=
  canonP fs p ∈ fs.dirs

/-- Well-formedness of the file system: the parent of anything that
exists is a directory. -/
structure FileSys.WF (fs : FileSys) : Prop where
  wf_file : ∀ p : FPath, fs.isFile p = true → fs.isDir p.parent = true
  wf_dir : ∀ p : FPath, fs.isDir p = true → fs.isDir p.parent = true

/-- A `ModuleSpec`: its `origin` path and its
`submodule_search_locations`. -/
structure MSpec where
  origin : FPath
  locs : Option (List FPath)
deriving DecidableEq, Repr

/-- `str.split('.')` on the character level (kept kernel-computable). -/
def splitDotsAux : List Char → List (List Char)
  | [] => [[]]
  | c :: r =>
    if c = '.' then [] :: splitDotsAux r
    else
      match splitDotsAux r with
      | [] => [[c]]
      | g :: gs => (c :: g) :: gs

/-- `module.split('.')`. -/
def splitDots (s : String) : List String :=
  (splitDotsAux s.toList).map (fun l => String.mk l)

/-- `module.partition('.')` restricted to the pieces `find_spec_from`
uses: the part before the first dot and the part after it. -/
def partitionDot (s : String) : String × String :=
  let l := s.toList
  let pre := l.takeWhile (fun c => c ≠ '.')
  (String.mk pre, String.mk (l.drop (pre.length + 1)))

/-- The segment walk of the relative branch of `find_spec_from`:
intermediate segments only extend the directory path; the final segment
is tried as `{segment}.py`, then as a package directory holding
`__init__.py`. -/
def walkSegs (fs : FileSys) (module : String) : FPath → List String → Option MSpec
  | _, [] => none
  | relDir, [seg] =>
    let fileP := relDir.child (seg ++ ".py")
    if fs.isFile fileP then some ⟨fileP, none⟩
    else
      let dirP := relDir.child seg
      if fs.isDir dirP then
        let initP := dirP.child "__init__.py"
        if fs.isFile initP then some ⟨initP, some [dirP]⟩ else none
      else none
  | relDir, seg :: rest => walkSegs fs module (relDir.child seg) rest

/-- The relative branch of `find_spec_from`: climb `level` parents from
the origin, `assert rel_dir.is_dir()` (modelled as `Except.error`), then
resolve the remaining dotted name (or the package `__init__.py` when it
is empty). -/
def relBranch (fs : FileSys) (origin : FPath) (level : Nat) (module : String) :
    Except Unit (Option MSpec) :=
  let relDir := parentN level origin
  if fs.isDir relDir = false then .error ()
  else if module = "" then
    let initP := relDir.child "__init__.py"
    .ok (if fs.isFile initP then some ⟨initP, some [relDir]⟩ else none)
  else
    .ok (walkSegs fs module relDir (splitDots module))

/-- The body of `find_spec_from` after the search locations are fixed:
for an absolute import try `pf` on the module, then fall back to
resolving the root package with `pf` and treating the rest as a
relative import from it; for a relative import walk from the importing file's
directory. -/
def findSpecCore (fs : FileSys)
    (pf : String → Option (List FPath) → Option MSpec)
    (module : String) (origin : FPath) (fromLocs : Option (List FPath)) :
    Except Unit (Option MSpec) :=
  let lm := splitModuleName module
  if lm.1 = 0 then
    match pf lm.2 fromLocs with
    | some spec => .ok (some spec)
    | none =>
      let rr := partitionDot lm.2
      if rr.2 = "" then .ok none
      else
        match pf rr.1 fromLocs with
        | none => .ok none
        | some spec2 => relBranch fs spec2.origin 1 ("." ++ rr.2)
  else
    relBranch fs origin lm.1 lm.2

/-- `find_spec_from` of `core/import_resolve.py`, with
`PathFinder.find_spec` abstracted as `pf`: default the search locations
from the importing spec (plus `sys_path`), then resolve. -/
def findSpecFrom (fs : FileSys) (pf : String → Option (List FPath) → Option MSpec)
    (sysPath : List FPath) (module : String) (fromSpec : MSpec)
    (fromLocs0 : Option (List FPath)) : Except Unit (Option MSpec) :=
  let fromLocs : Option (List FPath) :=
    match fromLocs0 with
    | none =>
      match fromSpec.locs with
      | some l => some (l ++ sysPath)
      | none => none
    | some l => some l
  findSpecCore fs pf module fromSpec.origin fromLocs

/-- The last dotted component of a module name (`fullname.rpartition('.')[2]`,
what `FileFinder` searches for). -/
def lastComponent (s : String) : String :=
  (splitDots s).getLastD s

/-- `FileFinder` on one path entry: a package directory with
`__init__.py` wins over a plain `{name}.py` file. -/
def pfOne (fs : FileSys) (name : String) : List FPath → Option MSpec
  | [] => none
  | loc :: rest =>
    let dirP := loc.child name
    let initP := dirP.child "__init__.py"
    if fs.isDir dirP && fs.isFile initP then some ⟨initP, some [dirP]⟩
    else
      let fileP := loc.child (name ++ ".py")
      if fs.isFile fileP then some ⟨fileP, none⟩
      else pfOne fs name rest

/-- A model of `PathFinder.find_spec(module, locs)` over the file-system
abstraction: search each location for the final dotted component. -/
def pathFinder (fs : FileSys) (module : String)
    (locs : Option (List FPath)) : Option MSpec :=
  match locs with
  | none => none
  | some l => pfOne fs (lastComponent module) l

/-- `SourceCode.__init__`: a falsy `submodule_search_locations` is
replaced by the origin's directory. -/
def defaultLocs (sp : MSpec) : MSpec :=
  match sp.locs with
  | none => { sp with locs := some [sp.origin.parent] }
  | some [] => { sp with locs := some [sp.origin.parent] }
  | some _ => sp

/-- First-bound lookup in an association list. -/
def lookupCache (c : List (FPath × Nat)) (k : FPath) : Option Nat :=
  (c.find? (fun p => p.1 = k)).map Prod.snd

/-- Lookup in the import cache. -/
def lookupImp (c : List ((Nat × String) × Option Nat)) (k : Nat × String) :
    Option (Option Nat) :=
  (c.find? (fun p => p.1 = k)).map Prod.snd

/-- The cache state of one `Impacker` run: `_source_code_cache` keyed by
the raw `Path(spec.origin)`, the loaded specs by identity, the
per-module import cache `_source_code_import_cache`, and a log of every parse
(`SourceCode(spec)` construction). -/
structure CacheSt where
  cache : List (FPath × Nat)
  specs : List MSpec
  impCache : List ((Nat × String) × Option Nat)
  parseLog : List FPath

/-- `_put_source_code` on a freshly constructed `SourceCode` (the entry
module: parsed by the caller, not logged here). -/
def putSourceCode (st : CacheSt) (sp : MSpec) : CacheSt × Nat :=
  let cid := st.specs.length
  ({ st with
      cache := st.cache ++ [(sp.origin, cid)],
      specs := st.specs ++ [defaultLocs sp] }, cid)

/-- `get_source_code`: return the cached module for the raw origin path,
else parse (`SourceCode(spec)`, logged) and put. -/
def getSourceCode (st : CacheSt) (sp : MSpec) : CacheSt × Nat :=
  match lookupCache st.cache sp.origin with
  | some cid => (st, cid)
  | none =>
    let cid := st.specs.length
    ({ st with
        cache := st.cache ++ [(sp.origin, cid)],
        specs := st.specs ++ [defaultLocs sp],
        parseLog := st.parseLog ++ [sp.origin] }, cid)

/-- `get_import`: memoize `find_spec_from` + `get_source_code` per
`(module identity, module string)`. -/
def getImport (fs : FileSys) (pf : String → Option (List FPath) → Option MSpec)
    (sysPath : List FPath) (st : CacheSt) (cid : Nat) (module : String) :
    Except Unit (CacheSt × Option Nat) :=
  match lookupImp st.impCache (cid, module) with
  | some r => .ok (st, r)
  | none =>
    match st.specs[cid]? with
    | none => .error ()
    | some sp =>
      match findSpecFrom fs pf sysPath module sp none with
      | .error e => .error e
      | .ok none =>
        .ok ({ st with impCache := st.impCache ++ [((cid, module), none)] }, none)
      | .ok (some sp2) =>
        let r := getSourceCode st sp2
        .ok ({ r.1 with impCache := r.1.impCache ++ [((cid, module), some r.2)] },
          some r.2)

/-- One cache-layer call of a pack run. -/
inductive CCall where
  | put : MSpec → CCall
  | gimp : Nat → String → CCall

/-- A sequence of cache-layer calls. -/
def runCalls (fs : FileSys) (pf : String → Option (List FPath) → Option MSpec)
    (sysPath : List FPath) : List CCall → CacheSt → Except Unit CacheSt
  | [], st => .ok st
  | .put sp :: r, st => runCalls fs pf sysPath r (putSourceCode st sp).1
  | .gimp cid m :: r, st => do
    let s2 ← getImport fs pf sysPath st cid m
    runCalls fs pf sysPath r s2.1

/-- Which import entries `_pack_from` keeps for a module none of whose
imports resolve. -/
def keepImp (shake : Bool) (st : PState) (m : Nat) : Imp → Bool
  | .mod _ a => !shake || decide (a ∈ st.ext m)
  | .star _ => !shake || decide (st.ext m ≠ ∅)
  | .fromI _ _ _ => !shake || decide (st.ext m ≠ ∅)

/-- A module with a single unused unresolvable from-import and no
unresolved globals. -/
def Mdrop : Module where
  name := "main.py"
  imports := [.fromI "x" "y" "z"]
  defines := []
  dependency := fun _ => ∅
  unresolved := ∅
  body := [.impFrom 0 "x" [("y", some "z")]]

/-- The file system of the double-parse scenario: working directory
`/lib` holding `main.py`, `m.py` and `sub/b.py`. -/
def fs6 : FileSys where
  cwd := ["lib"]
  files := [["lib", "main.py"], ["lib", "sub", "b.py"], ["lib", "m.py"]]
  dirs := [[], ["lib"], ["lib", "sub"]]

/-- `sys_path` of the scenario: `/lib` (e.g. via `PYTHONPATH`). -/
def sysP6 : List FPath := [⟨true, ["lib"]⟩]

/-- The final cache state of the double-parse scenario (the run
`put main.py; get_import(entry, ".sub.b"); get_import(b, "m");
get_import(entry, "m")` on `fs6`). -/
def c6final : CacheSt :=
  ⟨[(⟨false, ["main.py"]⟩, 0), (⟨false, ["sub", "b.py"]⟩, 1),
    (⟨true, ["lib", "m.py"]⟩, 2), (⟨false, ["m.py"]⟩, 3)],
   [⟨⟨false, ["main.py"]⟩, some [⟨false, []⟩]⟩,
    ⟨⟨false, ["sub", "b.py"]⟩, some [⟨false, ["sub"]⟩]⟩,
    ⟨⟨true, ["lib", "m.py"]⟩, some [⟨true, ["lib"]⟩]⟩,
    ⟨⟨false, ["m.py"]⟩, some [⟨false, []⟩]⟩],
   [((0, ".sub.b"), some 1), ((1, "m"), some 2), ((0, "m"), some 3)],
   [⟨false, ["sub", "b.py"]⟩, ⟨true, ["lib", "m.py"]⟩, ⟨false, ["m.py"]⟩]⟩

/-- A simple well-formed file system for the resolver witness: one file
`a.py` in the root directory. -/
def fsW : FileSys where
  cwd := []
  files := [["a.py"]]
  dirs := [[]]


/-!
# Theorems

## Inner while-loop lemmas
-/

theorem innerLoopF_zero (defs : Finset String) (deps : String → Finset String)
    (rs ex R : Finset String) : innerLoopF defs deps 0 rs ex R = none := rfl

theorem innerLoopF_succ (defs : Finset String) (deps : String → Finset String)
    (f : Nat) (rs ex R : Finset String) :
    innerLoopF defs deps (f + 1) rs ex R =
    if R = ∅ then some (rs, ex)
    else
      innerLoopF defs deps f
        (rs ∪ (R.filter (fun n => n ∉ rs ∧ n ∉ ex)).filter (fun n => n ∈ defs))
        (ex ∪ (R.filter (fun n => n ∉ rs ∧ n ∉ ex)).filter (fun n => n ∉ defs))
        (((R.filter (fun n => n ∉ rs ∧ n ∉ ex)).filter
          (fun n => n ∈ defs)).biUnion deps) := rfl

theorem innerLoopF_isSome (defs : Finset String) (deps : String → Finset String) :
    ∀ (f : Nat) (rs ex R : Finset String),
    (defs \ rs).card + 2 ≤ f → (innerLoopF defs deps f rs ex R).isSome := by
  intro f
  induction f with
  | zero => intro rs ex R h; omega
  | succ f ih =>
    intro rs ex R h
    rw [innerLoopF_succ]
    by_cases hR : R = ∅
    · simp [hR]
    · simp only [hR, if_false]
      set active := R.filter (fun n => n ∉ rs ∧ n ∉ ex) with hact
      set newDefs := active.filter (fun n => n ∈ defs) with hnd
      set newExts := active.filter (fun n => n ∉ defs) with hne
      by_cases hnde : newDefs = ∅
      · obtain ⟨f2, rfl⟩ : ∃ f2, f = f2 + 1 := ⟨f - 1, by omega⟩
        rw [innerLoopF_succ]
        simp [hnde]
      · apply ih
        have hsub : newDefs ⊆ defs \ rs := by
          intro x hx
          rw [hnd] at hx
          have hx1 := Finset.mem_filter.mp hx
          have hx2 := Finset.mem_filter.mp hx1.1
          exact Finset.mem_sdiff.mpr ⟨hx1.2, hx2.2.1⟩
        have hlt : (defs \ (rs ∪ newDefs)).card < (defs \ rs).card := by
          have heq : defs \ (rs ∪ newDefs) = (defs \ rs) \ newDefs := by
            ext x; simp [Finset.mem_sdiff]; tauto
          rw [heq]
          exact Finset.card_lt_card
            (Finset.sdiff_ssubset hsub (Finset.nonempty_iff_ne_empty.mpr hnde))
        omega

theorem innerLoopF_grow (defs : Finset String) (deps : String → Finset String) :
    ∀ (f : Nat) (rs ex R r2 e2 : Finset String),
    innerLoopF defs deps f rs ex R = some (r2, e2) →
    rs ⊆ r2 ∧ ex ⊆ e2 := by
  intro f
  induction f with
  | zero => intro rs ex R r2 e2 h; simp [innerLoopF_zero] at h
  | succ f ih =>
    intro rs ex R r2 e2 h
    rw [innerLoopF_succ] at h
    by_cases hR : R = ∅
    · simp [hR] at h
      exact ⟨h.1 ▸ Finset.Subset.refl _, h.2 ▸ Finset.Subset.refl _⟩
    · simp only [hR, if_false] at h
      obtain ⟨h1, h2⟩ := ih _ _ _ _ _ h
      exact ⟨(Finset.subset_union_left).trans h1, (Finset.subset_union_left).trans h2⟩

theorem innerLoopF_just (defs : Finset String) (deps : String → Finset String)
    (J : String → Prop)
    (hJd : ∀ n, J n → n ∈ defs → ∀ d ∈ deps n, J d) :
    ∀ (f : Nat) (rs ex R r2 e2 : Finset String),
    innerLoopF defs deps f rs ex R = some (r2, e2) →
    (∀ n ∈ R, J n) →
    (∀ n ∈ r2, n ∈ rs ∨ (J n ∧ n ∈ defs)) ∧
    (∀ n ∈ e2, n ∈ ex ∨ (J n ∧ n ∉ defs)) := by
  intro f
  induction f with
  | zero => intro rs ex R r2 e2 h; simp [innerLoopF_zero] at h
  | succ f ih =>
    intro rs ex R r2 e2 h hR
    rw [innerLoopF_succ] at h
    by_cases hRe : R = ∅
    · simp [hRe] at h
      constructor
      · intro n hn; exact Or.inl (h.1 ▸ hn)
      · intro n hn; exact Or.inl (h.2 ▸ hn)
    · simp only [hRe, if_false] at h
      have hRJ : ∀ n ∈ (R.filter (fun n => n ∉ rs ∧ n ∉ ex)).filter
          (fun n => n ∈ defs), J n := by
        intro n hn
        have := Finset.mem_filter.mp (Finset.mem_filter.mp hn).1
        exact hR n this.1
      have hnext : ∀ n ∈ ((R.filter (fun n => n ∉ rs ∧ n ∉ ex)).filter
          (fun n => n ∈ defs)).biUnion deps, J n := by
        intro n hn
        obtain ⟨p, hp, hn2⟩ := Finset.mem_biUnion.mp hn
        have hJp := hRJ p hp
        have hpd : p ∈ defs := (Finset.mem_filter.mp hp).2
        exact hJd p hJp hpd n hn2
      obtain ⟨h1, h2⟩ := ih _ _ _ _ _ h hnext
      constructor
      · intro n hn
        rcases h1 n hn with hcase | hcase
        · rcases Finset.mem_union.mp hcase with hc | hc
          · exact Or.inl hc
          · exact Or.inr ⟨hRJ n hc, (Finset.mem_filter.mp hc).2⟩
        · exact Or.inr hcase
      · intro n hn
        rcases h2 n hn with hcase | hcase
        · rcases Finset.mem_union.mp hcase with hc | hc
          · exact Or.inl hc
          · refine Or.inr ⟨?_, (Finset.mem_filter.mp hc).2⟩
            have := Finset.mem_filter.mp (Finset.mem_filter.mp hc).1
            exact hR n this.1
        · exact Or.inr hcase

theorem innerLoopF_land (defs : Finset String) (deps : String → Finset String) :
    ∀ (f : Nat) (rs ex R r2 e2 : Finset String),
    innerLoopF defs deps f rs ex R = some (r2, e2) →
    (∀ x ∈ ex, x ∉ defs) → (∀ x ∈ rs, x ∈ defs) →
    ∀ n ∈ R, (n ∈ defs → n ∈ r2) ∧ (n ∉ defs → n ∈ e2) := by
  intro f
  induction f with
  | zero => intro rs ex R r2 e2 h; simp [innerLoopF_zero] at h
  | succ f ih =>
    intro rs ex R r2 e2 h hex hrs n hn
    rw [innerLoopF_succ] at h
    have hRe : R ≠ ∅ := Finset.nonempty_iff_ne_empty.mp ⟨n, hn⟩
    simp only [hRe, if_false] at h
    obtain ⟨hg1, hg2⟩ := innerLoopF_grow defs deps _ _ _ _ _ _ h
    have hex2 : ∀ x ∈ ex ∪ (R.filter (fun n => n ∉ rs ∧ n ∉ ex)).filter
        (fun n => n ∉ defs), x ∉ defs := by
      intro x hx
      rcases Finset.mem_union.mp hx with hc | hc
      · exact hex x hc
      · exact (Finset.mem_filter.mp hc).2
    have hrs2 : ∀ x ∈ rs ∪ (R.filter (fun n => n ∉ rs ∧ n ∉ ex)).filter
        (fun n => n ∈ defs), x ∈ defs := by
      intro x hx
      rcases Finset.mem_union.mp hx with hc | hc
      · exact hrs x hc
      · exact (Finset.mem_filter.mp hc).2
    constructor
    · intro hd
      by_cases hmem : n ∈ rs
      · exact hg1 (Finset.mem_union_left _ hmem)
      · have hne : n ∉ ex := fun hc => hex n hc hd
        have : n ∈ (R.filter (fun n => n ∉ rs ∧ n ∉ ex)).filter
            (fun n => n ∈ defs) := by
          refine Finset.mem_filter.mpr ⟨Finset.mem_filter.mpr ⟨hn, hmem, hne⟩, hd⟩
        exact hg1 (Finset.mem_union_right _ this)
    · intro hd
      by_cases hmem : n ∈ ex
      · exact hg2 (Finset.mem_union_left _ hmem)
      · have hnrs : n ∉ rs := fun hc => hd (hrs n hc)
        have : n ∈ (R.filter (fun n => n ∉ rs ∧ n ∉ ex)).filter
            (fun n => n ∉ defs) := by
          refine Finset.mem_filter.mpr ⟨Finset.mem_filter.mpr ⟨hn, hnrs, hmem⟩, hd⟩
        exact hg2 (Finset.mem_union_right _ this)

theorem innerLoopF_deps (defs : Finset String) (deps : String → Finset String) :
    ∀ (f : Nat) (rs ex R r2 e2 : Finset String),
    innerLoopF defs deps f rs ex R = some (r2, e2) →
    (∀ x ∈ ex, x ∉ defs) → (∀ x ∈ rs, x ∈ defs) →
    ∀ n ∈ r2, n ∉ rs →
    ∀ d ∈ deps n, (d ∈ defs → d ∈ r2) ∧ (d ∉ defs → d ∈ e2) := by
  intro f
  induction f with
  | zero => intro rs ex R r2 e2 h; simp [innerLoopF_zero] at h
  | succ f ih =>
    intro rs ex R r2 e2 h hex hrs n hn hnrs d hd
    rw [innerLoopF_succ] at h
    by_cases hRe : R = ∅
    · simp [hRe] at h
      exact absurd (h.1 ▸ hn) hnrs
    · simp only [hRe, if_false] at h
      set newDefs := (R.filter (fun n => n ∉ rs ∧ n ∉ ex)).filter
        (fun n => n ∈ defs) with hnd
      have hex2 : ∀ x ∈ ∅ ∪ (R.filter (fun n => n ∉ rs ∧ n ∉ ex)).filter
          (fun n => n ∉ defs), True := fun _ _ => trivial
      by_cases hmem : n ∈ newDefs
      · have hdR : d ∈ newDefs.biUnion deps := Finset.mem_biUnion.mpr ⟨n, hmem, hd⟩
        apply innerLoopF_land defs deps _ _ _ _ _ _ h _ _ d hdR
        · intro x hx
          rcases Finset.mem_union.mp hx with hc | hc
          · exact hex x hc
          · exact (Finset.mem_filter.mp hc).2
        · intro x hx
          rcases Finset.mem_union.mp hx with hc | hc
          · exact hrs x hc
          · exact (Finset.mem_filter.mp hc).2
      · have hnrs2 : n ∉ rs ∪ newDefs := by
          intro hc
          rcases Finset.mem_union.mp hc with hc2 | hc2
          · exact hnrs hc2
          · exact hmem hc2
        apply ih _ _ _ _ _ h _ _ n hn hnrs2 d hd
        · intro x hx
          rcases Finset.mem_union.mp hx with hc | hc
          · exact hex x hc
          · exact (Finset.mem_filter.mp hc).2
        · intro x hx
          rcases Finset.mem_union.mp hx with hc | hc
          · exact hrs x hc
          · exact (Finset.mem_filter.mp hc).2

/-!
## Engine unfolding equations and basic invariants
-/

theorem engine_zero (P : Program) (st : PState) (mode : EMode) :
    engine P 0 st mode = none := rfl

theorem engine_mark (P : Program) (f : Nat) (st : PState) (m : Nat)
    (R : Finset String) :
    engine P (f + 1) st (.mark m R) =
    if R = ∅ then some st
    else
      match innerLoopF (P.src m).defNames (P.src m).dependency
          (((P.src m).defNames \ st.req m).card + 2) (st.req m) ∅ R with
      | none => none
      | some (req2, extLocal) =>
        engine P f
          { req := Function.update st.req m req2
            ext := Function.update st.ext m (st.ext m ∪ (extLocal \ st.ext m)) }
          (.gather m (P.src m).imports.reverse (extLocal \ st.ext m)) := rfl

theorem engine_gather_nil (P : Program) (f : Nat) (st : PState) (m : Nat)
    (R : Finset String) :
    engine P (f + 1) st (.gather m [] R) = some st := rfl

theorem engine_gather_mod (P : Program) (f : Nat) (st : PState) (m : Nat)
    (mod0 a : String) (rest : List Imp) (R : Finset String) :
    engine P (f + 1) st (.gather m (.mod mod0 a :: rest) R) =
    if R = ∅ then some st else engine P f st (.gather m rest R) := rfl

theorem engine_gather_star (P : Program) (f : Nat) (st : PState) (m : Nat)
    (mod0 : String) (rest : List Imp) (R : Finset String) :
    engine P (f + 1) st (.gather m (.star mod0 :: rest) R) =
    if R = ∅ then some st
    else
      match P.resolve m mod0 with
      | some m2 => (engine P f st (.mark m2 R)).bind
          (fun st2 => engine P f st2 (.gather m rest R))
      | none => engine P f st (.gather m rest R) := rfl

theorem engine_gather_from (P : Program) (f : Nat) (st : PState) (m : Nat)
    (mod0 y a : String) (rest : List Imp) (R : Finset String) :
    engine P (f + 1) st (.gather m (.fromI mod0 y a :: rest) R) =
    if R = ∅ then some st
    else
      match P.resolve m mod0 with
      | some m2 =>
        if a ∈ R then (engine P f st (.mark m2 {y})).bind
            (fun st2 => engine P f st2 (.gather m rest (R.erase a)))
        else engine P f st (.gather m rest R)
      | none => engine P f st (.gather m rest R) := rfl

theorem stLE_refl (st : PState) : stLE st st :=
  fun _ => ⟨Finset.Subset.refl _, Finset.Subset.refl _⟩

theorem stLE_trans {s t u : PState} (h1 : stLE s t) (h2 : stLE t u) :
    stLE s u :=
  fun m => ⟨(h1 m).1.trans (h2 m).1, (h1 m).2.trans (h2 m).2⟩

theorem engine_le (P : Program) :
    ∀ (f : Nat) (st : PState) (mode : EMode) (st' : PState),
    engine P f st mode = some st' → stLE st st' := by
  intro f
  induction f with
  | zero => intro st mode st' h; simp [engine_zero] at h
  | succ f ih =>
    intro st mode st' h
    match mode with
    | .mark m R =>
      rw [engine_mark] at h
      by_cases hR : R = ∅
      · simp [hR] at h; exact h ▸ stLE_refl st
      · simp only [hR, if_false] at h
        cases hIL : innerLoopF (P.src m).defNames (P.src m).dependency
            (((P.src m).defNames \ st.req m).card + 2) (st.req m) ∅ R with
        | none => rw [hIL] at h; simp at h
        | some v =>
          rw [hIL] at h
          obtain ⟨req2, extLocal⟩ := v
          have hgrow := innerLoopF_grow _ _ _ _ _ _ _ _ hIL
          refine stLE_trans ?_ (ih _ _ _ h)
          intro m2
          by_cases hm : m2 = m
          · subst hm
            constructor
            · simp [Function.update_same]; exact hgrow.1
            · simp [Function.update_same]
          · constructor
            · simp [Function.update_noteq hm]
            · simp [Function.update_noteq hm]
    | .gather m [] R =>
      rw [engine_gather_nil] at h
      exact (Option.some_inj.mp h) ▸ stLE_refl st
    | .gather m (imp :: rest) R =>
      match imp with
      | .mod mod0 a =>
        rw [engine_gather_mod] at h
        by_cases hR : R = ∅
        · simp [hR] at h; exact h ▸ stLE_refl st
        · simp only [hR, if_false] at h; exact ih _ _ _ h
      | .star mod0 =>
        rw [engine_gather_star] at h
        by_cases hR : R = ∅
        · simp [hR] at h; exact h ▸ stLE_refl st
        · simp only [hR, if_false] at h
          cases hres : P.resolve m mod0 with
          | none => rw [hres] at h; dsimp only at h; exact ih _ _ _ h
          | some m2 =>
            rw [hres] at h
            dsimp only at h
            cases hmk : engine P f st (.mark m2 R) with
            | none => rw [hmk] at h; simp at h
            | some st2 =>
              rw [hmk] at h; simp only [Option.some_bind] at h
              exact stLE_trans (ih _ _ _ hmk) (ih _ _ _ h)
      | .fromI mod0 y a =>
        rw [engine_gather_from] at h
        by_cases hR : R = ∅
        · simp [hR] at h; exact h ▸ stLE_refl st
        · simp only [hR, if_false] at h
          cases hres : P.resolve m mod0 with
          | none => rw [hres] at h; dsimp only at h; exact ih _ _ _ h
          | some m2 =>
            rw [hres] at h
            dsimp only at h
            by_cases ha : a ∈ R
            · simp only [ha, if_true] at h
              cases hmk : engine P f st (.mark m2 {y}) with
              | none => rw [hmk] at h; simp at h
              | some st2 =>
                rw [hmk] at h; simp only [Option.some_bind] at h
                exact stLE_trans (ih _ _ _ hmk) (ih _ _ _ h)
            · simp only [ha, if_false] at h; exact ih _ _ _ h

theorem engine_fuel_succ (P : Program) :
    ∀ (f : Nat) (st : PState) (mode : EMode) (st' : PState),
    engine P f st mode = some st' → engine P (f + 1) st mode = some st' := by
  intro f
  induction f with
  | zero => intro st mode st' h; simp [engine_zero] at h
  | succ f ih =>
    intro st mode st' h
    match mode with
    | .mark m R =>
      rw [engine_mark] at h
      rw [engine_mark]
      by_cases hR : R = ∅
      · simpa [hR] using h
      · simp only [hR, if_false] at h ⊢
        cases hIL : innerLoopF (P.src m).defNames (P.src m).dependency
            (((P.src m).defNames \ st.req m).card + 2) (st.req m) ∅ R with
        | none => rw [hIL] at h; simp at h
        | some v =>
          rw [hIL] at h
          obtain ⟨req2, extLocal⟩ := v
          exact ih _ _ _ h
    | .gather m [] R =>
      rw [engine_gather_nil] at h; rw [engine_gather_nil]; exact h
    | .gather m (imp :: rest) R =>
      match imp with
      | .mod mod0 a =>
        rw [engine_gather_mod] at h; rw [engine_gather_mod]
        by_cases hR : R = ∅
        · simpa [hR] using h
        · simp only [hR, if_false] at h ⊢; exact ih _ _ _ h
      | .star mod0 =>
        rw [engine_gather_star] at h; rw [engine_gather_star]
        by_cases hR : R = ∅
        · simpa [hR] using h
        · simp only [hR, if_false] at h ⊢
          cases hres : P.resolve m mod0 with
          | none => rw [hres] at h; dsimp only at h ⊢; exact ih _ _ _ h
          | some m2 =>
            rw [hres] at h
            dsimp only at h ⊢
            cases hmk : engine P f st (.mark m2 R) with
            | none => rw [hmk] at h; simp at h
            | some st2 =>
              rw [hmk] at h
              rw [ih _ _ _ hmk]
              simp only [Option.some_bind] at h ⊢
              exact ih _ _ _ h
      | .fromI mod0 y a =>
        rw [engine_gather_from] at h; rw [engine_gather_from]
        by_cases hR : R = ∅
        · simpa [hR] using h
        · simp only [hR, if_false] at h ⊢
          cases hres : P.resolve m mod0 with
          | none => rw [hres] at h; dsimp only at h ⊢; exact ih _ _ _ h
          | some m2 =>
            rw [hres] at h
            dsimp only at h ⊢
            by_cases ha : a ∈ R
            · simp only [ha, if_true] at h ⊢
              cases hmk : engine P f st (.mark m2 {y}) with
              | none => rw [hmk] at h; simp at h
              | some st2 =>
                rw [hmk] at h
                rw [ih _ _ _ hmk]
                simp only [Option.some_bind] at h ⊢
                exact ih _ _ _ h
            · simp only [ha, if_false] at h ⊢; exact ih _ _ _ h

theorem engine_fuel_le (P : Program) {f g : Nat} (hfg : f ≤ g)
    {st : PState} {mode : EMode} {st' : PState}
    (h : engine P f st mode = some st') : engine P g st mode = some st' := by
  induction g with
  | zero =>
    have : f = 0 := Nat.le_zero.mp hfg
    exact this ▸ h
  | succ g ih =>
    rcases Nat.lt_or_ge f (g + 1) with hlt | hge
    · exact engine_fuel_succ P g st mode st' (ih (Nat.lt_succ_iff.mp hlt))
    · have : f = g + 1 := Nat.le_antisymm hfg hge
      exact this ▸ h

theorem engine_reqwf (P : Program) :
    ∀ (f : Nat) (st : PState) (mode : EMode) (st' : PState),
    engine P f st mode = some st' → ReqWF P st → ReqWF P st' := by
  intro f
  induction f with
  | zero => intro st mode st' h; simp [engine_zero] at h
  | succ f ih =>
    intro st mode st' h hwf
    match mode with
    | .mark m R =>
      rw [engine_mark] at h
      by_cases hR : R = ∅
      · simp [hR] at h; exact h ▸ hwf
      · simp only [hR, if_false] at h
        cases hIL : innerLoopF (P.src m).defNames (P.src m).dependency
            (((P.src m).defNames \ st.req m).card + 2) (st.req m) ∅ R with
        | none => rw [hIL] at h; simp at h
        | some v =>
          rw [hIL] at h
          obtain ⟨req2, extLocal⟩ := v
          apply ih _ _ _ h
          intro m2 n hn
          by_cases hm : m2 = m
          · subst hm
            simp only [Function.update_same] at hn
            have := (innerLoopF_just _ _ (fun _ => True)
              (fun _ _ _ _ _ => trivial) _ _ _ _ _ _ hIL (fun _ _ => trivial)).1
            rcases this n hn with hc | hc
            · exact hwf m2 n hc
            · exact hc.2
          · simp only [Function.update_noteq hm] at hn
            exact hwf m2 n hn
    | .gather m [] R =>
      rw [engine_gather_nil] at h
      exact (Option.some_inj.mp h) ▸ hwf
    | .gather m (imp :: rest) R =>
      match imp with
      | .mod mod0 a =>
        rw [engine_gather_mod] at h
        by_cases hR : R = ∅
        · simp [hR] at h; exact h ▸ hwf
        · simp only [hR, if_false] at h; exact ih _ _ _ h hwf
      | .star mod0 =>
        rw [engine_gather_star] at h
        by_cases hR : R = ∅
        · simp [hR] at h; exact h ▸ hwf
        · simp only [hR, if_false] at h
          cases hres : P.resolve m mod0 with
          | none => rw [hres] at h; dsimp only at h; exact ih _ _ _ h hwf
          | some m2 =>
            rw [hres] at h
            dsimp only at h
            cases hmk : engine P f st (.mark m2 R) with
            | none => rw [hmk] at h; simp at h
            | some st2 =>
              rw [hmk] at h; simp only [Option.some_bind] at h
              exact ih _ _ _ h (ih _ _ _ hmk hwf)
      | .fromI mod0 y a =>
        rw [engine_gather_from] at h
        by_cases hR : R = ∅
        · simp [hR] at h; exact h ▸ hwf
        · simp only [hR, if_false] at h
          cases hres : P.resolve m mod0 with
          | none => rw [hres] at h; dsimp only at h; exact ih _ _ _ h hwf
          | some m2 =>
            rw [hres] at h
            dsimp only at h
            by_cases ha : a ∈ R
            · simp only [ha, if_true] at h
              cases hmk : engine P f st (.mark m2 {y}) with
              | none => rw [hmk] at h; simp at h
              | some st2 =>
                rw [hmk] at h; simp only [Option.some_bind] at h
                exact ih _ _ _ h (ih _ _ _ hmk hwf)
            · simp only [ha, if_false] at h; exact ih _ _ _ h hwf

/-!
## Soundness: everything the engine records is in the closure
-/

theorem crossGo_nil (res : String → Option Nat) (n : String) :
    crossGo res [] n = [] := rfl

theorem crossGo_mod (res : String → Option Nat) (mod0 a n : String)
    (rest : List Imp) :
    crossGo res (.mod mod0 a :: rest) n = crossGo res rest n := rfl

theorem crossGo_star (res : String → Option Nat) (mod0 n : String)
    (rest : List Imp) :
    crossGo res (.star mod0 :: rest) n =
    match res mod0 with
    | some m2 => (m2, n) :: crossGo res rest n
    | none => crossGo res rest n := rfl

theorem crossGo_from (res : String → Option Nat) (mod0 y a n : String)
    (rest : List Imp) :
    crossGo res (.fromI mod0 y a :: rest) n =
    match res mod0 with
    | some m2 => if a = n then [(m2, y)] else crossGo res rest n
    | none => crossGo res rest n := rfl

theorem clo_rq_of_J (P : Program) (m : Nat) (n : String)
    (hJ : Clo P .arr m n ∨ ∃ p, Clo P .rq m p ∧ n ∈ (P.src m).dependency p)
    (hd : n ∈ (P.src m).defNames) : Clo P .rq m n := by
  rcases hJ with h | ⟨p, hp, hdep⟩
  · exact Clo.toReq m n h hd
  · exact Clo.depReq m p n hp hdep hd

theorem clo_ext_of_J (P : Program) (m : Nat) (n : String)
    (hJ : Clo P .arr m n ∨ ∃ p, Clo P .rq m p ∧ n ∈ (P.src m).dependency p)
    (hd : n ∉ (P.src m).defNames) : Clo P .ext m n := by
  rcases hJ with h | ⟨p, hp, hdep⟩
  · exact Clo.toExt m n h hd
  · exact Clo.depExt m p n hp hdep hd

theorem engine_sound (P : Program) :
    ∀ (f : Nat) (st : PState) (mode : EMode) (st' : PState),
    engine P f st mode = some st' → ModeJust P mode → StJust P st →
    StJust P st' := by
  intro f
  induction f with
  | zero => intro st mode st' h; simp [engine_zero] at h
  | succ f ih =>
    intro st mode st' h hMJ hSJ
    match mode with
    | .mark m R =>
      rw [engine_mark] at h
      by_cases hR : R = ∅
      · simp [hR] at h; exact h ▸ hSJ
      · simp only [hR, if_false] at h
        cases hIL : innerLoopF (P.src m).defNames (P.src m).dependency
            (((P.src m).defNames \ st.req m).card + 2) (st.req m) ∅ R with
        | none => rw [hIL] at h; simp at h
        | some v =>
          rw [hIL] at h
          obtain ⟨req2, extLocal⟩ := v
          have hJd : ∀ n, (Clo P .arr m n ∨
              ∃ p, Clo P .rq m p ∧ n ∈ (P.src m).dependency p) →
              n ∈ (P.src m).defNames →
              ∀ d ∈ (P.src m).dependency n,
              Clo P .arr m d ∨ ∃ p, Clo P .rq m p ∧ d ∈ (P.src m).dependency p :=
            fun n hJ hd d hdep => Or.inr ⟨n, clo_rq_of_J P m n hJ hd, hdep⟩
          have hjust := innerLoopF_just (P.src m).defNames (P.src m).dependency
            (fun n => Clo P .arr m n ∨
              ∃ p, Clo P .rq m p ∧ n ∈ (P.src m).dependency p)
            hJd _ _ _ _ _ _ hIL
            (fun n hn => Or.inl (hMJ n hn))
          have hextloc : ∀ n ∈ extLocal, Clo P .ext m n := by
            intro n hn
            rcases hjust.2 n hn with hc | hc
            · simp at hc
            · exact clo_ext_of_J P m n hc.1 hc.2
          apply ih _ _ _ h
          · intro n hn p hp
            exact Clo.cross m n p.1 p.2
              (hextloc n (Finset.mem_sdiff.mp hn).1) hp
          · constructor
            · intro m2 n hn
              by_cases hm : m2 = m
              · subst hm
                simp only [Function.update_same] at hn
                rcases hjust.1 n hn with hc | hc
                · exact hSJ.1 m2 n hc
                · exact clo_rq_of_J P m2 n hc.1 hc.2
              · simp only [Function.update_noteq hm] at hn
                exact hSJ.1 m2 n hn
            · intro m2 n hn
              by_cases hm : m2 = m
              · subst hm
                simp only [Function.update_same] at hn
                rcases Finset.mem_union.mp hn with hc | hc
                · exact hSJ.2 m2 n hc
                · exact Or.inl (hextloc n (Finset.mem_sdiff.mp hc).1)
              · simp only [Function.update_noteq hm] at hn
                exact hSJ.2 m2 n hn
    | .gather m [] R =>
      rw [engine_gather_nil] at h
      exact (Option.some_inj.mp h) ▸ hSJ
    | .gather m (imp :: rest) R =>
      match imp with
      | .mod mod0 a =>
        rw [engine_gather_mod] at h
        by_cases hR : R = ∅
        · simp [hR] at h; exact h ▸ hSJ
        · simp only [hR, if_false] at h
          refine ih _ _ _ h ?_ hSJ
          intro n hn p hp
          exact hMJ n hn p (by rw [crossGo_mod]; exact hp)
      | .star mod0 =>
        rw [engine_gather_star] at h
        by_cases hR : R = ∅
        · simp [hR] at h; exact h ▸ hSJ
        · simp only [hR, if_false] at h
          cases hres : P.resolve m mod0 with
          | none =>
            rw [hres] at h
            dsimp only at h
            refine ih _ _ _ h ?_ hSJ
            intro n hn p hp
            refine hMJ n hn p ?_
            rw [crossGo_star, hres]
            exact hp
          | some m2 =>
            rw [hres] at h
            dsimp only at h
            cases hmk : engine P f st (.mark m2 R) with
            | none => rw [hmk] at h; simp at h
            | some st2 =>
              rw [hmk] at h; simp only [Option.some_bind] at h
              have hSJ2 : StJust P st2 := by
                refine ih _ _ _ hmk ?_ hSJ
                intro n hn
                have := hMJ n hn (m2, n) (by rw [crossGo_star, hres]; exact List.mem_cons_self _ _)
                exact this
              refine ih _ _ _ h ?_ hSJ2
              intro n hn p hp
              refine hMJ n hn p ?_
              rw [crossGo_star, hres]
              exact List.mem_cons_of_mem _ hp
      | .fromI mod0 y a =>
        rw [engine_gather_from] at h
        by_cases hR : R = ∅
        · simp [hR] at h; exact h ▸ hSJ
        · simp only [hR, if_false] at h
          cases hres : P.resolve m mod0 with
          | none =>
            rw [hres] at h
            dsimp only at h
            refine ih _ _ _ h ?_ hSJ
            intro n hn p hp
            refine hMJ n hn p ?_
            rw [crossGo_from, hres]
            exact hp
          | some m2 =>
            rw [hres] at h
            dsimp only at h
            by_cases ha : a ∈ R
            · simp only [ha, if_true] at h
              cases hmk : engine P f st (.mark m2 {y}) with
              | none => rw [hmk] at h; simp at h
              | some st2 =>
                rw [hmk] at h; simp only [Option.some_bind] at h
                have hSJ2 : StJust P st2 := by
                  refine ih _ _ _ hmk ?_ hSJ
                  intro n hn
                  have hny : n = y := Finset.mem_singleton.mp hn
                  subst hny
                  have := hMJ a ha (m2, n) (by
                    rw [crossGo_from, hres]
                    simp)
                  exact this
                refine ih _ _ _ h ?_ hSJ2
                intro n hn p hp
                have hnR : n ∈ R := Finset.mem_of_mem_erase hn
                have hna : n ≠ a := Finset.ne_of_mem_erase hn
                refine hMJ n hnR p ?_
                rw [crossGo_from, hres]
                dsimp only
                rw [if_neg (fun hc : a = n => hna hc.symm)]
                exact hp
            · simp only [ha, if_false] at h
              refine ih _ _ _ h ?_ hSJ
              intro n hn p hp
              refine hMJ n hn p ?_
              rw [crossGo_from, hres]
              dsimp only
              by_cases han : a = n
              · exact absurd (han ▸ hn) ha
              · simp only [if_neg han]
                exact hp

theorem propagate_sound (P : Program) (f : Nat) (st : PState)
    (h : propagate P f = some st) :
    (∀ m n, n ∈ st.req m → Clo P .rq m n) ∧
    (∀ m n, n ∈ st.ext m →
      Clo P .ext m n ∨ (m = P.entry ∧ n ∈ (P.src P.entry).unresolved)) := by
  refine engine_sound P f _ _ _ h ?_ ?_
  · intro n hn p hp
    exact Clo.seed n p.1 p.2 hn hp
  · constructor
    · intro m n hn
      simp [initState] at hn
    · intro m n hn
      simp only [initState] at hn
      by_cases hm : m = P.entry
      · simp only [hm, if_true] at hn
        exact Or.inr ⟨hm, hn⟩
      · simp [hm] at hn

/-!
## Completeness: the final state is saturated, hence contains the closure
-/

theorem crossLanded_mono (P : Program) {s t : PState} (hst : stLE s t)
    {m : Nat} {n : String} (h : CrossLanded P s m n) : CrossLanded P t m n := by
  intro p hp
  obtain ⟨h1, h2⟩ := h p hp
  exact ⟨fun hd => (hst p.1).1 (h1 hd), fun hd => (hst p.1).2 (h2 hd)⟩

theorem depsLanded_mono (P : Program) {s t : PState} (hst : stLE s t)
    {m : Nat} {n : String} (h : DepsLanded P s m n) : DepsLanded P t m n := by
  intro d hd
  obtain ⟨h1, h2⟩ := h d hd
  exact ⟨fun hx => (hst m).1 (h1 hx), fun hx => (hst m).2 (h2 hx)⟩

theorem engine_land (P : Program) :
    ∀ (f : Nat) (st : PState) (mode : EMode) (st' : PState),
    engine P f st mode = some st' → ReqWF P st → ModeLand P st' mode := by
  intro f
  induction f with
  | zero => intro st mode st' h; simp [engine_zero] at h
  | succ f ih =>
    intro st mode st' h hwf
    match mode with
    | .mark m R =>
      rw [engine_mark] at h
      by_cases hR : R = ∅
      · intro n hn; rw [hR] at hn; simp at hn
      · simp only [hR, if_false] at h
        cases hIL : innerLoopF (P.src m).defNames (P.src m).dependency
            (((P.src m).defNames \ st.req m).card + 2) (st.req m) ∅ R with
        | none => rw [hIL] at h; simp at h
        | some v =>
          rw [hIL] at h
          obtain ⟨req2, extLocal⟩ := v
          have hle := engine_le P f _ _ _ h
          have hland := innerLoopF_land (P.src m).defNames (P.src m).dependency
            _ _ _ _ _ _ hIL (by simp) (fun x hx => hwf m x hx)
          intro n hn
          obtain ⟨h1, h2⟩ := hland n hn
          constructor
          · intro hd
            have : n ∈ req2 := h1 hd
            have : n ∈ Function.update st.req m req2 m := by
              simp [Function.update_same]; exact this
            exact (hle m).1 this
          · intro hd
            have hext : n ∈ extLocal := h2 hd
            have : n ∈ Function.update st.ext m
                (st.ext m ∪ (extLocal \ st.ext m)) m := by
              simp only [Function.update_same, Finset.mem_union, Finset.mem_sdiff]
              by_cases hc : n ∈ st.ext m
              · exact Or.inl hc
              · exact Or.inr ⟨hext, hc⟩
            exact (hle m).2 this
    | .gather m [] R =>
      intro n _ p hp
      rw [crossGo_nil] at hp
      simp at hp
    | .gather m (imp :: rest) R =>
      match imp with
      | .mod mod0 a =>
        rw [engine_gather_mod] at h
        by_cases hR : R = ∅
        · intro n hn; rw [hR] at hn; simp at hn
        · simp only [hR, if_false] at h
          intro n hn p hp
          rw [crossGo_mod] at hp
          exact ih _ _ _ h hwf n hn p hp
      | .star mod0 =>
        rw [engine_gather_star] at h
        by_cases hR : R = ∅
        · intro n hn; rw [hR] at hn; simp at hn
        · simp only [hR, if_false] at h
          cases hres : P.resolve m mod0 with
          | none =>
            rw [hres] at h
            dsimp only at h
            intro n hn p hp
            rw [crossGo_star, hres] at hp
            exact ih _ _ _ h hwf n hn p hp
          | some m2 =>
            rw [hres] at h
            dsimp only at h
            cases hmk : engine P f st (.mark m2 R) with
            | none => rw [hmk] at h; simp at h
            | some st2 =>
              rw [hmk] at h; simp only [Option.some_bind] at h
              have hwf2 : ReqWF P st2 := engine_reqwf P f _ _ _ hmk hwf
              have hle2 := engine_le P f _ _ _ h
              intro n hn p hp
              rw [crossGo_star, hres] at hp
              rcases List.mem_cons.mp hp with hpe | hpr
              · subst hpe
                obtain ⟨h1, h2⟩ := ih _ _ _ hmk hwf n hn
                exact ⟨fun hd => (hle2 m2).1 (h1 hd),
                  fun hd => (hle2 m2).2 (h2 hd)⟩
              · exact ih _ _ _ h hwf2 n hn p hpr
      | .fromI mod0 y a =>
        rw [engine_gather_from] at h
        by_cases hR : R = ∅
        · intro n hn; rw [hR] at hn; simp at hn
        · simp only [hR, if_false] at h
          cases hres : P.resolve m mod0 with
          | none =>
            rw [hres] at h
            dsimp only at h
            intro n hn p hp
            rw [crossGo_from, hres] at hp
            exact ih _ _ _ h hwf n hn p hp
          | some m2 =>
            rw [hres] at h
            dsimp only at h
            by_cases ha : a ∈ R
            · simp only [ha, if_true] at h
              cases hmk : engine P f st (.mark m2 {y}) with
              | none => rw [hmk] at h; simp at h
              | some st2 =>
                rw [hmk] at h; simp only [Option.some_bind] at h
                have hwf2 : ReqWF P st2 := engine_reqwf P f _ _ _ hmk hwf
                have hle2 := engine_le P f _ _ _ h
                intro n hn p hp
                rw [crossGo_from, hres] at hp
                dsimp only at hp
                by_cases han : a = n
                · rw [if_pos han] at hp
                  simp only [List.mem_singleton] at hp
                  subst hp
                  obtain ⟨h1, h2⟩ := ih _ _ _ hmk hwf y (Finset.mem_singleton_self y)
                  exact ⟨fun hd => (hle2 m2).1 (h1 hd),
                    fun hd => (hle2 m2).2 (h2 hd)⟩
                · rw [if_neg han] at hp
                  have hnR : n ∈ R.erase a :=
                    Finset.mem_erase.mpr ⟨fun hc => han hc.symm, hn⟩
                  exact ih _ _ _ h hwf2 n hnR p hp
            · simp only [ha, if_false] at h
              intro n hn p hp
              rw [crossGo_from, hres] at hp
              dsimp only at hp
              by_cases han : a = n
              · exact absurd (han ▸ hn) ha
              · rw [if_neg han] at hp
                exact ih _ _ _ h hwf n hn p hp

theorem engine_newext (P : Program) :
    ∀ (f : Nat) (st : PState) (mode : EMode) (st' : PState),
    engine P f st mode = some st' → ReqWF P st →
    ∀ m2 n, n ∈ st'.ext m2 → n ∈ st.ext m2 ∨
      (n ∉ (P.src m2).defNames ∧ CrossLanded P st' m2 n) := by
  intro f
  induction f with
  | zero => intro st mode st' h; simp [engine_zero] at h
  | succ f ih =>
    intro st mode st' h hwf m2 n hn
    match mode with
    | .mark m R =>
      rw [engine_mark] at h
      by_cases hR : R = ∅
      · simp [hR] at h; exact Or.inl (h ▸ hn)
      · simp only [hR, if_false] at h
        cases hIL : innerLoopF (P.src m).defNames (P.src m).dependency
            (((P.src m).defNames \ st.req m).card + 2) (st.req m) ∅ R with
        | none => rw [hIL] at h; simp at h
        | some v =>
          rw [hIL] at h
          obtain ⟨req2, extLocal⟩ := v
          set st2 : PState :=
            { req := Function.update st.req m req2
              ext := Function.update st.ext m (st.ext m ∪ (extLocal \ st.ext m)) }
            with hst2
          have hwf2 : ReqWF P st2 := by
            intro m3 x hx
            rw [hst2] at hx
            by_cases hm : m3 = m
            · subst hm
              simp only [Function.update_same] at hx
              rcases (innerLoopF_just _ _ (fun _ => True)
                (fun _ _ _ _ _ => trivial) _ _ _ _ _ _ hIL
                (fun _ _ => trivial)).1 x hx with hc | hc
              · exact hwf m3 x hc
              · exact hc.2
            · simp only [Function.update_noteq hm] at hx
              exact hwf m3 x hx
          rcases ih _ _ _ h hwf2 m2 n hn with hold | hnew
          · dsimp only at hold
            by_cases hm : m2 = m
            · subst hm
              simp only [Function.update_same] at hold
              rcases Finset.mem_union.mp hold with hc | hc
              · exact Or.inl hc
              · have hmem : n ∈ extLocal \ st.ext m2 := hc
                have hnd : n ∉ (P.src m2).defNames := by
                  rcases (innerLoopF_just _ _ (fun _ => True)
                    (fun _ _ _ _ _ => trivial) _ _ _ _ _ _ hIL
                    (fun _ _ => trivial)).2 n (Finset.mem_sdiff.mp hmem).1
                    with hc2 | hc2
                  · simp at hc2
                  · exact hc2.2
                refine Or.inr ⟨hnd, ?_⟩
                have hland := engine_land P f _ _ _ h hwf2
                intro p hp
                exact hland n hmem p hp
            · simp only [Function.update_noteq hm] at hold
              exact Or.inl hold
          · exact Or.inr hnew
    | .gather m [] R =>
      rw [engine_gather_nil] at h
      exact Or.inl ((Option.some_inj.mp h) ▸ hn)
    | .gather m (imp :: rest) R =>
      match imp with
      | .mod mod0 a =>
        rw [engine_gather_mod] at h
        by_cases hR : R = ∅
        · simp [hR] at h; exact Or.inl (h ▸ hn)
        · simp only [hR, if_false] at h
          exact ih _ _ _ h hwf m2 n hn
      | .star mod0 =>
        rw [engine_gather_star] at h
        by_cases hR : R = ∅
        · simp [hR] at h; exact Or.inl (h ▸ hn)
        · simp only [hR, if_false] at h
          cases hres : P.resolve m mod0 with
          | none =>
            rw [hres] at h; dsimp only at h
            exact ih _ _ _ h hwf m2 n hn
          | some m3 =>
            rw [hres] at h; dsimp only at h
            cases hmk : engine P f st (.mark m3 R) with
            | none => rw [hmk] at h; simp at h
            | some st2 =>
              rw [hmk] at h; simp only [Option.some_bind] at h
              have hwf2 : ReqWF P st2 := engine_reqwf P f _ _ _ hmk hwf
              rcases ih _ _ _ h hwf2 m2 n hn with hold | hnew
              · rcases ih _ _ _ hmk hwf m2 n hold with hold2 | hnew2
                · exact Or.inl hold2
                · exact Or.inr ⟨hnew2.1,
                    crossLanded_mono P (engine_le P f _ _ _ h) hnew2.2⟩
              · exact Or.inr hnew
      | .fromI mod0 y a =>
        rw [engine_gather_from] at h
        by_cases hR : R = ∅
        · simp [hR] at h; exact Or.inl (h ▸ hn)
        · simp only [hR, if_false] at h
          cases hres : P.resolve m mod0 with
          | none =>
            rw [hres] at h; dsimp only at h
            exact ih _ _ _ h hwf m2 n hn
          | some m3 =>
            rw [hres] at h; dsimp only at h
            by_cases ha : a ∈ R
            · simp only [ha, if_true] at h
              cases hmk : engine P f st (.mark m3 {y}) with
              | none => rw [hmk] at h; simp at h
              | some st2 =>
                rw [hmk] at h; simp only [Option.some_bind] at h
                have hwf2 : ReqWF P st2 := engine_reqwf P f _ _ _ hmk hwf
                rcases ih _ _ _ h hwf2 m2 n hn with hold | hnew
                · rcases ih _ _ _ hmk hwf m2 n hold with hold2 | hnew2
                  · exact Or.inl hold2
                  · exact Or.inr ⟨hnew2.1,
                      crossLanded_mono P (engine_le P f _ _ _ h) hnew2.2⟩
                · exact Or.inr hnew
            · simp only [ha, if_false] at h
              exact ih _ _ _ h hwf m2 n hn

theorem engine_newreq (P : Program) :
    ∀ (f : Nat) (st : PState) (mode : EMode) (st' : PState),
    engine P f st mode = some st' → ReqWF P st →
    ∀ m2 n, n ∈ st'.req m2 → n ∈ st.req m2 ∨
      (n ∈ (P.src m2).defNames ∧ DepsLanded P st' m2 n) := by
  intro f
  induction f with
  | zero => intro st mode st' h; simp [engine_zero] at h
  | succ f ih =>
    intro st mode st' h hwf m2 n hn
    match mode with
    | .mark m R =>
      rw [engine_mark] at h
      by_cases hR : R = ∅
      · simp [hR] at h; exact Or.inl (h ▸ hn)
      · simp only [hR, if_false] at h
        cases hIL : innerLoopF (P.src m).defNames (P.src m).dependency
            (((P.src m).defNames \ st.req m).card + 2) (st.req m) ∅ R with
        | none => rw [hIL] at h; simp at h
        | some v =>
          rw [hIL] at h
          obtain ⟨req2, extLocal⟩ := v
          set st2 : PState :=
            { req := Function.update st.req m req2
              ext := Function.update st.ext m (st.ext m ∪ (extLocal \ st.ext m)) }
            with hst2
          have hwf2 : ReqWF P st2 := by
            intro m3 x hx
            rw [hst2] at hx
            by_cases hm : m3 = m
            · subst hm
              simp only [Function.update_same] at hx
              rcases (innerLoopF_just _ _ (fun _ => True)
                (fun _ _ _ _ _ => trivial) _ _ _ _ _ _ hIL
                (fun _ _ => trivial)).1 x hx with hc | hc
              · exact hwf m3 x hc
              · exact hc.2
            · simp only [Function.update_noteq hm] at hx
              exact hwf m3 x hx
          have hle3 := engine_le P f _ _ _ h
          rcases ih _ _ _ h hwf2 m2 n hn with hold | hnew
          · dsimp only at hold
            by_cases hm : m2 = m
            · subst hm
              simp only [Function.update_same] at hold
              by_cases hc : n ∈ st.req m2
              · exact Or.inl hc
              · refine Or.inr ⟨?_, ?_⟩
                · rcases (innerLoopF_just _ _ (fun _ => True)
                    (fun _ _ _ _ _ => trivial) _ _ _ _ _ _ hIL
                    (fun _ _ => trivial)).1 n hold with hc2 | hc2
                  · exact absurd hc2 hc
                  · exact hc2.2
                · have hdl := innerLoopF_deps (P.src m2).defNames
                    (P.src m2).dependency _ _ _ _ _ _ hIL (by simp)
                    (fun x hx => hwf m2 x hx) n hold hc
                  intro d hd
                  obtain ⟨h1, h2⟩ := hdl d hd
                  constructor
                  · intro hx
                    refine (hle3 m2).1 ?_
                    dsimp only
                    simp only [Function.update_same]
                    exact h1 hx
                  · intro hx
                    refine (hle3 m2).2 ?_
                    dsimp only
                    simp only [Function.update_same, Finset.mem_union,
                      Finset.mem_sdiff]
                    by_cases hc2 : d ∈ st.ext m2
                    · exact Or.inl hc2
                    · exact Or.inr ⟨h2 hx, hc2⟩
            · simp only [Function.update_noteq hm] at hold
              exact Or.inl hold
          · exact Or.inr hnew
    | .gather m [] R =>
      rw [engine_gather_nil] at h
      exact Or.inl ((Option.some_inj.mp h) ▸ hn)
    | .gather m (imp :: rest) R =>
      match imp with
      | .mod mod0 a =>
        rw [engine_gather_mod] at h
        by_cases hR : R = ∅
        · simp [hR] at h; exact Or.inl (h ▸ hn)
        · simp only [hR, if_false] at h
          exact ih _ _ _ h hwf m2 n hn
      | .star mod0 =>
        rw [engine_gather_star] at h
        by_cases hR : R = ∅
        · simp [hR] at h; exact Or.inl (h ▸ hn)
        · simp only [hR, if_false] at h
          cases hres : P.resolve m mod0 with
          | none =>
            rw [hres] at h; dsimp only at h
            exact ih _ _ _ h hwf m2 n hn
          | some m3 =>
            rw [hres] at h; dsimp only at h
            cases hmk : engine P f st (.mark m3 R) with
            | none => rw [hmk] at h; simp at h
            | some st2 =>
              rw [hmk] at h; simp only [Option.some_bind] at h
              have hwf2 : ReqWF P st2 := engine_reqwf P f _ _ _ hmk hwf
              rcases ih _ _ _ h hwf2 m2 n hn with hold | hnew
              · rcases ih _ _ _ hmk hwf m2 n hold with hold2 | hnew2
                · exact Or.inl hold2
                · exact Or.inr ⟨hnew2.1,
                    depsLanded_mono P (engine_le P f _ _ _ h) hnew2.2⟩
              · exact Or.inr hnew
      | .fromI mod0 y a =>
        rw [engine_gather_from] at h
        by_cases hR : R = ∅
        · simp [hR] at h; exact Or.inl (h ▸ hn)
        · simp only [hR, if_false] at h
          cases hres : P.resolve m mod0 with
          | none =>
            rw [hres] at h; dsimp only at h
            exact ih _ _ _ h hwf m2 n hn
          | some m3 =>
            rw [hres] at h; dsimp only at h
            by_cases ha : a ∈ R
            · simp only [ha, if_true] at h
              cases hmk : engine P f st (.mark m3 {y}) with
              | none => rw [hmk] at h; simp at h
              | some st2 =>
                rw [hmk] at h; simp only [Option.some_bind] at h
                have hwf2 : ReqWF P st2 := engine_reqwf P f _ _ _ hmk hwf
                rcases ih _ _ _ h hwf2 m2 n hn with hold | hnew
                · rcases ih _ _ _ hmk hwf m2 n hold with hold2 | hnew2
                  · exact Or.inl hold2
                  · exact Or.inr ⟨hnew2.1,
                      depsLanded_mono P (engine_le P f _ _ _ h) hnew2.2⟩
                · exact Or.inr hnew
            · simp only [ha, if_false] at h
              exact ih _ _ _ h hwf m2 n hn

theorem initState_reqwf (P : Program) : ReqWF P (initState P) := by
  intro m n hn
  simp [initState] at hn

theorem propagate_complete (P : Program) (f : Nat) (st : PState)
    (h : propagate P f = some st) :
    ∀ k m n, Clo P k m n →
      match k with
      | .arr => (n ∈ (P.src m).defNames → n ∈ st.req m) ∧
          (n ∉ (P.src m).defNames → n ∈ st.ext m)
      | .rq => n ∈ st.req m
      | .ext => n ∈ st.ext m := by
  have hreq : ∀ m n, n ∈ st.req m → DepsLanded P st m n := by
    intro m n hn
    rcases engine_newreq P f _ _ _ h (initState_reqwf P) m n hn with hold | hnew
    · simp [initState] at hold
    · exact hnew.2
  have hext : ∀ m n, n ∈ st.ext m → CrossLanded P st m n := by
    intro m n hn
    rcases engine_newext P f _ _ _ h (initState_reqwf P) m n hn with hold | hnew
    · simp only [initState] at hold
      by_cases hm : m = P.entry
      · rw [hm] at hold ⊢
        simp only [if_pos rfl] at hold
        intro p hp
        exact engine_land P f _ _ _ h (initState_reqwf P) n hold p hp
      · simp [hm] at hold
    · exact hnew.2
  have hseed : ∀ n, n ∈ (P.src P.entry).unresolved →
      ∀ p ∈ crossSteps P P.entry n,
        (p.2 ∈ (P.src p.1).defNames → p.2 ∈ st.req p.1) ∧
        (p.2 ∉ (P.src p.1).defNames → p.2 ∈ st.ext p.1) := by
    intro n hn p hp
    exact engine_land P f _ _ _ h (initState_reqwf P) n hn p hp
  intro k m n hClo
  induction hClo with
  | seed n0 m2 y hn0 hp => exact hseed n0 hn0 (m2, y) hp
  | toReq m0 n0 hc hd ihc => exact ihc.1 hd
  | depReq m0 n0 d hc hdep hd ihc =>
    exact (hreq m0 n0 ihc d hdep).1 hd
  | toExt m0 n0 hc hd ihc => exact ihc.2 hd
  | depExt m0 n0 d hc hdep hd ihc =>
    exact (hreq m0 n0 ihc d hdep).2 hd
  | cross m0 n0 m2 y hc hp ihc =>
    exact hext m0 n0 ihc (m2, y) hp

theorem propagate_req_iff (P : Program) (f : Nat) (st : PState)
    (h : propagate P f = some st) (m : Nat) (n : String) :
    n ∈ st.req m ↔ Clo P .rq m n := by
  constructor
  · exact fun hn => (propagate_sound P f st h).1 m n hn
  · intro hc
    exact propagate_complete P f st h .rq m n hc

theorem namesUniv_sub (P : Program) {m : Nat} (hm : m ∈ P.mods) :
    (P.src m).nameUniv ⊆ namesUniv P := by
  unfold namesUniv
  have hgen : ∀ l : List Nat, m ∈ l →
      (P.src m).nameUniv ⊆ l.foldr (fun m2 acc => (P.src m2).nameUniv ∪ acc) ∅ := by
    intro l hl
    induction l with
    | nil => simp at hl
    | cons x xs ih =>
      rcases List.mem_cons.mp hl with hx | hx
      · subst hx
        exact Finset.subset_union_left
      · exact (ih hx).trans Finset.subset_union_right
  exact hgen P.mods hm

theorem unresolved_sub_nameUniv (M : Module) : M.unresolved ⊆ M.nameUniv := by
  unfold Module.nameUniv
  intro x hx
  exact Finset.mem_union_left _ (Finset.mem_union_left _ hx)

theorem deps_sub_nameUniv (M : Module) {n : String} (hn : n ∈ M.defNames) :
    M.dependency n ⊆ M.nameUniv := by
  intro x hx
  unfold Module.nameUniv
  refine Finset.mem_union_left _ (Finset.mem_union_right _ ?_)
  exact Finset.mem_biUnion.mpr ⟨n, hn, hx⟩

theorem fromI_name_mem_nameUniv (M : Module) {mod0 y a : String}
    (hi : Imp.fromI mod0 y a ∈ M.imports) : y ∈ M.nameUniv := by
  unfold Module.nameUniv
  refine Finset.mem_union_right _ ?_
  rw [List.mem_toFinset]
  exact List.mem_filterMap.mpr ⟨.fromI mod0 y a, hi, rfl⟩

theorem extLocal_sub (P : Program) {m : Nat} {fIL : Nat}
    {rs R req2 extLocal : Finset String}
    (hIL : innerLoopF (P.src m).defNames (P.src m).dependency fIL rs ∅ R =
      some (req2, extLocal)) :
    (∀ n ∈ extLocal, n ∈ R ∨ n ∈ (P.src m).nameUniv) ∧
    (∀ n ∈ extLocal, n ∉ (P.src m).defNames) := by
  have hjust := innerLoopF_just (P.src m).defNames (P.src m).dependency
    (fun n => n ∈ R ∨ n ∈ (P.src m).nameUniv)
    (fun n _ hd d hdep => Or.inr (deps_sub_nameUniv (P.src m) hd hdep))
    _ _ _ _ _ _ hIL (fun n hn => Or.inl hn)
  constructor
  · intro n hn
    rcases hjust.2 n hn with hc | hc
    · simp at hc
    · exact hc.1
  · intro n hn
    rcases hjust.2 n hn with hc | hc
    · simp at hc
    · exact hc.2

theorem engMeasure_le (P : Program) {s t : PState} (hst : stLE s t) :
    engMeasure P t ≤ engMeasure P s := by
  unfold engMeasure
  refine List.sum_le_sum ?_
  intro m _
  refine Finset.card_le_card ?_
  intro x hx
  rw [Finset.mem_sdiff] at hx ⊢
  refine ⟨hx.1, fun hc => hx.2 ?_⟩
  rcases Finset.mem_union.mp hc with hc2 | hc2
  · exact Finset.mem_union_left _ ((hst m).1 hc2)
  · exact Finset.mem_union_right _ ((hst m).2 hc2)

theorem engMeasure_lt (P : Program) {s t : PState} (hst : stLE s t)
    {m : Nat} (hm : m ∈ P.mods) {x : String} (hx : x ∈ namesUniv P)
    (hxs : x ∉ s.req m ∪ s.ext m) (hxt : x ∈ t.req m ∪ t.ext m) :
    engMeasure P t < engMeasure P s := by
  unfold engMeasure
  refine List.sum_lt_sum _ _ ?_ ⟨m, hm, ?_⟩
  · intro m2 _
    refine Finset.card_le_card ?_
    intro z hz
    rw [Finset.mem_sdiff] at hz ⊢
    refine ⟨hz.1, fun hc => hz.2 ?_⟩
    rcases Finset.mem_union.mp hc with hc2 | hc2
    · exact Finset.mem_union_left _ ((hst m2).1 hc2)
    · exact Finset.mem_union_right _ ((hst m2).2 hc2)
  · refine Finset.card_lt_card ?_
    rw [Finset.ssubset_iff_of_subset]
    · exact ⟨x, Finset.mem_sdiff.mpr ⟨hx, hxs⟩, fun hc =>
        (Finset.mem_sdiff.mp hc).2 hxt⟩
    · intro z hz
      rw [Finset.mem_sdiff] at hz ⊢
      refine ⟨hz.1, fun hc => hz.2 ?_⟩
      rcases Finset.mem_union.mp hc with hc2 | hc2
      · exact Finset.mem_union_left _ ((hst m).1 hc2)
      · exact Finset.mem_union_right _ ((hst m).2 hc2)

theorem engine_gather_emptyR (P : Program) (st : PState) (m : Nat)
    (imps : List Imp) : engine P 1 st (.gather m imps ∅) = some st := by
  cases imps with
  | nil => rfl
  | cons imp rest =>
    cases imp with
    | mod mod0 a => rw [engine_gather_mod]; simp
    | star mod0 => rw [engine_gather_star]; simp
    | fromI mod0 y a => rw [engine_gather_from]; simp

theorem engine_enough (P : Program) (hWF : P.WF) :
    ∀ k : Nat,
      (∀ st m R, ReqWF P st → m ∈ P.mods → R ⊆ namesUniv P →
        engMeasure P st ≤ k →
        ∃ f st', engine P f st (.mark m R) = some st') ∧
      (∀ st m imps R, ReqWF P st → m ∈ P.mods →
        (∀ i ∈ imps, i ∈ (P.src m).imports) → R ⊆ namesUniv P →
        engMeasure P st ≤ k →
        ∃ f st', engine P f st (.gather m imps R) = some st') := by
  intro k
  induction k using Nat.strong_induction_on with
  | _ k IH =>
    have hmark : ∀ st m R, ReqWF P st → m ∈ P.mods → R ⊆ namesUniv P →
        engMeasure P st ≤ k →
        ∃ f st', engine P f st (.mark m R) = some st' := by
      intro st m R hwf hm hR hk
      by_cases hRe : R = ∅
      · refine ⟨1, st, ?_⟩
        rw [engine_mark]
        simp [hRe]
      · cases hIL : innerLoopF (P.src m).defNames (P.src m).dependency
            (((P.src m).defNames \ st.req m).card + 2) (st.req m) ∅ R with
        | none =>
          exfalso
          have := innerLoopF_isSome (P.src m).defNames (P.src m).dependency
            (((P.src m).defNames \ st.req m).card + 2) (st.req m) ∅ R (by omega)
          rw [hIL] at this
          simp at this
        | some v =>
          obtain ⟨req2, extLocal⟩ := v
          set delta := extLocal \ st.ext m with hdelta
          set st2 : PState :=
            { req := Function.update st.req m req2
              ext := Function.update st.ext m (st.ext m ∪ delta) } with hst2
          have hgrow := innerLoopF_grow _ _ _ _ _ _ _ _ hIL
          have hle2 : stLE st st2 := by
            intro m2
            rw [hst2]
            by_cases hmm : m2 = m
            · subst hmm
              constructor
              · simp only [Function.update_same]; exact hgrow.1
              · simp only [Function.update_same]
                exact Finset.subset_union_left
            · constructor
              · simp [Function.update_noteq hmm]
              · simp [Function.update_noteq hmm]
          by_cases hde : delta = ∅
          · refine ⟨2, st2, ?_⟩
            rw [engine_mark]
            simp only [hRe, if_false]
            rw [hIL]
            dsimp only
            rw [← hdelta]
            show engine P 1 st2 (.gather m (P.src m).imports.reverse delta) = some st2
            rw [hde]
            exact engine_gather_emptyR P st2 m _
          · obtain ⟨x, hxd⟩ := Finset.nonempty_iff_ne_empty.mpr hde
            have hxe : x ∈ extLocal := (Finset.mem_sdiff.mp hxd).1
            have hxnext : x ∉ st.ext m := (Finset.mem_sdiff.mp hxd).2
            have hsub := extLocal_sub P hIL
            have hxN : x ∈ namesUniv P := by
              rcases (hsub.1 x hxe) with hc | hc
              · exact hR hc
              · exact namesUniv_sub P hm hc
            have hxnd : x ∉ (P.src m).defNames := hsub.2 x hxe
            have hxnreq : x ∉ st.req m := fun hc => hxnd (hwf m x hc)
            have hlt : engMeasure P st2 < engMeasure P st := by
              refine engMeasure_lt P hle2 hm hxN ?_ ?_
              · intro hc
                rcases Finset.mem_union.mp hc with hc2 | hc2
                · exact hxnreq hc2
                · exact hxnext hc2
              · rw [hst2]
                refine Finset.mem_union_right _ ?_
                simp only [Function.update_same]
                exact Finset.mem_union_right _ hxd
            have hdN : delta ⊆ namesUniv P := by
              intro z hz
              have hz2 : z ∈ extLocal := (Finset.mem_sdiff.mp hz).1
              rcases (hsub.1 z hz2) with hc | hc
              · exact hR hc
              · exact namesUniv_sub P hm hc
            have hwf2 : ReqWF P st2 := by
              intro m3 z hz
              rw [hst2] at hz
              by_cases hmm : m3 = m
              · subst hmm
                simp only [Function.update_same] at hz
                rcases (innerLoopF_just _ _ (fun _ => True)
                  (fun _ _ _ _ _ => trivial) _ _ _ _ _ _ hIL
                  (fun _ _ => trivial)).1 z hz with hc | hc
                · exact hwf m3 z hc
                · exact hc.2
              · simp only [Function.update_noteq hmm] at hz
                exact hwf m3 z hz
            have hk2 : engMeasure P st2 < k := Nat.lt_of_lt_of_le hlt hk
            obtain ⟨f2, st3, hf2⟩ :=
              (IH (engMeasure P st2) hk2).2 st2 m
                (P.src m).imports.reverse delta hwf2 hm
                (fun i hi => List.mem_reverse.mp hi) hdN (Nat.le_refl _)
            refine ⟨f2 + 1, st3, ?_⟩
            rw [engine_mark]
            simp only [hRe, if_false]
            rw [hIL]
            dsimp only
            rw [← hdelta]
            exact hf2
    refine ⟨hmark, ?_⟩
    intro st m imps
    induction imps generalizing st with
    | nil =>
      intro R hwf hm hsub hR hk
      exact ⟨1, st, engine_gather_nil P 0 st m R⟩
    | cons imp rest ihimp =>
      intro R hwf hm hsub hR hk
      by_cases hRe : R = ∅
      · refine ⟨1, st, ?_⟩
        subst hRe
        exact engine_gather_emptyR P st m _
      · have hsubrest : ∀ i ∈ rest, i ∈ (P.src m).imports :=
          fun i hi => hsub i (List.mem_cons_of_mem _ hi)
        cases imp with
        | mod mod0 a =>
          obtain ⟨f2, st', hf2⟩ := ihimp st R hwf hm hsubrest hR hk
          refine ⟨f2 + 1, st', ?_⟩
          rw [engine_gather_mod]
          simp only [hRe, if_false]
          exact hf2
        | star mod0 =>
          cases hres : P.resolve m mod0 with
          | none =>
            obtain ⟨f2, st', hf2⟩ := ihimp st R hwf hm hsubrest hR hk
            refine ⟨f2 + 1, st', ?_⟩
            rw [engine_gather_star]
            simp only [hRe, if_false]
            rw [hres]
            exact hf2
          | some m2 =>
            have hm2 : m2 ∈ P.mods := hWF.resolve_mem m mod0 m2 hres
            obtain ⟨f1, st2, hf1⟩ := hmark st m2 R hwf hm2 hR hk
            have hwf2 : ReqWF P st2 := engine_reqwf P f1 _ _ _ hf1 hwf
            have hk2 : engMeasure P st2 ≤ k :=
              Nat.le_trans (engMeasure_le P (engine_le P f1 _ _ _ hf1)) hk
            obtain ⟨f2, st3, hf2⟩ := ihimp st2 R hwf2 hm hsubrest hR hk2
            refine ⟨max f1 f2 + 1, st3, ?_⟩
            rw [engine_gather_star]
            simp only [hRe, if_false]
            rw [hres]
            dsimp only
            rw [engine_fuel_le P (Nat.le_max_left f1 f2) hf1]
            simp only [Option.some_bind]
            exact engine_fuel_le P (Nat.le_max_right f1 f2) hf2
        | fromI mod0 y a =>
          cases hres : P.resolve m mod0 with
          | none =>
            obtain ⟨f2, st', hf2⟩ := ihimp st R hwf hm hsubrest hR hk
            refine ⟨f2 + 1, st', ?_⟩
            rw [engine_gather_from]
            simp only [hRe, if_false]
            rw [hres]
            exact hf2
          | some m2 =>
            have hm2 : m2 ∈ P.mods := hWF.resolve_mem m mod0 m2 hres
            by_cases ha : a ∈ R
            · have hyN : ({y} : Finset String) ⊆ namesUniv P := by
                intro z hz
                rw [Finset.mem_singleton] at hz
                subst hz
                exact namesUniv_sub P hm
                  (fromI_name_mem_nameUniv (P.src m) (hsub _ (List.mem_cons_self _ _)))
              obtain ⟨f1, st2, hf1⟩ := hmark st m2 {y} hwf hm2 hyN hk
              have hwf2 : ReqWF P st2 := engine_reqwf P f1 _ _ _ hf1 hwf
              have hk2 : engMeasure P st2 ≤ k :=
                Nat.le_trans (engMeasure_le P (engine_le P f1 _ _ _ hf1)) hk
              obtain ⟨f2, st3, hf2⟩ := ihimp st2 (R.erase a) hwf2 hm hsubrest
                ((Finset.erase_subset a R).trans hR) hk2
              refine ⟨max f1 f2 + 1, st3, ?_⟩
              rw [engine_gather_from]
              simp only [hRe, if_false]
              rw [hres]
              dsimp only
              rw [if_pos ha]
              rw [engine_fuel_le P (Nat.le_max_left f1 f2) hf1]
              simp only [Option.some_bind]
              exact engine_fuel_le P (Nat.le_max_right f1 f2) hf2
            · obtain ⟨f2, st', hf2⟩ := ihimp st R hwf hm hsubrest hR hk
              refine ⟨f2 + 1, st', ?_⟩
              rw [engine_gather_from]
              simp only [hRe, if_false]
              rw [hres]
              dsimp only
              rw [if_neg ha]
              exact hf2

theorem propagate_enough (P : Program) (hWF : P.WF) :
    ∃ f st, propagate P f = some st := by
  obtain ⟨f, st, hf⟩ := (engine_enough P hWF (engMeasure P (initState P))).2
    (initState P) P.entry (P.src P.entry).imports.reverse
    (P.src P.entry).unresolved (initState_reqwf P) hWF.entry_mem
    (fun i hi => List.mem_reverse.mp hi)
    ((unresolved_sub_nameUniv (P.src P.entry)).trans
      (namesUniv_sub P hWF.entry_mem))
    (Nat.le_refl _)
  exact ⟨f, st, hf⟩

/-!
## Assembler unfolding equations and basic lemmas
-/

theorem packF_zero (P : Program) (shake : Bool) (st : PState) (mode : PMode)
    (vis : Finset Nat) : packF P shake st 0 mode vis = none := rfl

theorem packF_one (P : Program) (shake : Bool) (st : PState) (f : Nat)
    (m : Nat) (vis : Finset Nat) :
    packF P shake st (f + 1) (.one m) vis =
    (packF P shake st f (.imps m (P.src m).imports) (insert m vis)).bind
      (fun r => some (r.1 ++ ownChunks P shake st (decide (vis = ∅)) m,
        r.2.1, r.2.2)) := rfl

theorem packF_imps_nil (P : Program) (shake : Bool) (st : PState) (f : Nat)
    (m : Nat) (vis : Finset Nat) :
    packF P shake st (f + 1) (.imps m []) vis = some ([], [], vis) := rfl

theorem packF_imps_mod (P : Program) (shake : Bool) (st : PState) (f : Nat)
    (m : Nat) (mod0 a : String) (rest : List Imp) (vis : Finset Nat) :
    packF P shake st (f + 1) (.imps m (.mod mod0 a :: rest)) vis =
    (packF P shake st f (.imps m rest) vis).bind
      (fun r => some (r.1,
        (if shake = false ∨ a ∈ st.ext m then [.mod mod0 a] else []) ++ r.2.1,
        r.2.2)) := rfl

theorem packF_imps_star (P : Program) (shake : Bool) (st : PState) (f : Nat)
    (m : Nat) (mod0 : String) (rest : List Imp) (vis : Finset Nat) :
    packF P shake st (f + 1) (.imps m (.star mod0 :: rest)) vis =
    match P.resolve m mod0 with
    | some m2 =>
      if m2 ∈ vis then packF P shake st f (.imps m rest) vis
      else (packF P shake st f (.one m2) vis).bind (fun r1 =>
        (packF P shake st f (.imps m rest) r1.2.2).bind (fun r2 =>
          some (r1.1 ++ r2.1, r1.2.1 ++ r2.2.1, r2.2.2)))
    | none => (packF P shake st f (.imps m rest) vis).bind
        (fun r => some (r.1,
          (if shake = false ∨ st.ext m ≠ ∅ then [.star mod0] else []) ++ r.2.1,
          r.2.2)) := rfl

theorem packF_imps_from (P : Program) (shake : Bool) (st : PState) (f : Nat)
    (m : Nat) (mod0 y a : String) (rest : List Imp) (vis : Finset Nat) :
    packF P shake st (f + 1) (.imps m (.fromI mod0 y a :: rest)) vis =
    match P.resolve m mod0 with
    | some m2 =>
      if m2 ∈ vis then packF P shake st f (.imps m rest) vis
      else (packF P shake st f (.one m2) vis).bind (fun r1 =>
        (packF P shake st f (.imps m rest) r1.2.2).bind (fun r2 =>
          some (r1.1 ++ r2.1, r1.2.1 ++ r2.2.1, r2.2.2)))
    | none => (packF P shake st f (.imps m rest) vis).bind
        (fun r => some (r.1,
          (if shake = false ∨ st.ext m ≠ ∅ then [.fromI mod0 y a] else []) ++ r.2.1,
          r.2.2)) := rfl

theorem packF_fuel_succ (P : Program) (shake : Bool) (st : PState) :
    ∀ (f : Nat) (mode : PMode) (vis : Finset Nat) r,
    packF P shake st f mode vis = some r →
    packF P shake st (f + 1) mode vis = some r := by
  intro f
  induction f with
  | zero => intro mode vis r h; simp [packF_zero] at h
  | succ f ih =>
    intro mode vis r h
    match mode with
    | .one m =>
      rw [packF_one] at h ⊢
      cases hi : packF P shake st f (.imps m (P.src m).imports) (insert m vis) with
      | none => rw [hi] at h; simp at h
      | some r2 =>
        rw [hi] at h
        rw [ih _ _ _ hi]
        exact h
    | .imps m [] =>
      rw [packF_imps_nil] at h; rw [packF_imps_nil]; exact h
    | .imps m (imp :: rest) =>
      match imp with
      | .mod mod0 a =>
        rw [packF_imps_mod] at h ⊢
        cases hi : packF P shake st f (.imps m rest) vis with
        | none => rw [hi] at h; simp at h
        | some r2 =>
          rw [hi] at h
          rw [ih _ _ _ hi]
          exact h
      | .star mod0 =>
        cases hres : P.resolve m mod0 with
        | none =>
          rw [packF_imps_star, hres] at h
          rw [packF_imps_star, hres]
          dsimp only at h ⊢
          cases hi : packF P shake st f (.imps m rest) vis with
          | none => rw [hi] at h; simp at h
          | some r2 =>
            rw [hi] at h
            rw [ih _ _ _ hi]
            exact h
        | some m2 =>
          rw [packF_imps_star, hres] at h
          rw [packF_imps_star, hres]
          dsimp only at h ⊢
          by_cases hv : m2 ∈ vis
          · rw [if_pos hv] at h ⊢
            exact ih _ _ _ h
          · rw [if_neg hv] at h ⊢
            cases h1 : packF P shake st f (.one m2) vis with
            | none => rw [h1] at h; simp at h
            | some r1 =>
              rw [h1] at h
              rw [ih _ _ _ h1]
              simp only [Option.some_bind] at h ⊢
              cases h2 : packF P shake st f (.imps m rest) r1.2.2 with
              | none => rw [h2] at h; simp at h
              | some r2 =>
                rw [h2] at h
                rw [ih _ _ _ h2]
                exact h
      | .fromI mod0 y a =>
        cases hres : P.resolve m mod0 with
        | none =>
          rw [packF_imps_from, hres] at h
          rw [packF_imps_from, hres]
          dsimp only at h ⊢
          cases hi : packF P shake st f (.imps m rest) vis with
          | none => rw [hi] at h; simp at h
          | some r2 =>
            rw [hi] at h
            rw [ih _ _ _ hi]
            exact h
        | some m2 =>
          rw [packF_imps_from, hres] at h
          rw [packF_imps_from, hres]
          dsimp only at h ⊢
          by_cases hv : m2 ∈ vis
          · rw [if_pos hv] at h ⊢
            exact ih _ _ _ h
          · rw [if_neg hv] at h ⊢
            cases h1 : packF P shake st f (.one m2) vis with
            | none => rw [h1] at h; simp at h
            | some r1 =>
              rw [h1] at h
              rw [ih _ _ _ h1]
              simp only [Option.some_bind] at h ⊢
              cases h2 : packF P shake st f (.imps m rest) r1.2.2 with
              | none => rw [h2] at h; simp at h
              | some r2 =>
                rw [h2] at h
                rw [ih _ _ _ h2]
                exact h

theorem packF_fuel_le (P : Program) (shake : Bool) (st : PState)
    {f g : Nat} (hfg : f ≤ g) {mode : PMode} {vis : Finset Nat} {r}
    (h : packF P shake st f mode vis = some r) :
    packF P shake st g mode vis = some r := by
  induction g with
  | zero =>
    have : f = 0 := Nat.le_zero.mp hfg
    exact this ▸ h
  | succ g ih =>
    rcases Nat.lt_or_ge f (g + 1) with hlt | hge
    · exact packF_fuel_succ P shake st g mode vis r (ih (Nat.lt_succ_iff.mp hlt))
    · have : f = g + 1 := Nat.le_antisymm hfg hge
      exact this ▸ h

theorem ownChunks_mod (P : Program) (shake : Bool) (st : PState)
    (isRoot : Bool) (m : Nat) :
    ∀ c ∈ ownChunks P shake st isRoot m, c.mod = m := by
  intro c hc
  unfold ownChunks at hc
  split at hc
  · dsimp only at hc
    split at hc
    · simp at hc
    · rw [List.mem_singleton] at hc
      rw [hc]
  · dsimp only at hc
    split at hc
    · simp at hc
    · unfold shakenChunks at hc
      obtain ⟨p, _, hp2⟩ := List.mem_map.mp hc
      rw [← hp2]

theorem packF_vis (P : Program) (shake : Bool) (st : PState) :
    ∀ (f : Nat) (mode : PMode) (vis : Finset Nat) cs ig vis',
    packF P shake st f mode vis = some (cs, ig, vis') → PModeOK mode vis →
    vis ⊆ vis' ∧ (∀ c ∈ cs, c.mod ∈ vis' ∧ c.mod ∉ vis) ∧
    (∀ m, mode = .one m → m ∈ vis') := by
  intro f
  induction f with
  | zero => intro mode vis cs ig vis' h; simp [packF_zero] at h
  | succ f ih =>
    intro mode vis cs ig vis' h hok
    match mode with
    | .one m =>
      rw [packF_one] at h
      cases hi : packF P shake st f (.imps m (P.src m).imports) (insert m vis) with
      | none => rw [hi] at h; simp at h
      | some r2 =>
        rw [hi] at h
        simp only [Option.some_bind, Option.some_inj, Prod.mk.injEq] at h
        obtain ⟨r2cs, r2ig, r2vis⟩ := r2
        obtain ⟨hcs, hig, hvis⟩ := h
        subst hcs; subst hig; subst hvis
        obtain ⟨h1, h2, _⟩ := ih _ _ _ _ _ hi trivial
        have hmvis : m ∈ r2vis := h1 (Finset.mem_insert_self m vis)
        refine ⟨(Finset.subset_insert m vis).trans h1, ?_,
          fun m0 hm0 => by cases hm0; exact hmvis⟩
        intro c hc
        rcases List.mem_append.mp hc with hc2 | hc2
        · obtain ⟨ha, hb⟩ := h2 c hc2
          exact ⟨ha, fun hcc => hb (Finset.mem_insert_of_mem hcc)⟩
        · have hcm : c.mod = m := ownChunks_mod P shake st _ m c hc2
          rw [hcm]
          exact ⟨hmvis, hok⟩
    | .imps m [] =>
      rw [packF_imps_nil] at h
      simp only [Option.some_inj, Prod.mk.injEq] at h
      obtain ⟨hcs, hig, hvis⟩ := h
      subst hcs; subst hig; subst hvis
      exact ⟨Finset.Subset.refl _, fun c hc => by simp at hc,
        fun m0 hm0 => by cases hm0⟩
    | .imps m (imp :: rest) =>
      have hrec : ∀ ig2 (h2 : packF P shake st f (.imps m rest) vis =
            some (cs, ig2, vis')),
          vis ⊆ vis' ∧ (∀ c ∈ cs, c.mod ∈ vis' ∧ c.mod ∉ vis) ∧
          (∀ m0, (PMode.imps m (imp :: rest)) = .one m0 → m0 ∈ vis') := by
        intro ig2 h2
        obtain ⟨h1, hmem, _⟩ := ih _ _ _ _ _ h2 trivial
        exact ⟨h1, hmem, fun m0 hm0 => by cases hm0⟩
      match imp with
      | .mod mod0 a =>
        rw [packF_imps_mod] at h
        cases hi : packF P shake st f (.imps m rest) vis with
        | none => rw [hi] at h; simp at h
        | some r2 =>
          rw [hi] at h
          simp only [Option.some_bind, Option.some_inj, Prod.mk.injEq] at h
          obtain ⟨r2cs, r2ig, r2vis⟩ := r2
          obtain ⟨hcs, hig, hvis⟩ := h
          subst hcs; subst hvis
          exact hrec _ hi
      | .star mod0 =>
        cases hres : P.resolve m mod0 with
        | none =>
          rw [packF_imps_star, hres] at h
          dsimp only at h
          cases hi : packF P shake st f (.imps m rest) vis with
          | none => rw [hi] at h; simp at h
          | some r2 =>
            rw [hi] at h
            simp only [Option.some_bind, Option.some_inj, Prod.mk.injEq] at h
            obtain ⟨r2cs, r2ig, r2vis⟩ := r2
            obtain ⟨hcs, hig, hvis⟩ := h
            subst hcs; subst hvis
            exact hrec _ hi
        | some m2 =>
          rw [packF_imps_star, hres] at h
          dsimp only at h
          by_cases hv : m2 ∈ vis
          · rw [if_pos hv] at h
            exact hrec _ h
          · rw [if_neg hv] at h
            cases h1 : packF P shake st f (.one m2) vis with
            | none => rw [h1] at h; simp at h
            | some r1 =>
              rw [h1] at h
              simp only [Option.some_bind] at h
              obtain ⟨r1cs, r1ig, r1vis⟩ := r1
              cases h2 : packF P shake st f (.imps m rest) r1vis with
              | none => rw [h2] at h; simp at h
              | some r2 =>
                rw [h2] at h
                simp only [Option.some_bind, Option.some_inj, Prod.mk.injEq] at h
                obtain ⟨r2cs, r2ig, r2vis⟩ := r2
                obtain ⟨hcs, hig, hvis⟩ := h
                subst hcs; subst hig; subst hvis
                obtain ⟨ha1, ha2, _⟩ := ih _ _ _ _ _ h1 hv
                obtain ⟨hb1, hb2, _⟩ := ih _ _ _ _ _ h2 trivial
                refine ⟨ha1.trans hb1, ?_, fun m0 hm0 => by cases hm0⟩
                intro c hc
                rcases List.mem_append.mp hc with hc2 | hc2
                · obtain ⟨hx, hy⟩ := ha2 c hc2
                  exact ⟨hb1 hx, hy⟩
                · obtain ⟨hx, hy⟩ := hb2 c hc2
                  exact ⟨hx, fun hcc => hy (ha1 hcc)⟩
      | .fromI mod0 y a =>
        cases hres : P.resolve m mod0 with
        | none =>
          rw [packF_imps_from, hres] at h
          dsimp only at h
          cases hi : packF P shake st f (.imps m rest) vis with
          | none => rw [hi] at h; simp at h
          | some r2 =>
            rw [hi] at h
            simp only [Option.some_bind, Option.some_inj, Prod.mk.injEq] at h
            obtain ⟨r2cs, r2ig, r2vis⟩ := r2
            obtain ⟨hcs, hig, hvis⟩ := h
            subst hcs; subst hvis
            exact hrec _ hi
        | some m2 =>
          rw [packF_imps_from, hres] at h
          dsimp only at h
          by_cases hv : m2 ∈ vis
          · rw [if_pos hv] at h
            exact hrec _ h
          · rw [if_neg hv] at h
            cases h1 : packF P shake st f (.one m2) vis with
            | none => rw [h1] at h; simp at h
            | some r1 =>
              rw [h1] at h
              simp only [Option.some_bind] at h
              obtain ⟨r1cs, r1ig, r1vis⟩ := r1
              cases h2 : packF P shake st f (.imps m rest) r1vis with
              | none => rw [h2] at h; simp at h
              | some r2 =>
                rw [h2] at h
                simp only [Option.some_bind, Option.some_inj, Prod.mk.injEq] at h
                obtain ⟨r2cs, r2ig, r2vis⟩ := r2
                obtain ⟨hcs, hig, hvis⟩ := h
                subst hcs; subst hig; subst hvis
                obtain ⟨ha1, ha2, _⟩ := ih _ _ _ _ _ h1 hv
                obtain ⟨hb1, hb2, _⟩ := ih _ _ _ _ _ h2 trivial
                refine ⟨ha1.trans hb1, ?_, fun m0 hm0 => by cases hm0⟩
                intro c hc
                rcases List.mem_append.mp hc with hc2 | hc2
                · obtain ⟨hx, hy⟩ := ha2 c hc2
                  exact ⟨hb1 hx, hy⟩
                · obtain ⟨hx, hy⟩ := hb2 c hc2
                  exact ⟨hx, fun hcc => hy (ha1 hcc)⟩

/-!
## Assembler termination
-/

theorem packF_enough (P : Program) (hWF : P.WF) (shake : Bool) (st : PState) :
    ∀ k : Nat,
      (∀ m vis, m ∈ P.mods → m ∉ vis → (P.mods.toFinset \ vis).card ≤ k →
        ∃ f r, packF P shake st f (.one m) vis = some r) ∧
      (∀ m imps vis, (P.mods.toFinset \ vis).card ≤ k →
        ∃ f r, packF P shake st f (.imps m imps) vis = some r) := by
  intro k
  induction k using Nat.strong_induction_on with
  | _ k IH =>
    have hone : ∀ m vis, m ∈ P.mods → m ∉ vis →
        (P.mods.toFinset \ vis).card ≤ k →
        ∃ f r, packF P shake st f (.one m) vis = some r := by
      intro m vis hmm hm hk
      have hmem : m ∈ P.mods.toFinset \ vis :=
        Finset.mem_sdiff.mpr ⟨List.mem_toFinset.mpr hmm, hm⟩
      have hpos : 1 ≤ (P.mods.toFinset \ vis).card :=
        Finset.card_pos.mpr ⟨m, hmem⟩
      have hcard : (P.mods.toFinset \ insert m vis).card <
          (P.mods.toFinset \ vis).card := by
        refine Finset.card_lt_card ?_
        rw [Finset.ssubset_iff_of_subset]
        · exact ⟨m, hmem, fun hc =>
            (Finset.mem_sdiff.mp hc).2 (Finset.mem_insert_self m vis)⟩
        · intro x hx
          rw [Finset.mem_sdiff] at hx ⊢
          exact ⟨hx.1, fun hc => hx.2 (Finset.mem_insert_of_mem hc)⟩
      have hklt : (P.mods.toFinset \ insert m vis).card < k :=
        Nat.lt_of_lt_of_le hcard hk
      obtain ⟨f, r, hf⟩ := (IH _ hklt).2 m (P.src m).imports (insert m vis)
        (Nat.le_refl _)
      refine ⟨f + 1, (r.1 ++ ownChunks P shake st (decide (vis = ∅)) m,
        r.2.1, r.2.2), ?_⟩
      rw [packF_one, hf]
      rfl
    refine ⟨hone, ?_⟩
    intro m imps
    induction imps with
    | nil =>
      intro vis _
      exact ⟨1, (([], [], vis)), packF_imps_nil P shake st 0 m vis⟩
    | cons imp rest ihimp =>
      intro vis hk
      match imp with
      | .mod mod0 a =>
        obtain ⟨f, r, hf⟩ := ihimp vis hk
        refine ⟨f + 1, (r.1,
          (if shake = false ∨ a ∈ st.ext m then [Imp.mod mod0 a] else []) ++ r.2.1,
          r.2.2), ?_⟩
        rw [packF_imps_mod, hf]
        rfl
      | .star mod0 =>
        cases hres : P.resolve m mod0 with
        | none =>
          obtain ⟨f, r, hf⟩ := ihimp vis hk
          refine ⟨f + 1, (r.1,
            (if shake = false ∨ st.ext m ≠ ∅ then [Imp.star mod0] else []) ++ r.2.1,
            r.2.2), ?_⟩
          rw [packF_imps_star, hres]
          dsimp only
          rw [hf]
          rfl
        | some m2 =>
          by_cases hv : m2 ∈ vis
          · obtain ⟨f, r, hf⟩ := ihimp vis hk
            refine ⟨f + 1, r, ?_⟩
            rw [packF_imps_star, hres]
            dsimp only
            rw [if_pos hv]
            exact hf
          · obtain ⟨f1, r1, hf1⟩ := hone m2 vis
              (hWF.resolve_mem m mod0 m2 hres) hv hk
            obtain ⟨r1cs, r1ig, r1vis⟩ := r1
            have hsub := (packF_vis P shake st f1 _ _ _ _ _ hf1 hv).1
            have hk2 : (P.mods.toFinset \ r1vis).card ≤ k := by
              refine Nat.le_trans (Finset.card_le_card ?_) hk
              intro x hx
              rw [Finset.mem_sdiff] at hx ⊢
              exact ⟨hx.1, fun hc => hx.2 (hsub hc)⟩
            obtain ⟨f2, r2, hf2⟩ := ihimp r1vis hk2
            refine ⟨max f1 f2 + 1, (r1cs ++ r2.1, r1ig ++ r2.2.1, r2.2.2), ?_⟩
            rw [packF_imps_star, hres]
            dsimp only
            rw [if_neg hv]
            rw [packF_fuel_le P shake st (Nat.le_max_left f1 f2) hf1]
            simp only [Option.some_bind]
            rw [packF_fuel_le P shake st (Nat.le_max_right f1 f2) hf2]
            rfl
      | .fromI mod0 y a =>
        cases hres : P.resolve m mod0 with
        | none =>
          obtain ⟨f, r, hf⟩ := ihimp vis hk
          refine ⟨f + 1, (r.1,
            (if shake = false ∨ st.ext m ≠ ∅ then [Imp.fromI mod0 y a] else []) ++ r.2.1,
            r.2.2), ?_⟩
          rw [packF_imps_from, hres]
          dsimp only
          rw [hf]
          rfl
        | some m2 =>
          by_cases hv : m2 ∈ vis
          · obtain ⟨f, r, hf⟩ := ihimp vis hk
            refine ⟨f + 1, r, ?_⟩
            rw [packF_imps_from, hres]
            dsimp only
            rw [if_pos hv]
            exact hf
          · obtain ⟨f1, r1, hf1⟩ := hone m2 vis
              (hWF.resolve_mem m mod0 m2 hres) hv hk
            obtain ⟨r1cs, r1ig, r1vis⟩ := r1
            have hsub := (packF_vis P shake st f1 _ _ _ _ _ hf1 hv).1
            have hk2 : (P.mods.toFinset \ r1vis).card ≤ k := by
              refine Nat.le_trans (Finset.card_le_card ?_) hk
              intro x hx
              rw [Finset.mem_sdiff] at hx ⊢
              exact ⟨hx.1, fun hc => hx.2 (hsub hc)⟩
            obtain ⟨f2, r2, hf2⟩ := ihimp r1vis hk2
            refine ⟨max f1 f2 + 1, (r1cs ++ r2.1, r1ig ++ r2.2.1, r2.2.2), ?_⟩
            rw [packF_imps_from, hres]
            dsimp only
            rw [if_neg hv]
            rw [packF_fuel_le P shake st (Nat.le_max_left f1 f2) hf1]
            simp only [Option.some_bind]
            rw [packF_fuel_le P shake st (Nat.le_max_right f1 f2) hf2]
            rfl

theorem packRun_enough (P : Program) (hWF : P.WF) (shake : Bool) :
    ∃ f1 f2 r, packRun P shake f1 f2 = some r := by
  rcases hsh : shake with _ | _
  · obtain ⟨f2, r, hf2⟩ := (packF_enough P hWF false (initState P)
      ((P.mods.toFinset \ ∅).card)).1 P.entry ∅ hWF.entry_mem
      (Finset.not_mem_empty _) (Nat.le_refl _)
    refine ⟨0, f2, (r.1, r.2.1), ?_⟩
    rw [show packRun P false 0 f2 =
      (packF P false (initState P) f2 (.one P.entry) ∅).bind
        (fun r => some (r.1, r.2.1)) from rfl]
    rw [hf2]
    rfl
  · obtain ⟨f1, st, hst⟩ := propagate_enough P hWF
    obtain ⟨f2, r, hf2⟩ := (packF_enough P hWF true st
      ((P.mods.toFinset \ ∅).card)).1 P.entry ∅ hWF.entry_mem
      (Finset.not_mem_empty _) (Nat.le_refl _)
    refine ⟨f1, f2, (r.1, r.2.1), ?_⟩
    rw [show packRun P true f1 f2 =
      (propagate P f1).bind (fun st2 =>
        (packF P true st2 f2 (.one P.entry) ∅).bind
          (fun r => some (r.1, r.2.1))) from rfl]
    rw [hst]
    simp only [Option.some_bind]
    rw [hf2]
    rfl

/-!
## Chunk counting
-/

theorem symCount_append (l1 l2 : List Chunk) (v : Nat) (n : String) :
    symCount (l1 ++ l2) v n = symCount l1 v n + symCount l2 v n :=
  List.countP_append _ _ _

theorem wholeCount_append (l1 l2 : List Chunk) (v : Nat) :
    wholeCount (l1 ++ l2) v = wholeCount l1 v + wholeCount l2 v :=
  List.countP_append _ _ _

theorem countP_eq_ite_of_nodup {l : List String} (hl : l.Nodup) (n : String) :
    (l.countP fun x => x = n) = if n ∈ l then 1 else 0 := by
  induction l with
  | nil => simp
  | cons x xs ih =>
    rw [List.countP_cons]
    rcases List.nodup_cons.mp hl with ⟨hx, hxs⟩
    by_cases hxn : x = n
    · subst hxn
      have : x ∉ xs := hx
      rw [ih hxs]
      simp [this]
    · rw [ih hxs]
      simp only [List.mem_cons]
      by_cases hn : n ∈ xs
      · simp [hn, hxn, decide_eq_true_eq]
      · have hnx : ¬n = x := fun h => hxn h.symm
        simp [hn, hxn, hnx, decide_eq_true_eq]

theorem symCount_shakenChunks (m : Nat) (M : Module) (req : Finset String)
    (v : Nat) (n : String) :
    symCount (shakenChunks m M req) v n = if v = m ∧ n ∈ req then 1 else 0 := by
  unfold symCount shakenChunks
  rw [List.countP_map]
  rw [(List.perm_insertionSort defLE _).countP_eq]
  rw [List.countP_map]
  by_cases hvm : v = m
  · subst hvm
    rw [List.countP_congr (q := fun x => decide (x = n))
      (fun x hx => by simp [Function.comp])]
    rw [countP_eq_ite_of_nodup (Finset.sort_nodup _ _) n]
    simp [Finset.mem_sort]
  · have hmv : ¬m = v := fun h => hvm h.symm
    rw [List.countP_congr (q := fun _ => false)
      (fun x hx => by simp [Function.comp, hmv])]
    simp [hvm]

theorem wholeCount_shakenChunks (m : Nat) (M : Module) (req : Finset String)
    (v : Nat) :
    wholeCount (shakenChunks m M req) v = 0 := by
  unfold wholeCount shakenChunks
  rw [List.countP_eq_zero]
  intro c hc
  obtain ⟨p, _, hp⟩ := List.mem_map.mp hc
  rw [← hp]
  simp

theorem symCount_ownChunks (P : Program) (shake : Bool) (st : PState)
    (isRoot : Bool) (m : Nat) (v : Nat) (n : String) :
    symCount (ownChunks P shake st isRoot m) v n =
    if shake = true ∧ isRoot = false ∧ v = m ∧ n ∈ st.req m then 1 else 0 := by
  unfold ownChunks
  cases shake with
  | false =>
    simp only [Bool.not_false, Bool.or_true, if_true]
    by_cases he : (rootStmts (P.src m).body).isEmpty
    · simp [he, symCount]
    · simp only [he]
      rw [if_neg (by simp [he])]
      simp [symCount, List.countP_cons]
  | true =>
    cases isRoot with
    | true =>
      simp only [Bool.not_true, Bool.true_or, if_true]
      by_cases he : (rootStmts (P.src m).body).isEmpty
      · simp [he, symCount]
      · simp only [he]
        rw [if_neg (by simp [he])]
        simp [symCount, List.countP_cons]
    | false =>
      simp only [Bool.not_true, Bool.false_or, Bool.or_false]
      rw [if_neg (by simp)]
      by_cases hq : st.req m = ∅
      · rw [if_pos hq]
        simp [symCount, hq]
      · rw [if_neg hq]
        rw [symCount_shakenChunks]
        simp

theorem wholeCount_ownChunks (P : Program) (shake : Bool) (st : PState)
    (isRoot : Bool) (m : Nat) (v : Nat) :
    wholeCount (ownChunks P shake st isRoot m) v =
    if (isRoot || !shake) = true ∧ v = m ∧
        (rootStmts (P.src m).body).isEmpty = false then 1 else 0 := by
  unfold ownChunks
  by_cases hroot : (isRoot || !shake) = true
  · rw [if_pos hroot]
    dsimp only
    by_cases he : (rootStmts (P.src m).body).isEmpty
    · rw [if_pos he]
      simp [wholeCount, hroot, he]
    · rw [if_neg he]
      by_cases hvm : v = m
      · subst hvm
        rw [if_pos ⟨hroot, rfl, Bool.not_eq_true _ ▸ he⟩]
        simp [wholeCount, List.countP_cons]
      · rw [if_neg (by rintro ⟨_, hc, _⟩; exact hvm hc)]
        have hmv : ¬m = v := fun h => hvm h.symm
        simp [wholeCount, List.countP_cons, hmv]
  · rw [if_neg hroot]
    have hcond : ¬((isRoot || !shake) = true ∧ v = m ∧
        (rootStmts (P.src m).body).isEmpty = false) := by
      rintro ⟨hc, _, _⟩
      exact hroot hc
    rw [if_neg hcond]
    by_cases hq : st.req m = ∅
    · rw [if_pos hq]
      simp [wholeCount]
    · rw [if_neg hq]
      exact wholeCount_shakenChunks m (P.src m) (st.req m) v

theorem ite_add_ite (A B C : Prop) [Decidable A] [Decidable B] [Decidable C]
    (h1 : A ↔ B ∨ C) (h2 : ¬(B ∧ C)) :
    (if B then 1 else 0) + (if C then 1 else 0) = if A then (1 : Nat) else 0 := by
  by_cases hb : B <;> by_cases hc : C <;>
    simp [hb, hc, h1, h2] <;> tauto

theorem prootOK_one (vis : Finset Nat) (v m : Nat) :
    (prootOK (.one m) vis v = true) ↔ (vis ≠ ∅ ∨ v ≠ m) := by
  simp [prootOK]

theorem prootOK_imps (m : Nat) (imps : List Imp) (vis : Finset Nat) (v : Nat) :
    prootOK (.imps m imps) vis v = true := rfl

theorem pwholeOK_one (shake : Bool) (vis : Finset Nat) (v m : Nat) :
    (pwholeOK shake (.one m) vis v = true) ↔
      (shake = false ∨ (vis = ∅ ∧ v = m)) := by
  cases shake <;> simp [pwholeOK]

theorem pwholeOK_imps (shake : Bool) (m : Nat) (imps : List Imp)
    (vis : Finset Nat) (v : Nat) :
    (pwholeOK shake (.imps m imps) vis v = true) ↔ shake = false := by
  cases shake <;> simp [pwholeOK]

theorem packF_counts (P : Program) (shake : Bool) (st : PState) :
    ∀ (f : Nat) (mode : PMode) (vis : Finset Nat) cs ig vis',
    packF P shake st f mode vis = some (cs, ig, vis') →
    PModeOK mode vis → PModeVis mode vis →
    (∀ v n, symCount cs v n =
      if shake = true ∧ v ∈ vis' ∧ v ∉ vis ∧ n ∈ st.req v ∧
          prootOK mode vis v = true then 1 else 0) ∧
    (∀ v, wholeCount cs v =
      if v ∈ vis' ∧ v ∉ vis ∧ (rootStmts (P.src v).body).isEmpty = false ∧
          pwholeOK shake mode vis v = true then 1 else 0) := by
  intro f
  induction f with
  | zero => intro mode vis cs ig vis' h; simp [packF_zero] at h
  | succ f ih =>
    intro mode vis cs ig vis' h hok hvv
    match mode with
    | .one m =>
      rw [packF_one] at h
      cases hi : packF P shake st f (.imps m (P.src m).imports) (insert m vis) with
      | none => rw [hi] at h; simp at h
      | some r2 =>
        rw [hi] at h
        simp only [Option.some_bind, Option.some_inj, Prod.mk.injEq] at h
        obtain ⟨r2cs, r2ig, r2vis⟩ := r2
        obtain ⟨hcs, hig, hvis⟩ := h
        subst hcs; subst hig; subst hvis
        have hvset := packF_vis P shake st f _ _ _ _ _ hi trivial
        have hmvis : m ∈ r2vis := hvset.1 (Finset.mem_insert_self m vis)
        obtain ⟨ihs, ihw⟩ := ih _ _ _ _ _ hi trivial
          (Finset.nonempty_iff_ne_empty.mp ⟨m, Finset.mem_insert_self m vis⟩)
        have hnotins : ∀ v : Nat, v ∉ insert m vis ↔ (v ≠ m ∧ v ∉ vis) := by
          intro v
          rw [Finset.mem_insert]
          tauto
        constructor
        · intro v n
          rw [symCount_append, ihs v n, symCount_ownChunks]
          refine ite_add_ite _ _ _ ?_ ?_
          · constructor
            · rintro ⟨hsh, h1, h2, h3, h4⟩
              by_cases hvm : v = m
              · subst hvm
                refine Or.inr ⟨hsh, ?_, rfl, h3⟩
                rcases (prootOK_one vis v v).mp h4 with hc | hc
                · exact decide_eq_false_iff_not.mpr hc
                · exact absurd rfl hc
              · exact Or.inl ⟨hsh, h1, (hnotins v).mpr ⟨hvm, h2⟩, h3, rfl⟩
            · rintro (⟨hsh, h1, h2, h3, _⟩ | ⟨hsh, hd, hvm, h3⟩)
              · obtain ⟨hvm, hv⟩ := (hnotins v).mp h2
                exact ⟨hsh, h1, hv, h3,
                  (prootOK_one vis v m).mpr (Or.inr hvm)⟩
              · subst hvm
                exact ⟨hsh, hmvis, hok, h3, (prootOK_one vis v v).mpr
                  (Or.inl (decide_eq_false_iff_not.mp hd))⟩
          · rintro ⟨⟨_, _, hb, _, _⟩, ⟨_, _, hc, _⟩⟩
            subst hc
            exact ((hnotins _).mp hb).1 rfl
        · intro v
          rw [wholeCount_append, ihw v, wholeCount_ownChunks]
          refine ite_add_ite _ _ _ ?_ ?_
          · constructor
            · rintro ⟨h1, h2, h3, h4⟩
              rcases (pwholeOK_one shake vis v m).mp h4 with hsf | ⟨hvise, hvm⟩
              · by_cases hvm : v = m
                · subst hvm
                  refine Or.inr ⟨?_, rfl, h3⟩
                  exact Bool.or_eq_true _ _ |>.mpr (Or.inr (by simp [hsf]))
                · exact Or.inl ⟨h1, (hnotins v).mpr ⟨hvm, h2⟩, h3,
                    (pwholeOK_imps shake m (P.src m).imports
                      (insert m vis) v).mpr hsf⟩
              · subst hvm
                refine Or.inr ⟨?_, rfl, h3⟩
                exact Bool.or_eq_true _ _ |>.mpr (Or.inl (by simp [hvise]))
            · rintro (⟨h1, h2, h3, h4⟩ | ⟨hb, hvm, h3⟩)
              · obtain ⟨hvm, hv⟩ := (hnotins v).mp h2
                exact ⟨h1, hv, h3, (pwholeOK_one shake vis v m).mpr
                  (Or.inl ((pwholeOK_imps shake m (P.src m).imports
                    (insert m vis) v).mp h4))⟩
              · subst hvm
                refine ⟨hmvis, hok, h3, (pwholeOK_one shake vis v v).mpr ?_⟩
                rcases Bool.or_eq_true _ _ |>.mp hb with hc | hc
                · exact Or.inr ⟨of_decide_eq_true hc, rfl⟩
                · exact Or.inl (by simpa using hc)
          · rintro ⟨⟨_, hb, _, _⟩, ⟨_, hc, _⟩⟩
            subst hc
            exact ((hnotins _).mp hb).1 rfl
    | .imps m [] =>
      rw [packF_imps_nil] at h
      simp only [Option.some_inj, Prod.mk.injEq] at h
      obtain ⟨hcs, hig, hvis⟩ := h
      subst hcs; subst hig; subst hvis
      constructor
      · intro v n
        rw [if_neg (by rintro ⟨_, hv1, hv2, _⟩; exact hv2 hv1)]
        simp [symCount]
      · intro v
        rw [if_neg (by rintro ⟨hv1, hv2, _⟩; exact hv2 hv1)]
        simp [wholeCount]
    | .imps m (imp :: rest) =>
      have hrec : ∀ ig2 (h2 : packF P shake st f (.imps m rest) vis =
            some (cs, ig2, vis')),
          (∀ v n, symCount cs v n =
            if shake = true ∧ v ∈ vis' ∧ v ∉ vis ∧ n ∈ st.req v ∧
                prootOK (PMode.imps m (imp :: rest)) vis v = true then 1 else 0) ∧
          (∀ v, wholeCount cs v =
            if v ∈ vis' ∧ v ∉ vis ∧ (rootStmts (P.src v).body).isEmpty = false ∧
                pwholeOK shake (PMode.imps m (imp :: rest)) vis v = true
            then 1 else 0) := by
        intro ig2 h2
        obtain ⟨ihs, ihw⟩ := ih _ _ _ _ _ h2 trivial hvv
        constructor
        · intro v n
          rw [ihs v n]
          rfl
        · intro v
          rw [ihw v]
          rfl
      match imp with
      | .mod mod0 a =>
        rw [packF_imps_mod] at h
        cases hi : packF P shake st f (.imps m rest) vis with
        | none => rw [hi] at h; simp at h
        | some r2 =>
          rw [hi] at h
          simp only [Option.some_bind, Option.some_inj, Prod.mk.injEq] at h
          obtain ⟨r2cs, r2ig, r2vis⟩ := r2
          obtain ⟨hcs, hig, hvis⟩ := h
          subst hcs; subst hvis
          exact hrec _ hi
      | .star mod0 =>
        cases hres : P.resolve m mod0 with
        | none =>
          rw [packF_imps_star, hres] at h
          dsimp only at h
          cases hi : packF P shake st f (.imps m rest) vis with
          | none => rw [hi] at h; simp at h
          | some r2 =>
            rw [hi] at h
            simp only [Option.some_bind, Option.some_inj, Prod.mk.injEq] at h
            obtain ⟨r2cs, r2ig, r2vis⟩ := r2
            obtain ⟨hcs, hig, hvis⟩ := h
            subst hcs; subst hvis
            exact hrec _ hi
        | some m2 =>
          rw [packF_imps_star, hres] at h
          dsimp only at h
          by_cases hv : m2 ∈ vis
          · rw [if_pos hv] at h
            exact hrec _ h
          · rw [if_neg hv] at h
            cases h1 : packF P shake st f (.one m2) vis with
            | none => rw [h1] at h; simp at h
            | some r1 =>
              rw [h1] at h
              simp only [Option.some_bind] at h
              obtain ⟨r1cs, r1ig, r1vis⟩ := r1
              cases h2 : packF P shake st f (.imps m rest) r1vis with
              | none => rw [h2] at h; simp at h
              | some r2 =>
                rw [h2] at h
                simp only [Option.some_bind, Option.some_inj, Prod.mk.injEq] at h
                obtain ⟨r2cs, r2ig, r2vis⟩ := r2
                obtain ⟨hcs, hig, hvis⟩ := h
                subst hcs; subst hig; subst hvis
                have hvisne : vis ≠ ∅ := hvv
                have hva := packF_vis P shake st f _ _ _ _ _ h1 hv
                have hvb := packF_vis P shake st f _ _ _ _ _ h2 trivial
                have hvv2 : PModeVis (PMode.imps m rest) r1vis := by
                  show r1vis ≠ ∅
                  obtain ⟨x, hx⟩ := Finset.nonempty_iff_ne_empty.mpr hvisne
                  exact Finset.nonempty_iff_ne_empty.mp ⟨x, hva.1 hx⟩
                obtain ⟨ihs1, ihw1⟩ := ih _ _ _ _ _ h1 hv trivial
                obtain ⟨ihs2, ihw2⟩ := ih _ _ _ _ _ h2 trivial hvv2
                constructor
                · intro v n
                  rw [symCount_append, ihs1 v n, ihs2 v n]
                  refine ite_add_ite _ _ _ ?_ ?_
                  · constructor
                    · rintro ⟨hsh, h3, h4, h5, _⟩
                      by_cases h6 : v ∈ r1vis
                      · exact Or.inl ⟨hsh, h6, h4, h5,
                          (prootOK_one vis v m2).mpr (Or.inl hvisne)⟩
                      · exact Or.inr ⟨hsh, h3, h6, h5, rfl⟩
                    · rintro (⟨hsh, h3, h4, h5, _⟩ | ⟨hsh, h3, h4, h5, _⟩)
                      · exact ⟨hsh, hvb.1 h3, h4, h5, rfl⟩
                      · exact ⟨hsh, h3, fun hc => h4 (hva.1 hc), h5, rfl⟩
                  · rintro ⟨⟨_, hb, _, _, _⟩, ⟨_, _, hc, _, _⟩⟩
                    exact hc hb
                · intro v
                  rw [wholeCount_append, ihw1 v, ihw2 v]
                  refine ite_add_ite _ _ _ ?_ ?_
                  · constructor
                    · rintro ⟨h3, h4, h5, h6⟩
                      have hsf : shake = false :=
                        (pwholeOK_imps shake m (imp :: rest) vis v).mp h6
                      by_cases h7 : v ∈ r1vis
                      · exact Or.inl ⟨h7, h4, h5,
                          (pwholeOK_one shake vis v m2).mpr (Or.inl hsf)⟩
                      · exact Or.inr ⟨h3, h7, h5,
                          (pwholeOK_imps shake m rest r1vis v).mpr hsf⟩
                    · rintro (⟨h3, h4, h5, h6⟩ | ⟨h3, h4, h5, h6⟩)
                      · have hsf : shake = false := by
                          rcases (pwholeOK_one shake vis v m2).mp h6 with hc | hc
                          · exact hc
                          · exact absurd hc.1 hvisne
                        exact ⟨hvb.1 h3, h4, h5,
                          (pwholeOK_imps shake m (imp :: rest) vis v).mpr hsf⟩
                      · have hsf : shake = false :=
                          (pwholeOK_imps shake m rest r1vis v).mp h6
                        exact ⟨h3, fun hc => h4 (hva.1 hc), h5,
                          (pwholeOK_imps shake m (imp :: rest) vis v).mpr hsf⟩
                  · rintro ⟨⟨hb, _, _, _⟩, ⟨_, hc, _, _⟩⟩
                    exact hc hb
      | .fromI mod0 y a =>
        cases hres : P.resolve m mod0 with
        | none =>
          rw [packF_imps_from, hres] at h
          dsimp only at h
          cases hi : packF P shake st f (.imps m rest) vis with
          | none => rw [hi] at h; simp at h
          | some r2 =>
            rw [hi] at h
            simp only [Option.some_bind, Option.some_inj, Prod.mk.injEq] at h
            obtain ⟨r2cs, r2ig, r2vis⟩ := r2
            obtain ⟨hcs, hig, hvis⟩ := h
            subst hcs; subst hvis
            exact hrec _ hi
        | some m2 =>
          rw [packF_imps_from, hres] at h
          dsimp only at h
          by_cases hv : m2 ∈ vis
          · rw [if_pos hv] at h
            exact hrec _ h
          · rw [if_neg hv] at h
            cases h1 : packF P shake st f (.one m2) vis with
            | none => rw [h1] at h; simp at h
            | some r1 =>
              rw [h1] at h
              simp only [Option.some_bind] at h
              obtain ⟨r1cs, r1ig, r1vis⟩ := r1
              cases h2 : packF P shake st f (.imps m rest) r1vis with
              | none => rw [h2] at h; simp at h
              | some r2 =>
                rw [h2] at h
                simp only [Option.some_bind, Option.some_inj, Prod.mk.injEq] at h
                obtain ⟨r2cs, r2ig, r2vis⟩ := r2
                obtain ⟨hcs, hig, hvis⟩ := h
                subst hcs; subst hig; subst hvis
                have hvisne : vis ≠ ∅ := hvv
                have hva := packF_vis P shake st f _ _ _ _ _ h1 hv
                have hvb := packF_vis P shake st f _ _ _ _ _ h2 trivial
                have hvv2 : PModeVis (PMode.imps m rest) r1vis := by
                  show r1vis ≠ ∅
                  obtain ⟨x, hx⟩ := Finset.nonempty_iff_ne_empty.mpr hvisne
                  exact Finset.nonempty_iff_ne_empty.mp ⟨x, hva.1 hx⟩
                obtain ⟨ihs1, ihw1⟩ := ih _ _ _ _ _ h1 hv trivial
                obtain ⟨ihs2, ihw2⟩ := ih _ _ _ _ _ h2 trivial hvv2
                constructor
                · intro v n
                  rw [symCount_append, ihs1 v n, ihs2 v n]
                  refine ite_add_ite _ _ _ ?_ ?_
                  · constructor
                    · rintro ⟨hsh, h3, h4, h5, _⟩
                      by_cases h6 : v ∈ r1vis
                      · exact Or.inl ⟨hsh, h6, h4, h5,
                          (prootOK_one vis v m2).mpr (Or.inl hvisne)⟩
                      · exact Or.inr ⟨hsh, h3, h6, h5, rfl⟩
                    · rintro (⟨hsh, h3, h4, h5, _⟩ | ⟨hsh, h3, h4, h5, _⟩)
                      · exact ⟨hsh, hvb.1 h3, h4, h5, rfl⟩
                      · exact ⟨hsh, h3, fun hc => h4 (hva.1 hc), h5, rfl⟩
                  · rintro ⟨⟨_, hb, _, _, _⟩, ⟨_, _, hc, _, _⟩⟩
                    exact hc hb
                · intro v
                  rw [wholeCount_append, ihw1 v, ihw2 v]
                  refine ite_add_ite _ _ _ ?_ ?_
                  · constructor
                    · rintro ⟨h3, h4, h5, h6⟩
                      have hsf : shake = false :=
                        (pwholeOK_imps shake m (imp :: rest) vis v).mp h6
                      by_cases h7 : v ∈ r1vis
                      · exact Or.inl ⟨h7, h4, h5,
                          (pwholeOK_one shake vis v m2).mpr (Or.inl hsf)⟩
                      · exact Or.inr ⟨h3, h7, h5,
                          (pwholeOK_imps shake m rest r1vis v).mpr hsf⟩
                    · rintro (⟨h3, h4, h5, h6⟩ | ⟨h3, h4, h5, h6⟩)
                      · have hsf : shake = false := by
                          rcases (pwholeOK_one shake vis v m2).mp h6 with hc | hc
                          · exact hc
                          · exact absurd hc.1 hvisne
                        exact ⟨hvb.1 h3, h4, h5,
                          (pwholeOK_imps shake m (imp :: rest) vis v).mpr hsf⟩
                      · have hsf : shake = false :=
                          (pwholeOK_imps shake m rest r1vis v).mp h6
                        exact ⟨h3, fun hc => h4 (hva.1 hc), h5,
                          (pwholeOK_imps shake m (imp :: rest) vis v).mpr hsf⟩
                  · rintro ⟨⟨hb, _, _, _⟩, ⟨_, hc, _, _⟩⟩
                    exact hc hb

/-!
## Edge closedness and reachability of the visited set
-/

theorem crossGo_mem (res : String → Option Nat) :
    ∀ (l : List Imp) (n : String) (p : Nat × String), p ∈ crossGo res l n →
    ∃ i ∈ l, (∀ mod a, i ≠ Imp.mod mod a) ∧ res i.moduleOf = some p.1 := by
  intro l
  induction l with
  | nil => intro n p hp; rw [crossGo_nil] at hp; exact absurd hp (List.not_mem_nil p)
  | cons i rest ih =>
    intro n p hp
    match i with
    | .mod mod0 a =>
      rw [crossGo_mod] at hp
      obtain ⟨j, hj1, hj2⟩ := ih n p hp
      exact ⟨j, List.mem_cons_of_mem _ hj1, hj2⟩
    | .star mod0 =>
      cases hres : res mod0 with
      | none =>
        rw [crossGo_star, hres] at hp
        dsimp only at hp
        obtain ⟨j, hj1, hj2⟩ := ih n p hp
        exact ⟨j, List.mem_cons_of_mem _ hj1, hj2⟩
      | some m2 =>
        rw [crossGo_star, hres] at hp
        dsimp only at hp
        rcases List.mem_cons.mp hp with hp | hp
        · subst hp
          exact ⟨.star mod0, List.mem_cons_self _ _, by intro mod a; simp, hres⟩
        · obtain ⟨j, hj1, hj2⟩ := ih n p hp
          exact ⟨j, List.mem_cons_of_mem _ hj1, hj2⟩
    | .fromI mod0 y a =>
      cases hres : res mod0 with
      | none =>
        rw [crossGo_from, hres] at hp
        dsimp only at hp
        obtain ⟨j, hj1, hj2⟩ := ih n p hp
        exact ⟨j, List.mem_cons_of_mem _ hj1, hj2⟩
      | some m2 =>
        rw [crossGo_from, hres] at hp
        dsimp only at hp
        by_cases ha : a = n
        · rw [if_pos ha] at hp
          rw [List.mem_singleton] at hp
          subst hp
          exact ⟨.fromI mod0 y a, List.mem_cons_self _ _, by intro mod a2; simp, hres⟩
        · rw [if_neg ha] at hp
          obtain ⟨j, hj1, hj2⟩ := ih n p hp
          exact ⟨j, List.mem_cons_of_mem _ hj1, hj2⟩

theorem crossSteps_edge (P : Program) (m : Nat) (n : String) (p : Nat × String)
    (hp : p ∈ crossSteps P m n) : Edge P m p.1 := by
  obtain ⟨i, hi1, hi2⟩ := crossGo_mem (P.resolve m) _ n p hp
  exact ⟨i, List.mem_reverse.mp hi1, hi2⟩

theorem clo_reaches (P : Program) :
    ∀ (k : CKind) (m : Nat) (n : String), Clo P k m n → Reaches P m := by
  intro k m n hc
  induction hc with
  | seed n0 m2 y hn0 hp =>
    exact Reaches.step _ _ Reaches.entry (crossSteps_edge P P.entry n0 (m2, y) hp)
  | toReq m0 n0 hc hd ihc => exact ihc
  | depReq m0 n0 d hc hdep hd ihc => exact ihc
  | toExt m0 n0 hc hd ihc => exact ihc
  | depExt m0 n0 d hc hdep hd ihc => exact ihc
  | cross m0 n0 m2 y hc hp ihc =>
    exact Reaches.step _ _ ihc (crossSteps_edge P m0 n0 (m2, y) hp)

theorem packF_closed (P : Program) (shake : Bool) (st : PState) :
    ∀ (f : Nat) (mode : PMode) (vis : Finset Nat) cs ig vis',
    packF P shake st f mode vis = some (cs, ig, vis') → PModeSub P mode →
    modeClosed P vis' mode ∧
    (∀ v, v ∈ vis' → v ∉ vis → ∀ w, Edge P v w → w ∈ vis') := by
  intro f
  induction f with
  | zero => intro mode vis cs ig vis' h; simp [packF_zero] at h
  | succ f ih =>
    intro mode vis cs ig vis' h hsub
    match mode with
    | .one m =>
      rw [packF_one] at h
      cases hi : packF P shake st f (.imps m (P.src m).imports) (insert m vis) with
      | none => rw [hi] at h; simp at h
      | some r2 =>
        rw [hi] at h
        simp only [Option.some_bind, Option.some_inj, Prod.mk.injEq] at h
        obtain ⟨r2cs, r2ig, r2vis⟩ := r2
        obtain ⟨hcs, hig, hvis⟩ := h
        subst hcs; subst hig; subst hvis
        obtain ⟨hA, hB⟩ := ih _ _ _ _ _ hi (fun i hi2 => hi2)
        have hedge : ∀ w, Edge P m w → w ∈ r2vis := by
          rintro w ⟨i, hi1, hi2, hi3⟩
          exact hA i hi1 w hi2 hi3
        refine ⟨hedge, ?_⟩
        intro v hv1 hv2 w hw
        by_cases hvm : v = m
        · exact hedge w (hvm ▸ hw)
        · exact hB v hv1 (by simp [Finset.mem_insert, hvm, hv2]) w hw
    | .imps m [] =>
      rw [packF_imps_nil] at h
      simp only [Option.some_inj, Prod.mk.injEq] at h
      obtain ⟨hcs, hig, hvis⟩ := h
      subst hcs; subst hig; subst hvis
      constructor
      · intro i hi2
        exact absurd hi2 (List.not_mem_nil i)
      · intro v hv1 hv2
        exact absurd hv1 hv2
    | .imps m (imp :: rest) =>
      have hsubr : PModeSub P (.imps m rest) :=
        fun i hi2 => hsub i (List.mem_cons_of_mem _ hi2)
      match imp with
      | .mod mod0 a =>
        rw [packF_imps_mod] at h
        cases hi : packF P shake st f (.imps m rest) vis with
        | none => rw [hi] at h; simp at h
        | some r2 =>
          rw [hi] at h
          simp only [Option.some_bind, Option.some_inj, Prod.mk.injEq] at h
          obtain ⟨r2cs, r2ig, r2vis⟩ := r2
          obtain ⟨hcs, hig, hvis⟩ := h
          subst hcs; subst hvis
          obtain ⟨hA, hB⟩ := ih _ _ _ _ _ hi hsubr
          refine ⟨?_, hB⟩
          intro i hi2 w hnp hres
          rcases List.mem_cons.mp hi2 with hi2 | hi2
          · exact absurd hi2 (hnp mod0 a)
          · exact hA i hi2 w hnp hres
      | .star mod0 =>
        cases hres0 : P.resolve m mod0 with
        | none =>
          rw [packF_imps_star, hres0] at h
          dsimp only at h
          cases hi : packF P shake st f (.imps m rest) vis with
          | none => rw [hi] at h; simp at h
          | some r2 =>
            rw [hi] at h
            simp only [Option.some_bind, Option.some_inj, Prod.mk.injEq] at h
            obtain ⟨r2cs, r2ig, r2vis⟩ := r2
            obtain ⟨hcs, hig, hvis⟩ := h
            subst hcs; subst hvis
            obtain ⟨hA, hB⟩ := ih _ _ _ _ _ hi hsubr
            refine ⟨?_, hB⟩
            intro i hi2 w hnp hres
            rcases List.mem_cons.mp hi2 with hi2 | hi2
            · subst hi2
              rw [show (Imp.star mod0).moduleOf = mod0 from rfl, hres0] at hres
              exact absurd hres (by simp)
            · exact hA i hi2 w hnp hres
        | some m2 =>
          rw [packF_imps_star, hres0] at h
          dsimp only at h
          by_cases hv : m2 ∈ vis
          · rw [if_pos hv] at h
            obtain ⟨hA, hB⟩ := ih _ _ _ _ _ h hsubr
            have hvsub := (packF_vis P shake st f _ _ _ _ _ h trivial).1
            refine ⟨?_, hB⟩
            intro i hi2 w hnp hres
            rcases List.mem_cons.mp hi2 with hi2 | hi2
            · subst hi2
              rw [show (Imp.star mod0).moduleOf = mod0 from rfl, hres0] at hres
              rw [← Option.some_inj.mp hres]
              exact hvsub hv
            · exact hA i hi2 w hnp hres
          · rw [if_neg hv] at h
            cases h1 : packF P shake st f (.one m2) vis with
            | none => rw [h1] at h; simp at h
            | some r1 =>
              rw [h1] at h
              simp only [Option.some_bind] at h
              obtain ⟨r1cs, r1ig, r1vis⟩ := r1
              cases h2 : packF P shake st f (.imps m rest) r1vis with
              | none => rw [h2] at h; simp at h
              | some r2 =>
                rw [h2] at h
                simp only [Option.some_bind, Option.some_inj, Prod.mk.injEq] at h
                obtain ⟨r2cs, r2ig, r2vis⟩ := r2
                obtain ⟨hcs, hig, hvis⟩ := h
                subst hcs; subst hig; subst hvis
                obtain ⟨hA1, hB1⟩ := ih _ _ _ _ _ h1 trivial
                obtain ⟨hA2, hB2⟩ := ih _ _ _ _ _ h2 hsubr
                have hva := packF_vis P shake st f _ _ _ _ _ h1 hv
                have hvb := packF_vis P shake st f _ _ _ _ _ h2 trivial
                constructor
                · intro i hi2 w hnp hres
                  rcases List.mem_cons.mp hi2 with hi2 | hi2
                  · subst hi2
                    rw [show (Imp.star mod0).moduleOf = mod0 from rfl, hres0] at hres
                    rw [← Option.some_inj.mp hres]
                    exact hvb.1 (hva.2.2 m2 rfl)
                  · exact hA2 i hi2 w hnp hres
                · intro v hv1 hv2 w hw
                  by_cases hvr : v ∈ r1vis
                  · exact hvb.1 (hB1 v hvr hv2 w hw)
                  · exact hB2 v hv1 hvr w hw
      | .fromI mod0 y a =>
        cases hres0 : P.resolve m mod0 with
        | none =>
          rw [packF_imps_from, hres0] at h
          dsimp only at h
          cases hi : packF P shake st f (.imps m rest) vis with
          | none => rw [hi] at h; simp at h
          | some r2 =>
            rw [hi] at h
            simp only [Option.some_bind, Option.some_inj, Prod.mk.injEq] at h
            obtain ⟨r2cs, r2ig, r2vis⟩ := r2
            obtain ⟨hcs, hig, hvis⟩ := h
            subst hcs; subst hvis
            obtain ⟨hA, hB⟩ := ih _ _ _ _ _ hi hsubr
            refine ⟨?_, hB⟩
            intro i hi2 w hnp hres
            rcases List.mem_cons.mp hi2 with hi2 | hi2
            · subst hi2
              rw [show (Imp.fromI mod0 y a).moduleOf = mod0 from rfl, hres0] at hres
              exact absurd hres (by simp)
            · exact hA i hi2 w hnp hres
        | some m2 =>
          rw [packF_imps_from, hres0] at h
          dsimp only at h
          by_cases hv : m2 ∈ vis
          · rw [if_pos hv] at h
            obtain ⟨hA, hB⟩ := ih _ _ _ _ _ h hsubr
            have hvsub := (packF_vis P shake st f _ _ _ _ _ h trivial).1
            refine ⟨?_, hB⟩
            intro i hi2 w hnp hres
            rcases List.mem_cons.mp hi2 with hi2 | hi2
            · subst hi2
              rw [show (Imp.fromI mod0 y a).moduleOf = mod0 from rfl, hres0] at hres
              rw [← Option.some_inj.mp hres]
              exact hvsub hv
            · exact hA i hi2 w hnp hres
          · rw [if_neg hv] at h
            cases h1 : packF P shake st f (.one m2) vis with
            | none => rw [h1] at h; simp at h
            | some r1 =>
              rw [h1] at h
              simp only [Option.some_bind] at h
              obtain ⟨r1cs, r1ig, r1vis⟩ := r1
              cases h2 : packF P shake st f (.imps m rest) r1vis with
              | none => rw [h2] at h; simp at h
              | some r2 =>
                rw [h2] at h
                simp only [Option.some_bind, Option.some_inj, Prod.mk.injEq] at h
                obtain ⟨r2cs, r2ig, r2vis⟩ := r2
                obtain ⟨hcs, hig, hvis⟩ := h
                subst hcs; subst hig; subst hvis
                obtain ⟨hA1, hB1⟩ := ih _ _ _ _ _ h1 trivial
                obtain ⟨hA2, hB2⟩ := ih _ _ _ _ _ h2 hsubr
                have hva := packF_vis P shake st f _ _ _ _ _ h1 hv
                have hvb := packF_vis P shake st f _ _ _ _ _ h2 trivial
                constructor
                · intro i hi2 w hnp hres
                  rcases List.mem_cons.mp hi2 with hi2 | hi2
                  · subst hi2
                    rw [show (Imp.fromI mod0 y a).moduleOf = mod0 from rfl, hres0] at hres
                    rw [← Option.some_inj.mp hres]
                    exact hvb.1 (hva.2.2 m2 rfl)
                  · exact hA2 i hi2 w hnp hres
                · intro v hv1 hv2 w hw
                  by_cases hvr : v ∈ r1vis
                  · exact hvb.1 (hB1 v hvr hv2 w hw)
                  · exact hB2 v hv1 hvr w hw

theorem packF_reach (P : Program) (shake : Bool) (st : PState) :
    ∀ (f : Nat) (mode : PMode) (vis : Finset Nat) cs ig vis',
    packF P shake st f mode vis = some (cs, ig, vis') → PModeSub P mode →
    ∀ v ∈ vis', v ∉ vis → Relation.ReflTransGen (Edge P) (modeRoot mode) v := by
  intro f
  induction f with
  | zero => intro mode vis cs ig vis' h; simp [packF_zero] at h
  | succ f ih =>
    intro mode vis cs ig vis' h hsub
    match mode with
    | .one m =>
      rw [packF_one] at h
      cases hi : packF P shake st f (.imps m (P.src m).imports) (insert m vis) with
      | none => rw [hi] at h; simp at h
      | some r2 =>
        rw [hi] at h
        simp only [Option.some_bind, Option.some_inj, Prod.mk.injEq] at h
        obtain ⟨r2cs, r2ig, r2vis⟩ := r2
        obtain ⟨hcs, hig, hvis⟩ := h
        subst hcs; subst hig; subst hvis
        intro v hv1 hv2
        by_cases hvm : v = m
        · subst hvm
          exact Relation.ReflTransGen.refl
        · exact ih _ _ _ _ _ hi (fun i hi2 => hi2) v hv1
            (by simp [Finset.mem_insert, hvm, hv2])
    | .imps m [] =>
      rw [packF_imps_nil] at h
      simp only [Option.some_inj, Prod.mk.injEq] at h
      obtain ⟨hcs, hig, hvis⟩ := h
      subst hcs; subst hig; subst hvis
      intro v hv1 hv2
      exact absurd hv1 hv2
    | .imps m (imp :: rest) =>
      have hsubr : PModeSub P (.imps m rest) :=
        fun i hi2 => hsub i (List.mem_cons_of_mem _ hi2)
      have hrec : ∀ r2ig (h2 : packF P shake st f (.imps m rest) vis =
            some (cs, r2ig, vis')),
          ∀ v ∈ vis', v ∉ vis →
            Relation.ReflTransGen (Edge P) (modeRoot (PMode.imps m (imp :: rest))) v := by
        intro r2ig h2 v hv1 hv2
        exact ih _ _ _ _ _ h2 hsubr v hv1 hv2
      match imp with
      | .mod mod0 a =>
        rw [packF_imps_mod] at h
        cases hi : packF P shake st f (.imps m rest) vis with
        | none => rw [hi] at h; simp at h
        | some r2 =>
          rw [hi] at h
          simp only [Option.some_bind, Option.some_inj, Prod.mk.injEq] at h
          obtain ⟨r2cs, r2ig, r2vis⟩ := r2
          obtain ⟨hcs, hig, hvis⟩ := h
          subst hcs; subst hvis
          exact hrec _ hi
      | .star mod0 =>
        cases hres0 : P.resolve m mod0 with
        | none =>
          rw [packF_imps_star, hres0] at h
          dsimp only at h
          cases hi : packF P shake st f (.imps m rest) vis with
          | none => rw [hi] at h; simp at h
          | some r2 =>
            rw [hi] at h
            simp only [Option.some_bind, Option.some_inj, Prod.mk.injEq] at h
            obtain ⟨r2cs, r2ig, r2vis⟩ := r2
            obtain ⟨hcs, hig, hvis⟩ := h
            subst hcs; subst hvis
            exact hrec _ hi
        | some m2 =>
          rw [packF_imps_star, hres0] at h
          dsimp only at h
          by_cases hv : m2 ∈ vis
          · rw [if_pos hv] at h
            exact hrec _ h
          · rw [if_neg hv] at h
            cases h1 : packF P shake st f (.one m2) vis with
            | none => rw [h1] at h; simp at h
            | some r1 =>
              rw [h1] at h
              simp only [Option.some_bind] at h
              obtain ⟨r1cs, r1ig, r1vis⟩ := r1
              cases h2 : packF P shake st f (.imps m rest) r1vis with
              | none => rw [h2] at h; simp at h
              | some r2 =>
                rw [h2] at h
                simp only [Option.some_bind, Option.some_inj, Prod.mk.injEq] at h
                obtain ⟨r2cs, r2ig, r2vis⟩ := r2
                obtain ⟨hcs, hig, hvis⟩ := h
                subst hcs; subst hig; subst hvis
                have hedge : Edge P m m2 := by
                  refine ⟨.star mod0, hsub _ (List.mem_cons_self _ _), ?_, hres0⟩
                  intro mod a2
                  simp
                intro v hv1 hv2
                by_cases hvr : v ∈ r1vis
                · exact Relation.ReflTransGen.head hedge
                    (ih _ _ _ _ _ h1 trivial v hvr hv2)
                · exact ih _ _ _ _ _ h2 hsubr v hv1 hvr
      | .fromI mod0 y a =>
        cases hres0 : P.resolve m mod0 with
        | none =>
          rw [packF_imps_from, hres0] at h
          dsimp only at h
          cases hi : packF P shake st f (.imps m rest) vis with
          | none => rw [hi] at h; simp at h
          | some r2 =>
            rw [hi] at h
            simp only [Option.some_bind, Option.some_inj, Prod.mk.injEq] at h
            obtain ⟨r2cs, r2ig, r2vis⟩ := r2
            obtain ⟨hcs, hig, hvis⟩ := h
            subst hcs; subst hvis
            exact hrec _ hi
        | some m2 =>
          rw [packF_imps_from, hres0] at h
          dsimp only at h
          by_cases hv : m2 ∈ vis
          · rw [if_pos hv] at h
            exact hrec _ h
          · rw [if_neg hv] at h
            cases h1 : packF P shake st f (.one m2) vis with
            | none => rw [h1] at h; simp at h
            | some r1 =>
              rw [h1] at h
              simp only [Option.some_bind] at h
              obtain ⟨r1cs, r1ig, r1vis⟩ := r1
              cases h2 : packF P shake st f (.imps m rest) r1vis with
              | none => rw [h2] at h; simp at h
              | some r2 =>
                rw [h2] at h
                simp only [Option.some_bind, Option.some_inj, Prod.mk.injEq] at h
                obtain ⟨r2cs, r2ig, r2vis⟩ := r2
                obtain ⟨hcs, hig, hvis⟩ := h
                subst hcs; subst hig; subst hvis
                have hedge : Edge P m m2 := by
                  refine ⟨.fromI mod0 y a, hsub _ (List.mem_cons_self _ _), ?_, hres0⟩
                  intro mod a2
                  simp
                intro v hv1 hv2
                by_cases hvr : v ∈ r1vis
                · exact Relation.ReflTransGen.head hedge
                    (ih _ _ _ _ _ h1 trivial v hvr hv2)
                · exact ih _ _ _ _ _ h2 hsubr v hv1 hvr

/-!
## Chunk ordering
-/

theorem precedeS_precede (cs : List Chunk) (w v : Nat)
    (h : precedeS cs w v) : precede cs w v := by
  obtain ⟨l1, l2, heq, h2, h1⟩ := h
  subst heq
  intro i j hi hj hmi hmj
  have hiL : i < l1.length := by
    by_contra hge
    push_neg at hge
    have : (l1 ++ l2).get ⟨i, hi⟩ ∈ l2 := by
      rw [List.get_eq_getElem, List.getElem_append_right hge]
      exact List.getElem_mem _
    exact h2 _ this hmi
  have hjL : l1.length ≤ j := by
    by_contra hlt
    push_neg at hlt
    have : (l1 ++ l2).get ⟨j, hj⟩ ∈ l1 := by
      rw [List.get_eq_getElem, List.getElem_append_left hlt]
      exact List.getElem_mem _
    exact h1 _ this hmj
  omega

theorem packF_order (P : Program) (shake : Bool) (st : PState)
    (hac : Acyclic P) :
    ∀ (f : Nat) (mode : PMode) (vis : Finset Nat) cs ig vis',
    packF P shake st f mode vis = some (cs, ig, vis') →
    PModeSub P mode → PModeOK mode vis →
    ∀ v w, Edge P v w → v ∈ vis' → v ∉ vis → w ∈ vis' → w ∉ vis → v ≠ w →
      precedeS cs w v := by
  intro f
  induction f with
  | zero => intro mode vis cs ig vis' h; simp [packF_zero] at h
  | succ f ih =>
    intro mode vis cs ig vis' h hsub hok
    match mode with
    | .one m =>
      rw [packF_one] at h
      cases hi : packF P shake st f (.imps m (P.src m).imports) (insert m vis) with
      | none => rw [hi] at h; simp at h
      | some r2 =>
        rw [hi] at h
        simp only [Option.some_bind, Option.some_inj, Prod.mk.injEq] at h
        obtain ⟨r2cs, r2ig, r2vis⟩ := r2
        obtain ⟨hcs, hig, hvis⟩ := h
        subst hcs; subst hig; subst hvis
        intro v w hedge hv1 hv2 hw1 hw2 hvw
        by_cases hwm : w = m
        · by_cases hvm : v = m
          · exact absurd (hvm.trans hwm.symm) hvw
          · have hreach := packF_reach P shake st f _ _ _ _ _ hi
              (fun i hi2 => hi2) v hv1 (by simp [Finset.mem_insert, hvm, hv2])
            have hreach2 : Relation.ReflTransGen (Edge P) w v := by
              rw [hwm]
              exact hreach
            exact absurd hreach2 (hac v w hedge)
        · by_cases hvm : v = m
          · refine ⟨r2cs, ownChunks P shake st (decide (vis = ∅)) m, rfl, ?_, ?_⟩
            · intro c hc
              rw [ownChunks_mod P shake st _ m c hc]
              exact fun hcc => hwm hcc.symm
            · intro c hc
              have hprov := (packF_vis P shake st f _ _ _ _ _ hi trivial).2.1 c hc
              intro hcc
              refine hprov.2 ?_
              rw [hcc, hvm]
              exact Finset.mem_insert_self m vis
          · obtain ⟨l1, l2, heq, hl2, hl1⟩ := ih _ _ _ _ _ hi
              (fun i hi2 => hi2) trivial v w hedge hv1
              (by simp [Finset.mem_insert, hvm, hv2]) hw1
              (by simp [Finset.mem_insert, hwm, hw2]) hvw
            refine ⟨l1, l2 ++ ownChunks P shake st (decide (vis = ∅)) m,
              by rw [heq, List.append_assoc], ?_, hl1⟩
            intro c hc
            rcases List.mem_append.mp hc with hc | hc
            · exact hl2 c hc
            · rw [ownChunks_mod P shake st _ m c hc]
              exact fun hcc => hwm hcc.symm
    | .imps m [] =>
      rw [packF_imps_nil] at h
      simp only [Option.some_inj, Prod.mk.injEq] at h
      obtain ⟨hcs, hig, hvis⟩ := h
      subst hcs; subst hig; subst hvis
      intro v w hedge hv1 hv2
      exact absurd hv1 hv2
    | .imps m (imp :: rest) =>
      have hsubr : PModeSub P (.imps m rest) :=
        fun i hi2 => hsub i (List.mem_cons_of_mem _ hi2)
      have hrec : ∀ r2ig (h2 : packF P shake st f (.imps m rest) vis =
            some (cs, r2ig, vis')),
          ∀ v w, Edge P v w → v ∈ vis' → v ∉ vis → w ∈ vis' → w ∉ vis →
            v ≠ w → precedeS cs w v := by
        intro r2ig h2 v w hedge hv1 hv2 hw1 hw2 hvw
        exact ih _ _ _ _ _ h2 hsubr trivial v w hedge hv1 hv2 hw1 hw2 hvw
      match imp with
      | .mod mod0 a =>
        rw [packF_imps_mod] at h
        cases hi : packF P shake st f (.imps m rest) vis with
        | none => rw [hi] at h; simp at h
        | some r2 =>
          rw [hi] at h
          simp only [Option.some_bind, Option.some_inj, Prod.mk.injEq] at h
          obtain ⟨r2cs, r2ig, r2vis⟩ := r2
          obtain ⟨hcs, hig, hvis⟩ := h
          subst hcs; subst hvis
          exact hrec _ hi
      | .star mod0 =>
        cases hres0 : P.resolve m mod0 with
        | none =>
          rw [packF_imps_star, hres0] at h
          dsimp only at h
          cases hi : packF P shake st f (.imps m rest) vis with
          | none => rw [hi] at h; simp at h
          | some r2 =>
            rw [hi] at h
            simp only [Option.some_bind, Option.some_inj, Prod.mk.injEq] at h
            obtain ⟨r2cs, r2ig, r2vis⟩ := r2
            obtain ⟨hcs, hig, hvis⟩ := h
            subst hcs; subst hvis
            exact hrec _ hi
        | some m2 =>
          rw [packF_imps_star, hres0] at h
          dsimp only at h
          by_cases hv : m2 ∈ vis
          · rw [if_pos hv] at h
            exact hrec _ h
          · rw [if_neg hv] at h
            cases h1 : packF P shake st f (.one m2) vis with
            | none => rw [h1] at h; simp at h
            | some r1 =>
              rw [h1] at h
              simp only [Option.some_bind] at h
              obtain ⟨r1cs, r1ig, r1vis⟩ := r1
              cases h2 : packF P shake st f (.imps m rest) r1vis with
              | none => rw [h2] at h; simp at h
              | some r2 =>
                rw [h2] at h
                simp only [Option.some_bind, Option.some_inj, Prod.mk.injEq] at h
                obtain ⟨r2cs, r2ig, r2vis⟩ := r2
                obtain ⟨hcs, hig, hvis⟩ := h
                subst hcs; subst hig; subst hvis
                have hva := packF_vis P shake st f _ _ _ _ _ h1 hv
                have hvb := packF_vis P shake st f _ _ _ _ _ h2 trivial
                intro v w hedge hv1 hv2 hw1 hw2 hvw
                by_cases hvr : v ∈ r1vis
                · by_cases hwr : w ∈ r1vis
                  · obtain ⟨l1, l2, heq, hl2, hl1⟩ := ih _ _ _ _ _ h1
                      trivial hv v w hedge hvr hv2 hwr hw2 hvw
                    refine ⟨l1, l2 ++ r2cs, by rw [heq, List.append_assoc],
                      ?_, hl1⟩
                    intro c hc
                    rcases List.mem_append.mp hc with hc | hc
                    · exact hl2 c hc
                    · intro hcc
                      exact ((hvb.2.1 c hc).2) (hcc ▸ hwr)
                  · have := (packF_closed P shake st f _ _ _ _ _ h1
                      trivial).2 v hvr hv2 w hedge
                    exact absurd this hwr
                · by_cases hwr : w ∈ r1vis
                  · refine ⟨r1cs, r2cs, rfl, ?_, ?_⟩
                    · intro c hc hcc
                      exact ((hvb.2.1 c hc).2) (hcc ▸ hwr)
                    · intro c hc hcc
                      exact hvr (hcc ▸ (hva.2.1 c hc).1)
                  · obtain ⟨l1, l2, heq, hl2, hl1⟩ := ih _ _ _ _ _ h2
                      hsubr trivial v w hedge hv1 hvr hw1 hwr hvw
                    refine ⟨r1cs ++ l1, l2, by rw [heq, List.append_assoc],
                      hl2, ?_⟩
                    intro c hc
                    rcases List.mem_append.mp hc with hc | hc
                    · intro hcc
                      exact hvr (hcc ▸ (hva.2.1 c hc).1)
                    · exact hl1 c hc
      | .fromI mod0 y a =>
        cases hres0 : P.resolve m mod0 with
        | none =>
          rw [packF_imps_from, hres0] at h
          dsimp only at h
          cases hi : packF P shake st f (.imps m rest) vis with
          | none => rw [hi] at h; simp at h
          | some r2 =>
            rw [hi] at h
            simp only [Option.some_bind, Option.some_inj, Prod.mk.injEq] at h
            obtain ⟨r2cs, r2ig, r2vis⟩ := r2
            obtain ⟨hcs, hig, hvis⟩ := h
            subst hcs; subst hvis
            exact hrec _ hi
        | some m2 =>
          rw [packF_imps_from, hres0] at h
          dsimp only at h
          by_cases hv : m2 ∈ vis
          · rw [if_pos hv] at h
            exact hrec _ h
          · rw [if_neg hv] at h
            cases h1 : packF P shake st f (.one m2) vis with
            | none => rw [h1] at h; simp at h
            | some r1 =>
              rw [h1] at h
              simp only [Option.some_bind] at h
              obtain ⟨r1cs, r1ig, r1vis⟩ := r1
              cases h2 : packF P shake st f (.imps m rest) r1vis with
              | none => rw [h2] at h; simp at h
              | some r2 =>
                rw [h2] at h
                simp only [Option.some_bind, Option.some_inj, Prod.mk.injEq] at h
                obtain ⟨r2cs, r2ig, r2vis⟩ := r2
                obtain ⟨hcs, hig, hvis⟩ := h
                subst hcs; subst hig; subst hvis
                have hva := packF_vis P shake st f _ _ _ _ _ h1 hv
                have hvb := packF_vis P shake st f _ _ _ _ _ h2 trivial
                intro v w hedge hv1 hv2 hw1 hw2 hvw
                by_cases hvr : v ∈ r1vis
                · by_cases hwr : w ∈ r1vis
                  · obtain ⟨l1, l2, heq, hl2, hl1⟩ := ih _ _ _ _ _ h1
                      trivial hv v w hedge hvr hv2 hwr hw2 hvw
                    refine ⟨l1, l2 ++ r2cs, by rw [heq, List.append_assoc],
                      ?_, hl1⟩
                    intro c hc
                    rcases List.mem_append.mp hc with hc | hc
                    · exact hl2 c hc
                    · intro hcc
                      exact ((hvb.2.1 c hc).2) (hcc ▸ hwr)
                  · have := (packF_closed P shake st f _ _ _ _ _ h1
                      trivial).2 v hvr hv2 w hedge
                    exact absurd this hwr
                · by_cases hwr : w ∈ r1vis
                  · refine ⟨r1cs, r2cs, rfl, ?_, ?_⟩
                    · intro c hc hcc
                      exact ((hvb.2.1 c hc).2) (hcc ▸ hwr)
                    · intro c hc hcc
                      exact hvr (hcc ▸ (hva.2.1 c hc).1)
                  · obtain ⟨l1, l2, heq, hl2, hl1⟩ := ih _ _ _ _ _ h2
                      hsubr trivial v w hedge hv1 hvr hw1 hwr hvw
                    refine ⟨r1cs ++ l1, l2, by rw [heq, List.append_assoc],
                      hl2, ?_⟩
                    intro c hc
                    rcases List.mem_append.mp hc with hc | hc
                    · intro hcc
                      exact hvr (hcc ▸ (hva.2.1 c hc).1)
                    · exact hl1 c hc

/-!
## Within-module chunk order and chunk contents
-/

theorem shakenChunks_pairwise (m : Nat) (M : Module) (req : Finset String) :
    (shakenChunks m M req).Pairwise (fun a b => posLE a.pos b.pos) := by
  unfold shakenChunks
  refine List.Pairwise.map _ ?_ (List.sorted_insertionSort defLE _)
  intro a b hab
  exact hab

theorem ownChunks_pairwise (P : Program) (shake : Bool) (st : PState)
    (isRoot : Bool) (m : Nat) :
    (ownChunks P shake st isRoot m).Pairwise (fun a b => posLE a.pos b.pos) := by
  unfold ownChunks
  split
  · dsimp only
    split
    · exact List.Pairwise.nil
    · exact List.pairwise_singleton _ _
  · dsimp only
    split
    · exact List.Pairwise.nil
    · exact shakenChunks_pairwise _ _ _

theorem ownChunks_shape (P : Program) (shake : Bool) (st : PState)
    (isRoot : Bool) (m : Nat) :
    ∀ c ∈ ownChunks P shake st isRoot m,
      (c.sym = none → c.stmts = rootStmts (P.src c.mod).body) ∧
      (∀ n, c.sym = some n →
        c.stmts = [((P.src c.mod).lookupDef n).getD (Stmt.exprS .const)]) := by
  intro c hc
  unfold ownChunks at hc
  split at hc
  · dsimp only at hc
    split at hc
    · simp at hc
    · rw [List.mem_singleton] at hc
      subst hc
      refine ⟨fun _ => rfl, fun n hn => absurd hn (by simp)⟩
  · dsimp only at hc
    split at hc
    · simp at hc
    · unfold shakenChunks at hc
      obtain ⟨p, hp1, hp2⟩ := List.mem_map.mp hc
      have hp3 : p ∈ ((st.req m).sort (· ≤ ·)).map
          (fun n => (n, ((P.src m).lookupDef n).getD (Stmt.exprS .const))) :=
        (List.perm_insertionSort defLE _).mem_iff.mp hp1
      obtain ⟨n, hn1, hn2⟩ := List.mem_map.mp hp3
      subst hn2
      subst hp2
      refine ⟨fun hnone => absurd hnone (by simp), ?_⟩
      intro n2 hn2
      have : n = n2 := Option.some_inj.mp hn2
      subst this
      rfl

theorem packF_permod (P : Program) (shake : Bool) (st : PState) :
    ∀ (f : Nat) (mode : PMode) (vis : Finset Nat) cs ig vis',
    packF P shake st f mode vis = some (cs, ig, vis') → PModeOK mode vis →
    cs.Pairwise (fun a b => a.mod = b.mod → posLE a.pos b.pos) := by
  intro f
  induction f with
  | zero => intro mode vis cs ig vis' h; simp [packF_zero] at h
  | succ f ih =>
    intro mode vis cs ig vis' h hok
    match mode with
    | .one m =>
      rw [packF_one] at h
      cases hi : packF P shake st f (.imps m (P.src m).imports) (insert m vis) with
      | none => rw [hi] at h; simp at h
      | some r2 =>
        rw [hi] at h
        simp only [Option.some_bind, Option.some_inj, Prod.mk.injEq] at h
        obtain ⟨r2cs, r2ig, r2vis⟩ := r2
        obtain ⟨hcs, hig, hvis⟩ := h
        subst hcs; subst hig; subst hvis
        rw [List.pairwise_append]
        refine ⟨ih _ _ _ _ _ hi trivial,
          List.Pairwise.imp
            (fun {a b} (h2 : posLE a.pos b.pos) (_ : a.mod = b.mod) => h2)
            (ownChunks_pairwise P shake st _ m), ?_⟩
        intro a ha b hb heq
        have hprov := (packF_vis P shake st f _ _ _ _ _ hi trivial).2.1 a ha
        refine absurd ?_ hprov.2
        rw [heq, ownChunks_mod P shake st _ m b hb]
        exact Finset.mem_insert_self m vis
    | .imps m [] =>
      rw [packF_imps_nil] at h
      simp only [Option.some_inj, Prod.mk.injEq] at h
      obtain ⟨hcs, hig, hvis⟩ := h
      subst hcs; subst hig; subst hvis
      exact List.Pairwise.nil
    | .imps m (imp :: rest) =>
      have hrec : ∀ r2ig (h2 : packF P shake st f (.imps m rest) vis =
            some (cs, r2ig, vis')),
          cs.Pairwise (fun a b => a.mod = b.mod → posLE a.pos b.pos) := by
        intro r2ig h2
        exact ih _ _ _ _ _ h2 trivial
      match imp with
      | .mod mod0 a =>
        rw [packF_imps_mod] at h
        cases hi : packF P shake st f (.imps m rest) vis with
        | none => rw [hi] at h; simp at h
        | some r2 =>
          rw [hi] at h
          simp only [Option.some_bind, Option.some_inj, Prod.mk.injEq] at h
          obtain ⟨r2cs, r2ig, r2vis⟩ := r2
          obtain ⟨hcs, hig, hvis⟩ := h
          subst hcs; subst hvis
          exact hrec _ hi
      | .star mod0 =>
        cases hres0 : P.resolve m mod0 with
        | none =>
          rw [packF_imps_star, hres0] at h
          dsimp only at h
          cases hi : packF P shake st f (.imps m rest) vis with
          | none => rw [hi] at h; simp at h
          | some r2 =>
            rw [hi] at h
            simp only [Option.some_bind, Option.some_inj, Prod.mk.injEq] at h
            obtain ⟨r2cs, r2ig, r2vis⟩ := r2
            obtain ⟨hcs, hig, hvis⟩ := h
            subst hcs; subst hvis
            exact hrec _ hi
        | some m2 =>
          rw [packF_imps_star, hres0] at h
          dsimp only at h
          by_cases hv : m2 ∈ vis
          · rw [if_pos hv] at h
            exact hrec _ h
          · rw [if_neg hv] at h
            cases h1 : packF P shake st f (.one m2) vis with
            | none => rw [h1] at h; simp at h
            | some r1 =>
              rw [h1] at h
              simp only [Option.some_bind] at h
              obtain ⟨r1cs, r1ig, r1vis⟩ := r1
              cases h2 : packF P shake st f (.imps m rest) r1vis with
              | none => rw [h2] at h; simp at h
              | some r2 =>
                rw [h2] at h
                simp only [Option.some_bind, Option.some_inj, Prod.mk.injEq] at h
                obtain ⟨r2cs, r2ig, r2vis⟩ := r2
                obtain ⟨hcs, hig, hvis⟩ := h
                subst hcs; subst hig; subst hvis
                rw [List.pairwise_append]
                refine ⟨ih _ _ _ _ _ h1 hv, ih _ _ _ _ _ h2 trivial, ?_⟩
                intro a ha b hb heq
                have hpa := (packF_vis P shake st f _ _ _ _ _ h1 hv).2.1 a ha
                have hpb := (packF_vis P shake st f _ _ _ _ _ h2 trivial).2.1 b hb
                refine absurd ?_ hpb.2
                rw [← heq]
                exact hpa.1
      | .fromI mod0 y a =>
        cases hres0 : P.resolve m mod0 with
        | none =>
          rw [packF_imps_from, hres0] at h
          dsimp only at h
          cases hi : packF P shake st f (.imps m rest) vis with
          | none => rw [hi] at h; simp at h
          | some r2 =>
            rw [hi] at h
            simp only [Option.some_bind, Option.some_inj, Prod.mk.injEq] at h
            obtain ⟨r2cs, r2ig, r2vis⟩ := r2
            obtain ⟨hcs, hig, hvis⟩ := h
            subst hcs; subst hvis
            exact hrec _ hi
        | some m2 =>
          rw [packF_imps_from, hres0] at h
          dsimp only at h
          by_cases hv : m2 ∈ vis
          · rw [if_pos hv] at h
            exact hrec _ h
          · rw [if_neg hv] at h
            cases h1 : packF P shake st f (.one m2) vis with
            | none => rw [h1] at h; simp at h
            | some r1 =>
              rw [h1] at h
              simp only [Option.some_bind] at h
              obtain ⟨r1cs, r1ig, r1vis⟩ := r1
              cases h2 : packF P shake st f (.imps m rest) r1vis with
              | none => rw [h2] at h; simp at h
              | some r2 =>
                rw [h2] at h
                simp only [Option.some_bind, Option.some_inj, Prod.mk.injEq] at h
                obtain ⟨r2cs, r2ig, r2vis⟩ := r2
                obtain ⟨hcs, hig, hvis⟩ := h
                subst hcs; subst hig; subst hvis
                rw [List.pairwise_append]
                refine ⟨ih _ _ _ _ _ h1 hv, ih _ _ _ _ _ h2 trivial, ?_⟩
                intro a ha b hb heq
                have hpa := (packF_vis P shake st f _ _ _ _ _ h1 hv).2.1 a ha
                have hpb := (packF_vis P shake st f _ _ _ _ _ h2 trivial).2.1 b hb
                refine absurd ?_ hpb.2
                rw [← heq]
                exact hpa.1

theorem packF_chunkShape (P : Program) (shake : Bool) (st : PState) :
    ∀ (f : Nat) (mode : PMode) (vis : Finset Nat) cs ig vis',
    packF P shake st f mode vis = some (cs, ig, vis') →
    ∀ c ∈ cs,
      (c.sym = none → c.stmts = rootStmts (P.src c.mod).body) ∧
      (∀ n, c.sym = some n →
        c.stmts = [((P.src c.mod).lookupDef n).getD (Stmt.exprS .const)]) := by
  intro f
  induction f with
  | zero => intro mode vis cs ig vis' h; simp [packF_zero] at h
  | succ f ih =>
    intro mode vis cs ig vis' h
    match mode with
    | .one m =>
      rw [packF_one] at h
      cases hi : packF P shake st f (.imps m (P.src m).imports) (insert m vis) with
      | none => rw [hi] at h; simp at h
      | some r2 =>
        rw [hi] at h
        simp only [Option.some_bind, Option.some_inj, Prod.mk.injEq] at h
        obtain ⟨r2cs, r2ig, r2vis⟩ := r2
        obtain ⟨hcs, hig, hvis⟩ := h
        subst hcs; subst hig; subst hvis
        intro c hc
        rcases List.mem_append.mp hc with hc | hc
        · exact ih _ _ _ _ _ hi c hc
        · exact ownChunks_shape P shake st _ m c hc
    | .imps m [] =>
      rw [packF_imps_nil] at h
      simp only [Option.some_inj, Prod.mk.injEq] at h
      obtain ⟨hcs, hig, hvis⟩ := h
      subst hcs; subst hig; subst hvis
      intro c hc
      exact absurd hc (List.not_mem_nil c)
    | .imps m (imp :: rest) =>
      have hrec : ∀ r2ig (h2 : packF P shake st f (.imps m rest) vis =
            some (cs, r2ig, vis')),
          ∀ c ∈ cs,
            (c.sym = none → c.stmts = rootStmts (P.src c.mod).body) ∧
            (∀ n, c.sym = some n →
              c.stmts = [((P.src c.mod).lookupDef n).getD (Stmt.exprS .const)]) := by
        intro r2ig h2 c hc
        exact ih _ _ _ _ _ h2 c hc
      match imp with
      | .mod mod0 a =>
        rw [packF_imps_mod] at h
        cases hi : packF P shake st f (.imps m rest) vis with
        | none => rw [hi] at h; simp at h
        | some r2 =>
          rw [hi] at h
          simp only [Option.some_bind, Option.some_inj, Prod.mk.injEq] at h
          obtain ⟨r2cs, r2ig, r2vis⟩ := r2
          obtain ⟨hcs, hig, hvis⟩ := h
          subst hcs; subst hvis
          exact hrec _ hi
      | .star mod0 =>
        cases hres0 : P.resolve m mod0 with
        | none =>
          rw [packF_imps_star, hres0] at h
          dsimp only at h
          cases hi : packF P shake st f (.imps m rest) vis with
          | none => rw [hi] at h; simp at h
          | some r2 =>
            rw [hi] at h
            simp only [Option.some_bind, Option.some_inj, Prod.mk.injEq] at h
            obtain ⟨r2cs, r2ig, r2vis⟩ := r2
            obtain ⟨hcs, hig, hvis⟩ := h
            subst hcs; subst hvis
            exact hrec _ hi
        | some m2 =>
          rw [packF_imps_star, hres0] at h
          dsimp only at h
          by_cases hv : m2 ∈ vis
          · rw [if_pos hv] at h
            exact hrec _ h
          · rw [if_neg hv] at h
            cases h1 : packF P shake st f (.one m2) vis with
            | none => rw [h1] at h; simp at h
            | some r1 =>
              rw [h1] at h
              simp only [Option.some_bind] at h
              obtain ⟨r1cs, r1ig, r1vis⟩ := r1
              cases h2 : packF P shake st f (.imps m rest) r1vis with
              | none => rw [h2] at h; simp at h
              | some r2 =>
                rw [h2] at h
                simp only [Option.some_bind, Option.some_inj, Prod.mk.injEq] at h
                obtain ⟨r2cs, r2ig, r2vis⟩ := r2
                obtain ⟨hcs, hig, hvis⟩ := h
                subst hcs; subst hig; subst hvis
                intro c hc
                rcases List.mem_append.mp hc with hc | hc
                · exact ih _ _ _ _ _ h1 c hc
                · exact ih _ _ _ _ _ h2 c hc
      | .fromI mod0 y a =>
        cases hres0 : P.resolve m mod0 with
        | none =>
          rw [packF_imps_from, hres0] at h
          dsimp only at h
          cases hi : packF P shake st f (.imps m rest) vis with
          | none => rw [hi] at h; simp at h
          | some r2 =>
            rw [hi] at h
            simp only [Option.some_bind, Option.some_inj, Prod.mk.injEq] at h
            obtain ⟨r2cs, r2ig, r2vis⟩ := r2
            obtain ⟨hcs, hig, hvis⟩ := h
            subst hcs; subst hvis
            exact hrec _ hi
        | some m2 =>
          rw [packF_imps_from, hres0] at h
          dsimp only at h
          by_cases hv : m2 ∈ vis
          · rw [if_pos hv] at h
            exact hrec _ h
          · rw [if_neg hv] at h
            cases h1 : packF P shake st f (.one m2) vis with
            | none => rw [h1] at h; simp at h
            | some r1 =>
              rw [h1] at h
              simp only [Option.some_bind] at h
              obtain ⟨r1cs, r1ig, r1vis⟩ := r1
              cases h2 : packF P shake st f (.imps m rest) r1vis with
              | none => rw [h2] at h; simp at h
              | some r2 =>
                rw [h2] at h
                simp only [Option.some_bind, Option.some_inj, Prod.mk.injEq] at h
                obtain ⟨r2cs, r2ig, r2vis⟩ := r2
                obtain ⟨hcs, hig, hvis⟩ := h
                subst hcs; subst hig; subst hvis
                intro c hc
                rcases List.mem_append.mp hc with hc | hc
                · exact ih _ _ _ _ _ h1 c hc
                · exact ih _ _ _ _ _ h2 c hc

/-!
## Helper lemmas for the claim theorems
-/

theorem packRun_elim (P : Program) (shake : Bool) (f1 f2 : Nat)
    (cs : List Chunk) (ig : List Imp)
    (h : packRun P shake f1 f2 = some (cs, ig)) :
    ∃ st vis', (if shake then propagate P f1 else some (initState P)) = some st ∧
      packF P shake st f2 (.one P.entry) ∅ = some (cs, ig, vis') := by
  rcases hsh : shake with _ | _
  · subst hsh
    rw [show packRun P false f1 f2 =
      (packF P false (initState P) f2 (.one P.entry) ∅).bind
        (fun r => some (r.1, r.2.1)) from rfl] at h
    cases hp : packF P false (initState P) f2 (.one P.entry) ∅ with
    | none => rw [hp] at h; simp at h
    | some r =>
      rw [hp] at h
      obtain ⟨rcs, rig, rvis⟩ := r
      simp only [Option.some_bind, Option.some_inj, Prod.mk.injEq] at h
      obtain ⟨h1, h2⟩ := h
      subst h1; subst h2
      exact ⟨initState P, rvis, by simp, hp⟩
  · subst hsh
    rw [show packRun P true f1 f2 =
      (propagate P f1).bind (fun st2 =>
        (packF P true st2 f2 (.one P.entry) ∅).bind
          (fun r => some (r.1, r.2.1))) from rfl] at h
    cases hst : propagate P f1 with
    | none => rw [hst] at h; simp at h
    | some st =>
      rw [hst] at h
      simp only [Option.some_bind] at h
      cases hp : packF P true st f2 (.one P.entry) ∅ with
      | none => rw [hp] at h; simp at h
      | some r =>
        rw [hp] at h
        obtain ⟨rcs, rig, rvis⟩ := r
        simp only [Option.some_bind, Option.some_inj, Prod.mk.injEq] at h
        obtain ⟨h1, h2⟩ := h
        subst h1; subst h2
        exact ⟨st, rvis, by simpa using hst, hp⟩

theorem reaches_mem_vis (P : Program) (shake : Bool) (st : PState) (f : Nat)
    (cs : List Chunk) (ig : List Imp) (vis' : Finset Nat)
    (h : packF P shake st f (.one P.entry) ∅ = some (cs, ig, vis')) :
    ∀ v, Reaches P v → v ∈ vis' := by
  intro v hv
  induction hv with
  | entry =>
    exact (packF_vis P shake st f _ _ _ _ _ h (Finset.not_mem_empty _)).2.2 P.entry rfl
  | step a b ha hedge iha =>
    exact (packF_closed P shake st f _ _ _ _ _ h trivial).2 a iha
      (Finset.not_mem_empty a) b hedge

theorem reaches_iff_rtg (P : Program) (v : Nat) :
    Reaches P v ↔ Relation.ReflTransGen (Edge P) P.entry v := by
  constructor
  · intro h
    induction h with
    | entry => exact Relation.ReflTransGen.refl
    | step a b ha he ih => exact Relation.ReflTransGen.tail ih he
  · intro h
    induction h with
    | refl => exact Reaches.entry
    | tail h1 h2 ih => exact Reaches.step _ _ ih h2

theorem mem_defNames_lookup (M : Module) (n : String) (hn : n ∈ M.defNames) :
    (M.lookupDef n).isSome = true := by
  unfold Module.defNames at hn
  rw [List.mem_toFinset] at hn
  obtain ⟨p, hp, hpn⟩ := List.mem_map.mp hn
  unfold Module.lookupDef lookupLast
  rcases hfind : M.defines.reverse.find? (fun q => q.1 = n) with _ | q
  · have hnone := List.find?_eq_none.mp hfind p (List.mem_reverse.mpr hp)
    exact absurd hpn (by simpa using hnone)
  · rw [hfind]
    rfl

theorem Pc_wf : Pc.WF := by
  constructor
  · decide
  · intro m s m2 h
    unfold Pc at h
    dsimp only at h
    split_ifs at h
    all_goals first
      | (rw [← Option.some_inj.mp h]; decide)
      | exact absurd h (by simp)

theorem Pc_acyclic : Acyclic Pc := by
  have hchar : ∀ a b, Edge Pc a b → a < b := by
    rintro a b ⟨i, hi, hnp, hres⟩
    unfold Pc at hres
    dsimp only at hres
    split_ifs at hres with h1 h2
    all_goals first
      | (have hb := Option.some_inj.mp hres; omega)
      | exact absurd hres (by simp)
  have hmono : ∀ a b, Relation.ReflTransGen (Edge Pc) a b → a ≤ b := by
    intro a b h
    induction h with
    | refl => exact le_refl _
    | tail h1 h2 ih => exact le_trans ih (le_of_lt (hchar _ _ h2))
  intro v w hedge hrtg
  have h1 := hchar v w hedge
  have h2 := hmono w v hrtg
  omega

theorem Pcyc_wf : Pcyc.WF := by
  constructor
  · decide
  · intro m s m2 h
    unfold Pcyc at h
    dsimp only at h
    split_ifs at h
    all_goals first
      | (rw [← Option.some_inj.mp h]; decide)
      | exact absurd h (by simp)

theorem Pcyc_cyclic : Cyclic Pcyc := by
  refine ⟨0, 1, ⟨.star "b", ?_, ?_, rfl⟩,
    Relation.ReflTransGen.single ⟨.star "a", ?_, ?_, rfl⟩⟩
  · show Imp.star "b" ∈ [Imp.star "b"]
    exact List.mem_singleton.mpr rfl
  · intro mod a
    simp
  · show Imp.star "a" ∈ [Imp.star "a"]
    exact List.mem_singleton.mpr rfl
  · intro mod a
    simp

theorem Palias_wf : Palias.WF := by
  constructor
  · decide
  · intro m s m2 h
    exact Option.noConfusion h

/-!
## Claim theorems
-/

/-- C1: dead-code elimination.  For every well-formed program, after
requirement propagation seeded by the entry module's unresolved globals,
a top-level symbol of a non-entry module that is on the transitive
reference closure (`RequiredSym`) appears in the bundle exactly once, and
a symbol not on that closure is absent from the bundle. -/
theorem C1_dead_code_elimination (P : Program) (hWF : P.WF) :
    ∃ f1 f2 st cs ig,
      propagate P f1 = some st ∧
      packRun P true f1 f2 = some (cs, ig) ∧
      ∀ v n, v ≠ P.entry →
        (RequiredSym P v n → symCount cs v n = 1) ∧
        (¬ RequiredSym P v n → symCount cs v n = 0) := by
  obtain ⟨f1, st, h1⟩ := propagate_enough P hWF
  obtain ⟨f2, r, h2⟩ := (packF_enough P hWF true st ((P.mods.toFinset \ ∅).card)).1
      P.entry ∅ hWF.entry_mem (Finset.not_mem_empty _) (Nat.le_refl _)
  obtain ⟨cs, ig, vis'⟩ := r
  have hrun : packRun P true f1 f2 = some (cs, ig) := by
    rw [show packRun P true f1 f2 =
      (propagate P f1).bind (fun st2 =>
        (packF P true st2 f2 (.one P.entry) ∅).bind
          (fun r => some (r.1, r.2.1))) from rfl, h1]
    simp only [Option.some_bind]
    rw [h2]
    rfl
  obtain ⟨hsym, -⟩ := packF_counts P true st f2 _ _ _ _ _ h2
    (Finset.not_mem_empty _) trivial
  refine ⟨f1, f2, st, cs, ig, h1, hrun, ?_⟩
  intro v n hve
  constructor
  · intro hreq
    rw [hsym v n, if_pos]
    exact ⟨rfl, reaches_mem_vis P true st f2 _ _ _ h2 v (clo_reaches P .rq v n hreq),
      Finset.not_mem_empty v, (propagate_req_iff P f1 st h1 v n).mpr hreq,
      (prootOK_one ∅ v P.entry).mpr (Or.inr hve)⟩
  · intro hreq
    rw [hsym v n, if_neg]
    rintro ⟨-, -, -, hst, -⟩
    exact hreq ((propagate_req_iff P f1 st h1 v n).mp hst)

/-- Witness for C1 at the concrete three-module program. -/
theorem C1_witness :
    ∃ f1 f2 st cs ig,
      propagate Pc f1 = some st ∧
      packRun Pc true f1 f2 = some (cs, ig) ∧
      ∀ v n, v ≠ Pc.entry →
        (RequiredSym Pc v n → symCount cs v n = 1) ∧
        (¬ RequiredSym Pc v n → symCount cs v n = 0) :=
  C1_dead_code_elimination Pc Pc_wf

/-- C2: cycle termination.  For every well-formed program whose module
graph is cyclic, `pack` still terminates (enough fuel exists for the
memoized recursions), and each module contributes its chunks exactly
once: a reached module with a nonempty whole-module body emits exactly
one whole-module chunk (whenever whole-module emission applies, i.e.
shaking is off or it is the entry), a reached non-entry module emits
exactly one chunk per required symbol when shaking is on, and a module
already in the visited set contributes no further chunks on revisits —
the counts are exactly `1`, never `0` or `2`. -/
theorem C2_cycle_termination (P : Program) (hWF : P.WF) (hcyc : Cyclic P)
    (shake : Bool) :
    ∃ f1 f2 st cs ig,
      (if shake then propagate P f1 else some (initState P)) = some st ∧
      packRun P shake f1 f2 = some (cs, ig) ∧
      ∀ v,
        (Reaches P v ∧ (rootStmts (P.src v).body).isEmpty = false ∧
            (shake = false ∨ v = P.entry) → wholeCount cs v = 1) ∧
        (¬ (Reaches P v ∧ (rootStmts (P.src v).body).isEmpty = false ∧
            (shake = false ∨ v = P.entry)) → wholeCount cs v = 0) ∧
        ∀ n,
          (shake = true ∧ Reaches P v ∧ v ≠ P.entry ∧ n ∈ st.req v →
            symCount cs v n = 1) ∧
          (¬ (shake = true ∧ Reaches P v ∧ v ≠ P.entry ∧ n ∈ st.req v) →
            symCount cs v n = 0) := by
  obtain ⟨f1, f2, r, hr⟩ := packRun_enough P hWF shake
  obtain ⟨cs, ig⟩ := r
  obtain ⟨st, vis', hst, hp⟩ := packRun_elim P shake f1 f2 cs ig hr
  obtain ⟨hsym, hwhole⟩ := packF_counts P shake st f2 _ _ _ _ _ hp
    (Finset.not_mem_empty _) trivial
  have hviseq : ∀ v, v ∈ vis' ↔ Reaches P v := by
    intro v
    constructor
    · intro hv
      exact (reaches_iff_rtg P v).mpr
        (packF_reach P shake st f2 _ _ _ _ _ hp trivial v hv
          (Finset.not_mem_empty v))
    · intro hrv
      exact reaches_mem_vis P shake st f2 _ _ _ hp v hrv
  refine ⟨f1, f2, st, cs, ig, hst, hr, ?_⟩
  intro v
  refine ⟨?_, ?_, ?_⟩
  · rintro ⟨h1, h3, h4⟩
    rw [hwhole v, if_pos]
    refine ⟨(hviseq v).mpr h1, Finset.not_mem_empty v, h3,
      (pwholeOK_one shake ∅ v P.entry).mpr ?_⟩
    rcases h4 with h | h
    · exact Or.inl h
    · exact Or.inr ⟨rfl, h⟩
  · intro hnc
    rw [hwhole v, if_neg]
    rintro ⟨h1, -, h3, h4⟩
    refine hnc ⟨(hviseq v).mp h1, h3, ?_⟩
    rcases (pwholeOK_one shake ∅ v P.entry).mp h4 with h | ⟨-, h⟩
    · exact Or.inl h
    · exact Or.inr h
  · intro n
    constructor
    · rintro ⟨h1, h2, h3, h4⟩
      rw [hsym v n, if_pos]
      exact ⟨h1, (hviseq v).mpr h2, Finset.not_mem_empty v, h4,
        (prootOK_one ∅ v P.entry).mpr (Or.inr h3)⟩
    · intro hnc
      rw [hsym v n, if_neg]
      rintro ⟨h1, h2, -, h4, h5⟩
      refine hnc ⟨h1, (hviseq v).mp h2, ?_, h4⟩
      rcases (prootOK_one ∅ v P.entry).mp h5 with h | h
      · exact absurd rfl h
      · exact h

/-- Witness for C2 at the concrete two-module cyclic program. -/
theorem C2_witness :
    ∃ f1 f2 st cs ig,
      (if false then propagate Pcyc f1 else some (initState Pcyc)) = some st ∧
      packRun Pcyc false f1 f2 = some (cs, ig) ∧
      ∀ v,
        (Reaches Pcyc v ∧ (rootStmts (Pcyc.src v).body).isEmpty = false ∧
            (false = false ∨ v = Pcyc.entry) → wholeCount cs v = 1) ∧
        (¬ (Reaches Pcyc v ∧ (rootStmts (Pcyc.src v).body).isEmpty = false ∧
            (false = false ∨ v = Pcyc.entry)) → wholeCount cs v = 0) ∧
        ∀ n,
          (false = true ∧ Reaches Pcyc v ∧ v ≠ Pcyc.entry ∧ n ∈ st.req v →
            symCount cs v n = 1) ∧
          (¬ (false = true ∧ Reaches Pcyc v ∧ v ≠ Pcyc.entry ∧ n ∈ st.req v) →
            symCount cs v n = 0) :=
  C2_cycle_termination Pcyc Pcyc_wf Pcyc_cyclic false

/-- C3 (amended): on an acyclic module graph the chunks of a resolvable
imported module precede every chunk of the importing module, and any two
chunks of the same module are ordered by their `(lineno, col_offset)`
position key.  (On cyclic graphs the cross-module half fails; see the
counterexample.) -/
theorem C3_order_invariant (P : Program) (hWF : P.WF) (hac : Acyclic P)
    (shake : Bool) :
    ∃ f1 f2 cs ig, packRun P shake f1 f2 = some (cs, ig) ∧
      (∀ v w, Edge P v w → precede cs w v) ∧
      cs.Pairwise (fun a b => a.mod = b.mod → posLE a.pos b.pos) := by
  obtain ⟨f1, f2, r, hr⟩ := packRun_enough P hWF shake
  obtain ⟨cs, ig⟩ := r
  obtain ⟨st, vis', hst, hp⟩ := packRun_elim P shake f1 f2 cs ig hr
  refine ⟨f1, f2, cs, ig, hr, ?_,
    packF_permod P shake st f2 _ _ _ _ _ hp (Finset.not_mem_empty _)⟩
  intro v w hedge
  have hvw : v ≠ w := by
    intro he
    refine hac v w hedge ?_
    rw [he]
  by_cases hv2 : v ∈ vis'
  · have hw2 : w ∈ vis' := (packF_closed P shake st f2 _ _ _ _ _ hp trivial).2
      v hv2 (Finset.not_mem_empty v) w hedge
    exact precedeS_precede cs w v (packF_order P shake st hac f2 _ _ _ _ _ hp
      trivial (Finset.not_mem_empty _) v w hedge hv2 (Finset.not_mem_empty v)
      hw2 (Finset.not_mem_empty w) hvw)
  · refine precedeS_precede cs w v ⟨cs, [], (List.append_nil cs).symm, ?_, ?_⟩
    · intro c hc
      exact absurd hc (List.not_mem_nil c)
    · intro c hc hcc
      exact hv2 (hcc ▸
        ((packF_vis P shake st f2 _ _ _ _ _ hp (Finset.not_mem_empty _)).2.1 c hc).1)

/-- Witness for C3 at the concrete acyclic three-module program. -/
theorem C3_witness :
    ∃ f1 f2 cs ig, packRun Pc true f1 f2 = some (cs, ig) ∧
      (∀ v w, Edge Pc v w → precede cs w v) ∧
      cs.Pairwise (fun a b => a.mod = b.mod → posLE a.pos b.pos) :=
  C3_order_invariant Pc Pc_wf Pc_acyclic true

/-- Counterexample for C3 as stated: in the two-module import cycle with
tree shaking off, module `1` imports module `0` (`Edge Pcyc 1 0`), yet the
bundle places module `0`'s chunk after module `1`'s, so the chunks of the
imported module do not precede the chunks of the importer. -/
theorem C3_counterexample :
    packRun Pcyc false 5 5 =
      some ([⟨1, none, (0, 0), [.exprS .const]⟩,
             ⟨0, none, (0, 0), [.exprS .const]⟩], []) ∧
    Edge Pcyc 1 0 ∧
    ¬ precede [⟨1, none, (0, 0), [.exprS .const]⟩,
               ⟨0, none, (0, 0), [.exprS .const]⟩] 0 1 := by
  refine ⟨rfl, ⟨.star "a", ?_, ?_, rfl⟩, ?_⟩
  · show Imp.star "a" ∈ [Imp.star "a"]
    exact List.mem_singleton.mpr rfl
  · intro mod a
    simp
  · intro hp
    have h10 := hp 1 0 (by decide) (by decide) rfl rfl
    omega

/-- C8 (amended): for any module that triggers whole-module emission —
the entry module under either shaking mode, or *every* reached module
when tree shaking is disabled — the bundle contains a whole-module chunk
holding that module's entire statement list with imports elided and each
aliased from-import `from X import Y as Z` rewritten *unconditionally* as
the assignment `Z = Y` (`rootStmts`), whether or not the statement list
refers to `Z`. -/
theorem C8_whole_module (P : Program) (hWF : P.WF) (shake : Bool) :
    ∃ f1 f2 cs ig, packRun P shake f1 f2 = some (cs, ig) ∧
      ∀ v, (v = P.entry ∨ shake = false) → Reaches P v →
        (rootStmts (P.src v).body).isEmpty = false →
        ∃ c ∈ cs, c.mod = v ∧ c.sym = none ∧
          c.stmts = rootStmts (P.src v).body := by
  obtain ⟨f1, f2, r, hr⟩ := packRun_enough P hWF shake
  obtain ⟨cs, ig⟩ := r
  obtain ⟨st, vis', hst, hp⟩ := packRun_elim P shake f1 f2 cs ig hr
  obtain ⟨-, hwhole⟩ := packF_counts P shake st f2 _ _ _ _ _ hp
    (Finset.not_mem_empty _) trivial
  refine ⟨f1, f2, cs, ig, hr, ?_⟩
  intro v hv hreach hne
  have h1 : wholeCount cs v = 1 := by
    rw [hwhole v, if_pos]
    refine ⟨reaches_mem_vis P shake st f2 _ _ _ hp v hreach,
      Finset.not_mem_empty _, hne,
      (pwholeOK_one shake ∅ v P.entry).mpr ?_⟩
    rcases hv with hv | hv
    · exact Or.inr ⟨rfl, hv⟩
    · exact Or.inl hv
  have h2 : 0 < wholeCount cs v := by omega
  unfold wholeCount at h2
  obtain ⟨c, hc, hpc⟩ := List.countP_pos_iff.mp h2
  have hpc2 : c.mod = v ∧ c.sym = none := of_decide_eq_true hpc
  refine ⟨c, hc, hpc2.1, hpc2.2, ?_⟩
  have hsh := (packF_chunkShape P shake st f2 _ _ _ _ _ hp c hc).1 hpc2.2
  rw [hsh, hpc2.1]

/-- Witness for C8 at the concrete three-module program with shaking
disabled, so both the entry trigger and the shaking-disabled trigger for
non-entry modules are exercised. -/
theorem C8_witness :
    ∃ f1 f2 cs ig, packRun Pc false f1 f2 = some (cs, ig) ∧
      ∀ v, (v = Pc.entry ∨ false = false) → Reaches Pc v →
        (rootStmts (Pc.src v).body).isEmpty = false →
        ∃ c ∈ cs, c.mod = v ∧ c.sym = none ∧
          c.stmts = rootStmts (Pc.src v).body :=
  C8_whole_module Pc Pc_wf false

/-- Counterexample for C8 as stated: in `Malias` no statement refers to
the alias `z`, yet the bundled whole-module chunk still contains the
rewritten alias binding `z = y` — the rewrite is unconditional, not
guarded by "the statement list refers to `Z`". -/
theorem C8_counterexample :
    "z" ∉ stmtsRefs Malias.body ∧
    packRun Palias false 3 3 =
      some ([⟨0, none, (0, 0), [.asgn "z" (.nm "y"), .exprS (.nm "a")]⟩],
        [.fromI "x" "y" "z"]) := by
  constructor
  · simp [Malias, stmtsRefs, Expr.refs]
  · rfl

/-- C10: the implicit safety invariant of the unguarded
`code.global_defines[req]` lookup — every name in a module's requirement
set after propagation is a key of that module's `global_defines`, so the
lookup never fails on reachable states. -/
theorem C10_requires_defined (P : Program) (f : Nat) (st : PState)
    (h : propagate P f = some st) (m : Nat) (n : String) (hn : n ∈ st.req m) :
    ((P.src m).lookupDef n).isSome = true := by
  have hwf : ReqWF P st := engine_reqwf P f (initState P) _ st h (initState_reqwf P)
  exact mem_defNames_lookup (P.src m) n (hwf m n hn)

/-- Witness for C10 at the concrete three-module program. -/
theorem C10_witness :
    ∃ st, propagate Pc 10 = some st ∧ ("g" ∈ st.req 2) ∧
      ((Pc.src 2).lookupDef "g").isSome = true :=
  ⟨_, rfl, by decide, C10_requires_defined Pc 10 _ rfl 2 "g" (by decide)⟩

/-!
## Reader lemmas
-/

theorem visitStmts_zero (l : List Stmt) (st : RState) :
    visitStmts 0 l st = none := rfl

theorem visitStmts_nil (f : Nat) (st : RState) :
    visitStmts (f + 1) [] st = some st := rfl

theorem visitStmts_imprt (f : Nat) (names : List (String × Option String))
    (r : List Stmt) (st : RState) :
    visitStmts (f + 1) (.imprt names :: r) st =
      visitStmts f r
        { st with imports := st.imports ++ groupAddStmt (.imprt names) } := rfl

theorem visitStmts_impFrom (f : Nat) (lvl : Nat) (m : String)
    (names : List (String × Option String)) (r : List Stmt) (st : RState) :
    visitStmts (f + 1) (.impFrom lvl m names :: r) st =
      visitStmts f r
        { st with imports := st.imports ++ groupAddStmt (.impFrom lvl m names) } := rfl

theorem visitStmts_asgn (f : Nat) (z : String) (e : Expr) (r : List Stmt)
    (st : RState) :
    visitStmts (f + 1) (.asgn z e :: r) st =
      visitStmts f r (visitExpr (addStore st z) e) := rfl

theorem visitStmts_exprS (f : Nat) (e : Expr) (r : List Stmt) (st : RState) :
    visitStmts (f + 1) (.exprS e :: r) st =
      visitStmts f r (visitExpr st e) := rfl

theorem visitStmts_fdef (f : Nat) (name : String) (args : List String)
    (body : List Stmt) (ln c : Nat) (r : List Stmt) (st : RState) :
    visitStmts (f + 1) (.fdef name args body ln c :: r) st =
      (visitStmts f body (scopePush st name args body ln c)).bind
        (fun st4 => visitStmts f r (scopePop st4)) := rfl

theorem addStore_dep (st : RState) (name : String) :
    (addStore st name).dep = st.dep := by
  unfold addStore
  split <;> rfl

theorem addDefine_dep (st : RState) (name : String) (s : Stmt) :
    (addDefine st name s).dep = st.dep := by
  unfold addDefine
  split <;> rfl

theorem scopePush_dep (st : RState) (name : String) (args : List String)
    (body : List Stmt) (ln c : Nat) :
    (scopePush st name args body ln c).dep = st.dep := by
  unfold scopePush
  dsimp only
  split
  · rw [addDefine_dep]
  · rw [addDefine_dep]

theorem scopePop_dep (st : RState) : (scopePop st).dep = st.dep := by
  unfold scopePop
  dsimp only
  split <;> rfl

theorem addNameRead_dep_self (S name : String) (st : RState)
    (h : S ∉ st.dep S) : S ∉ (addNameRead st name).dep S := by
  unfold addNameRead
  split_ifs with h1 h2
  · exact h
  · exact h
  all_goals
    show S ∉ (if S = st.curr then insert name (st.dep S) else st.dep S)
  all_goals split_ifs with hc
  · intro hmem
    rcases Finset.mem_insert.mp hmem with heq | hmem2
    · refine h1 ?_
      rw [← heq]
      exact hc
    · exact h hmem2
  · exact h
  · intro hmem
    rcases Finset.mem_insert.mp hmem with heq | hmem2
    · refine h1 ?_
      rw [← heq]
      exact hc
    · exact h hmem2
  · exact h

theorem visitExpr_dep_self (S : String) :
    ∀ (e : Expr) (st : RState), S ∉ st.dep S → S ∉ (visitExpr st e).dep S := by
  intro e
  induction e with
  | const => intro st h; exact h
  | nm n => intro st h; exact addNameRead_dep_self S n st h
  | bin a b iha ihb => intro st h; exact ihb _ (iha _ h)

theorem visitStmts_dep_self (S : String) :
    ∀ (f : Nat) (l : List Stmt) (st st2 : RState),
    visitStmts f l st = some st2 → S ∉ st.dep S → S ∉ st2.dep S := by
  intro f
  induction f with
  | zero => intro l st st2 h; rw [visitStmts_zero] at h; exact absurd h (by simp)
  | succ f ih =>
    intro l st st2 h hd
    match l with
    | [] =>
      rw [visitStmts_nil] at h
      rw [← Option.some_inj.mp h]
      exact hd
    | .imprt names :: r =>
      rw [visitStmts_imprt] at h
      exact ih _ _ _ h hd
    | .impFrom lvl m names :: r =>
      rw [visitStmts_impFrom] at h
      exact ih _ _ _ h hd
    | .asgn z e :: r =>
      rw [visitStmts_asgn] at h
      refine ih _ _ _ h (visitExpr_dep_self S e _ ?_)
      rw [show (addStore st z).dep = st.dep from addStore_dep st z]
      exact hd
    | .exprS e :: r =>
      rw [visitStmts_exprS] at h
      exact ih _ _ _ h (visitExpr_dep_self S e _ hd)
    | .fdef name args body ln c :: r =>
      rw [visitStmts_fdef] at h
      cases h4 : visitStmts f body (scopePush st name args body ln c) with
      | none => rw [h4] at h; exact absurd h (by simp)
      | some st4 =>
        rw [h4] at h
        simp only [Option.some_bind] at h
        have hd4 : S ∉ st4.dep S := by
          refine ih _ _ _ h4 ?_
          rw [scopePush_dep]
          exact hd
        refine ih _ _ _ h ?_
        rw [scopePop_dep]
        exact hd4

theorem addStore_imports (st : RState) (name : String) :
    (addStore st name).imports = st.imports := by
  unfold addStore
  split <;> rfl

theorem scopePush_imports (st : RState) (name : String) (args : List String)
    (body : List Stmt) (ln c : Nat) :
    (scopePush st name args body ln c).imports = st.imports := by
  unfold scopePush addDefine
  dsimp only
  cases st.scopes <;> dsimp only <;> split <;> rfl

theorem scopePop_imports (st : RState) : (scopePop st).imports = st.imports := by
  unfold scopePop
  dsimp only
  split <;> rfl

theorem addNameRead_imports (st : RState) (name : String) :
    (addNameRead st name).imports = st.imports := by
  unfold addNameRead
  split_ifs <;> rfl

theorem visitExpr_imports (e : Expr) :
    ∀ (st : RState), (visitExpr st e).imports = st.imports := by
  induction e with
  | const => intro st; rfl
  | nm n => intro st; exact addNameRead_imports st n
  | bin a b iha ihb =>
    intro st
    show (visitExpr (visitExpr st a) b).imports = st.imports
    rw [ihb, iha]

theorem visitStmts_imports (f : Nat) :
    ∀ (l : List Stmt) (st st2 : RState),
    visitStmts f l st = some st2 → st2.imports = st.imports ++ stmtsImports l := by
  induction f with
  | zero => intro l st st2 h; rw [visitStmts_zero] at h; exact absurd h (by simp)
  | succ f ih =>
    intro l st st2 h
    match l with
    | [] =>
      rw [visitStmts_nil] at h
      rw [← Option.some_inj.mp h]
      simp [stmtsImports]
    | .imprt names :: r =>
      rw [visitStmts_imprt] at h
      rw [ih _ _ _ h]
      dsimp only
      simp [stmtsImports, List.append_assoc]
    | .impFrom lvl m names :: r =>
      rw [visitStmts_impFrom] at h
      rw [ih _ _ _ h]
      dsimp only
      simp [stmtsImports, List.append_assoc]
    | .asgn z e :: r =>
      rw [visitStmts_asgn] at h
      rw [ih _ _ _ h, visitExpr_imports, addStore_imports]
      simp [stmtsImports]
    | .exprS e :: r =>
      rw [visitStmts_exprS] at h
      rw [ih _ _ _ h, visitExpr_imports]
      simp [stmtsImports]
    | .fdef name args body ln c :: r =>
      rw [visitStmts_fdef] at h
      cases h4 : visitStmts f body (scopePush st name args body ln c) with
      | none => rw [h4] at h; exact absurd h (by simp)
      | some st4 =>
        rw [h4] at h
        simp only [Option.some_bind] at h
        have h4i : st4.imports = st.imports ++ stmtsImports body := by
          rw [ih _ _ _ h4, scopePush_imports]
        rw [ih _ _ _ h, scopePop_imports, h4i]
        simp [stmtsImports, List.append_assoc]

theorem visitStmts_fuel_succ :
    ∀ (f : Nat) (l : List Stmt) (st st2 : RState),
    visitStmts f l st = some st2 → visitStmts (f + 1) l st = some st2 := by
  intro f
  induction f with
  | zero => intro l st st2 h; rw [visitStmts_zero] at h; exact absurd h (by simp)
  | succ f ih =>
    intro l st st2 h
    match l with
    | [] => rw [visitStmts_nil] at h ⊢; exact h
    | .imprt names :: r =>
      rw [visitStmts_imprt] at h ⊢
      exact ih _ _ _ h
    | .impFrom lvl m names :: r =>
      rw [visitStmts_impFrom] at h ⊢
      exact ih _ _ _ h
    | .asgn z e :: r =>
      rw [visitStmts_asgn] at h ⊢
      exact ih _ _ _ h
    | .exprS e :: r =>
      rw [visitStmts_exprS] at h ⊢
      exact ih _ _ _ h
    | .fdef name args body ln c :: r =>
      rw [visitStmts_fdef] at h ⊢
      cases h4 : visitStmts f body (scopePush st name args body ln c) with
      | none => rw [h4] at h; exact absurd h (by simp)
      | some st4 =>
        rw [h4] at h
        simp only [Option.some_bind] at h
        rw [ih _ _ _ h4]
        simp only [Option.some_bind]
        exact ih _ _ _ h

theorem visitStmts_fuel_le {f g : Nat} (hfg : f ≤ g) (l : List Stmt)
    (st st2 : RState) (h : visitStmts f l st = some st2) :
    visitStmts g l st = some st2 := by
  obtain ⟨d, rfl⟩ := Nat.exists_eq_add_of_le hfg
  clear hfg
  induction d with
  | zero => exact h
  | succ d ihd =>
    rw [show f + (d + 1) = (f + d) + 1 by omega]
    exact visitStmts_fuel_succ _ _ _ _ ihd

theorem stmtsFuel_pos : ∀ (l : List Stmt), 0 < stmtsFuel l := by
  intro l
  match l with
  | [] => simp [stmtsFuel]
  | .imprt names :: r => simp [stmtsFuel]
  | .impFrom lvl m names :: r => simp [stmtsFuel]
  | .asgn z e :: r => simp [stmtsFuel]
  | .exprS e :: r => simp [stmtsFuel]
  | .fdef name args body ln c :: r => simp [stmtsFuel]

theorem visitStmts_enough :
    ∀ (n : Nat) (l : List Stmt), stmtsFuel l ≤ n →
    ∀ st : RState, ∃ st2, visitStmts n l st = some st2 := by
  intro n
  induction n with
  | zero =>
    intro l hl
    have := stmtsFuel_pos l
    omega
  | succ n ih =>
    intro l hl st
    match l with
    | [] => exact ⟨st, visitStmts_nil n st⟩
    | .imprt names :: r =>
      simp only [stmtsFuel] at hl
      obtain ⟨st2, h2⟩ := ih r (by omega) _
      exact ⟨st2, by rw [visitStmts_imprt]; exact h2⟩
    | .impFrom lvl m names :: r =>
      simp only [stmtsFuel] at hl
      obtain ⟨st2, h2⟩ := ih r (by omega) _
      exact ⟨st2, by rw [visitStmts_impFrom]; exact h2⟩
    | .asgn z e :: r =>
      simp only [stmtsFuel] at hl
      obtain ⟨st2, h2⟩ := ih r (by omega) _
      exact ⟨st2, by rw [visitStmts_asgn]; exact h2⟩
    | .exprS e :: r =>
      simp only [stmtsFuel] at hl
      obtain ⟨st2, h2⟩ := ih r (by omega) _
      exact ⟨st2, by rw [visitStmts_exprS]; exact h2⟩
    | .fdef name args body ln c :: r =>
      simp only [stmtsFuel] at hl
      obtain ⟨st4, h4⟩ := ih body (by omega) (scopePush st name args body ln c)
      obtain ⟨st2, h2⟩ := ih r (by omega) (scopePop st4)
      refine ⟨st2, ?_⟩
      rw [visitStmts_fdef, h4]
      simp only [Option.some_bind]
      exact h2

/-- C9: self-references during symbol extraction.  A read of the name of
the top-level definition currently being scanned (`add_name_read` with
`name == curr_top_def_name`) leaves the reader state completely unchanged
— no dependency edge is recorded and nothing is added to
`unresolved_globals`; consequently a module built by the reader never has
a self-dependency edge `S ∈ dependency[S]`. -/
theorem C9_self_reference (S : String) :
    (∀ st : RState, st.curr = S → addNameRead st S = st) ∧
    (∀ (f : Nat) (name : String) (body : List Stmt) (M : Module),
      mkModule name f body = some M → S ∉ M.dependency S) := by
  constructor
  · intro st hc
    unfold addNameRead
    rw [if_pos hc.symm]
  · intro f name body M h
    unfold mkModule at h
    cases hv : visitStmts f body initR with
    | none => rw [hv] at h; exact absurd h (by simp)
    | some st2 =>
      rw [hv] at h
      simp only [Option.map_some', Option.some_inj] at h
      have hd := visitStmts_dep_self S f body initR st2 hv
        (by show S ∉ (∅ : Finset String); simp)
      rw [← h]
      exact hd

/-- Witness for C9: a top-level definition `f` whose body reads `f`
recursively; the read changes nothing, and the extracted module has no
self-dependency edge on `f`. -/
theorem C9_witness :
    (addNameRead ⟨∅, [], "f", [], [], fun _ => ∅, ∅⟩ "f" =
      ⟨∅, [], "f", [], [], fun _ => ∅, ∅⟩) ∧
    ∃ M, mkModule "m.py" 9 [.fdef ("f") [] [.exprS (.nm "f")] 1 0] = some M ∧
      "f" ∉ M.dependency "f" :=
  ⟨(C9_self_reference "f").1 _ rfl,
    ⟨_, rfl, (C9_self_reference "f").2 9 "m.py"
      [Stmt.fdef ("f") [] [Stmt.exprS (Expr.nm "f")] 1 0] _ rfl⟩⟩

/-!
## Re-bundling: lemmas about `pack` on a single module with no resolvable
imports
-/

theorem packF_keepFilter (M : Module) (shake : Bool) (st : PState) :
    ∀ (l : List Imp) (vis : Finset Nat),
    packF (oneModP M) shake st (l.length + 1) (.imps 0 l) vis =
      some ([], l.filter (keepImp shake st 0), vis) := by
  intro l
  induction l with
  | nil => intro vis; rw [packF_imps_nil]; rfl
  | cons imp rest ih =>
    intro vis
    match imp with
    | .mod mod0 a =>
      rw [show (Imp.mod mod0 a :: rest).length + 1 = (rest.length + 1) + 1
        from rfl, packF_imps_mod, ih vis]
      simp only [Option.some_bind]
      have hk : keepImp shake st 0 (Imp.mod mod0 a) =
          decide (shake = false ∨ a ∈ st.ext 0) := by
        cases shake <;> simp [keepImp]
      by_cases hc : shake = false ∨ a ∈ st.ext 0
      · rw [if_pos hc, List.filter_cons, hk, decide_eq_true hc, if_pos rfl]
        rfl
      · rw [if_neg hc, List.filter_cons, hk, decide_eq_false hc,
          if_neg (by simp)]
        rfl
    | .star mod0 =>
      rw [show (Imp.star mod0 :: rest).length + 1 = (rest.length + 1) + 1
        from rfl, packF_imps_star,
        show (oneModP M).resolve 0 mod0 = none from rfl]
      dsimp only
      rw [ih vis]
      simp only [Option.some_bind]
      have hk : keepImp shake st 0 (Imp.star mod0) =
          decide (shake = false ∨ st.ext 0 ≠ ∅) := by
        cases shake <;> simp [keepImp]
      by_cases hc : shake = false ∨ st.ext 0 ≠ ∅
      · rw [if_pos hc, List.filter_cons, hk, decide_eq_true hc, if_pos rfl]
        rfl
      · rw [if_neg hc, List.filter_cons, hk, decide_eq_false hc,
          if_neg (by simp)]
        rfl
    | .fromI mod0 y a =>
      rw [show (Imp.fromI mod0 y a :: rest).length + 1 = (rest.length + 1) + 1
        from rfl, packF_imps_from,
        show (oneModP M).resolve 0 mod0 = none from rfl]
      dsimp only
      rw [ih vis]
      simp only [Option.some_bind]
      have hk : keepImp shake st 0 (Imp.fromI mod0 y a) =
          decide (shake = false ∨ st.ext 0 ≠ ∅) := by
        cases shake <;> simp [keepImp]
      by_cases hc : shake = false ∨ st.ext 0 ≠ ∅
      · rw [if_pos hc, List.filter_cons, hk, decide_eq_true hc, if_pos rfl]
        rfl
      · rw [if_neg hc, List.filter_cons, hk, decide_eq_false hc,
          if_neg (by simp)]
        rfl

theorem oneModP_wf (M : Module) : (oneModP M).WF where
  entry_mem := List.mem_singleton.mpr rfl
  resolve_mem := fun _ _ _ h => Option.noConfusion h

theorem packRun_oneModP_gen (M : Module) (shake : Bool) :
    ∃ f1 f2 st, packRun (oneModP M) shake f1 f2 =
      some (ownChunks (oneModP M) shake st true 0,
        M.imports.filter (keepImp shake st 0)) := by
  rcases hsh : shake with _ | _
  · refine ⟨0, M.imports.length + 2, initState (oneModP M), ?_⟩
    rw [show packRun (oneModP M) false 0 (M.imports.length + 2) =
      (packF (oneModP M) false (initState (oneModP M)) (M.imports.length + 2)
        (.one 0) ∅).bind (fun r => some (r.1, r.2.1)) from rfl]
    rw [packF_one, show ((oneModP M).src 0).imports = M.imports from rfl,
      packF_keepFilter M false _ M.imports (insert 0 ∅)]
    simp only [Option.some_bind]
    rfl
  · obtain ⟨f1, st, hst⟩ := propagate_enough (oneModP M) (oneModP_wf M)
    refine ⟨f1, M.imports.length + 2, st, ?_⟩
    rw [show packRun (oneModP M) true f1 (M.imports.length + 2) =
      (propagate (oneModP M) f1).bind (fun st2 =>
        (packF (oneModP M) true st2 (M.imports.length + 2) (.one 0) ∅).bind
          (fun r => some (r.1, r.2.1))) from rfl, hst]
    simp only [Option.some_bind]
    rw [packF_one, show ((oneModP M).src 0).imports = M.imports from rfl,
      packF_keepFilter M true st M.imports (insert 0 ∅)]
    simp only [Option.some_bind]
    rfl

theorem ownChunks_flat (P : Program) (shake : Bool) (st : PState) (m : Nat) :
    (ownChunks P shake st true m).flatMap (·.stmts) =
      rootStmts (P.src m).body := by
  unfold ownChunks
  rw [if_pos (by simp)]
  dsimp only
  split
  · rename_i hcond
    rw [List.isEmpty_iff.mp hcond]
    rfl
  · simp

theorem dedupByAlias_mem :
    ∀ (l : List (String × String)) (p : String × String),
    p ∈ dedupByAlias l → p ∈ l := by
  intro l
  induction l with
  | nil => intro p hp; exact absurd hp (by simp [dedupByAlias])
  | cons q rest ih =>
    intro p hp
    unfold dedupByAlias at hp
    rcases List.mem_cons.mp hp with hp | hp
    · rw [hp]
      exact List.mem_cons_self _ _
    · exact List.mem_cons_of_mem _ (ih p (List.mem_of_mem_filter hp))

theorem fromAliases_trivial (l : List Imp) (mod : String)
    (hal : ∀ i ∈ l, ∀ mod2 y a, i = Imp.fromI mod2 y a → a = y) :
    ∀ p ∈ fromAliases l mod, p.2 = p.1 := by
  intro p hp
  have hp2 := dedupByAlias_mem _ p hp
  obtain ⟨i, hi, hpi⟩ := List.mem_filterMap.mp hp2
  match i with
  | .mod m2 a => exact absurd hpi (by simp)
  | .star m2 => exact absurd hpi (by simp)
  | .fromI m2 y a =>
    have := hal _ hi m2 y a rfl
    dsimp only at hpi
    split at hpi
    · rw [← Option.some_inj.mp hpi]
      exact this
    · exact absurd hpi (by simp)

theorem rootStmts_append (l1 l2 : List Stmt) :
    rootStmts (l1 ++ l2) = rootStmts l1 ++ rootStmts l2 := by
  unfold rootStmts
  rw [List.flatMap_append]

theorem rootStmts_toAsts_nil (l : List Imp)
    (hal : ∀ i ∈ l, ∀ mod2 y a, i = Imp.fromI mod2 y a → a = y) :
    rootStmts (toAsts l) = [] := by
  unfold rootStmts
  rw [List.flatMap_eq_nil_iff]
  intro s hs
  unfold toAsts at hs
  rcases List.mem_append.mp hs with hs | hs
  · rcases List.mem_append.mp hs with hs | hs
    · split at hs
      · exact absurd hs (by simp)
      · rw [List.mem_singleton] at hs
        rw [hs]
    · obtain ⟨m2, hm2, hsm⟩ := List.mem_map.mp hs
      rw [← hsm]
      simp
  · obtain ⟨m2, hm2, hsm⟩ := List.mem_map.mp hs
    rw [← hsm]
    dsimp only
    rw [List.filterMap_eq_nil_iff]
    intro p hp
    obtain ⟨q, hq, hqp⟩ := List.mem_map.mp hp
    have hq2 := fromAliases_trivial l m2 hal q hq
    rw [← hqp]
    unfold mkAlias
    rw [if_pos hq2]
    rfl

theorem rootStmts_of_nonimp (l : List Stmt)
    (h : ∀ s ∈ l, (match s with
      | Stmt.imprt _ => false
      | Stmt.impFrom _ _ _ => false
      | _ => true) = true) :
    rootStmts l = l := by
  induction l with
  | nil => rfl
  | cons s r ih =>
    have hs := h s (List.mem_cons_self _ _)
    have hr := ih (fun s2 hs2 => h s2 (List.mem_cons_of_mem _ hs2))
    match s with
    | .imprt names => exact absurd hs (by simp)
    | .impFrom lvl m names => exact absurd hs (by simp)
    | .asgn z e =>
      show Stmt.asgn z e :: rootStmts r = _
      rw [hr]
    | .exprS e =>
      show Stmt.exprS e :: rootStmts r = _
      rw [hr]
    | .fdef name args body ln c =>
      show Stmt.fdef name args body ln c :: rootStmts r = _
      rw [hr]

theorem rootStmts_nonimp (l : List Stmt) :
    ∀ s ∈ rootStmts l, (match s with
      | Stmt.imprt _ => false
      | Stmt.impFrom _ _ _ => false
      | _ => true) = true := by
  intro s hs
  unfold rootStmts at hs
  obtain ⟨a, ha, hsa⟩ := List.mem_flatMap.mp hs
  match a with
  | .imprt names => exact absurd hsa (by simp)
  | .impFrom lvl m names =>
    dsimp only at hsa
    obtain ⟨p, hp, hps⟩ := List.mem_filterMap.mp hsa
    cases hp2 : p.2 with
    | none => rw [hp2] at hps; exact absurd hps (by simp)
    | some z =>
      rw [hp2] at hps
      simp only [Option.map_some', Option.some_inj] at hps
      rw [← hps]
  | .asgn z e =>
    rw [List.mem_singleton] at hsa
    rw [hsa]
  | .exprS e =>
    rw [List.mem_singleton] at hsa
    rw [hsa]
  | .fdef name args body ln c =>
    rw [List.mem_singleton] at hsa
    rw [hsa]

theorem rootStmts_idem (l : List Stmt) :
    rootStmts (rootStmts l) = rootStmts l :=
  rootStmts_of_nonimp _ (rootStmts_nonimp l)

theorem nonImports_append (l1 l2 : List Stmt) :
    nonImports (l1 ++ l2) = nonImports l1 ++ nonImports l2 := by
  unfold nonImports
  rw [List.filter_append]

theorem nonImports_toAsts (l : List Imp) : nonImports (toAsts l) = [] := by
  unfold nonImports
  rw [List.filter_eq_nil_iff]
  intro s hs
  unfold toAsts at hs
  rcases List.mem_append.mp hs with hs | hs
  · rcases List.mem_append.mp hs with hs | hs
    · split at hs
      · exact absurd hs (by simp)
      · rw [List.mem_singleton] at hs
        rw [hs]
        simp
    · obtain ⟨m2, hm2, hsm⟩ := List.mem_map.mp hs
      rw [← hsm]
      simp
  · obtain ⟨m2, hm2, hsm⟩ := List.mem_map.mp hs
    rw [← hsm]
    simp

theorem nonImports_of_nonimp (l : List Stmt)
    (h : ∀ s ∈ l, (match s with
      | Stmt.imprt _ => false
      | Stmt.impFrom _ _ _ => false
      | _ => true) = true) :
    nonImports l = l := by
  unfold nonImports
  rw [List.filter_eq_self]
  exact h

theorem mkModule_fields (name : String) (f : Nat) (body : List Stmt)
    (M : Module) (h : mkModule name f body = some M) :
    M.imports = stmtsImports body ∧ M.body = body := by
  unfold mkModule at h
  cases hv : visitStmts f body initR with
  | none => rw [hv] at h; exact absurd h (by simp)
  | some st2 =>
    rw [hv] at h
    simp only [Option.map_some', Option.some_inj] at h
    have hi := visitStmts_imports f body initR st2 hv
    rw [← h]
    refine ⟨?_, rfl⟩
    rw [hi]
    rfl

/-- The second pack of a re-bundle, over any kept-import lists and any
re-read module body: the output's non-import statements equal the input
bundle's, provided the first pack's kept from-imports carry no nontrivial
alias. -/
theorem rebundle_core (ig1 ig2 : List Imp) (body1 body2 : List Stmt)
    (hal1 : ∀ i ∈ ig1, ∀ mod y a, i = Imp.fromI mod y a → a = y)
    (hb2 : body2 = toAsts ig1 ++ rootStmts body1) :
    nonImports (toAsts ig2 ++ rootStmts body2) =
      nonImports (toAsts ig1 ++ rootStmts body1) := by
  rw [hb2]
  simp only [nonImports_append, nonImports_toAsts, List.nil_append]
  rw [rootStmts_append, rootStmts_toAsts_nil ig1 hal1, List.nil_append,
    rootStmts_idem]

/-- The reader can always build a module model from a statement list. -/
theorem mkModule_exists (name : String) (body : List Stmt) :
    ∃ g M2, mkModule name g body = some M2 ∧ M2.body = body := by
  obtain ⟨st2, h⟩ := visitStmts_enough (stmtsFuel body) body (Nat.le_refl _) initR
  refine ⟨stmtsFuel body,
    ⟨name, st2.imports, st2.gdefs, st2.dep, st2.unres, body⟩, ?_, rfl⟩
  unfold mkModule
  rw [h]
  rfl

/-- C7 (amended): re-bundling is a fixed point up to import-statement
formatting *provided* the module's from-imports carry no nontrivial
alias, in either shaking mode (tree shaking on — the default — or off).
For such a single entry module with no locally-resolvable imports,
packing, re-reading the bundle as a new entry module, and packing again
yields a bundle with the same non-import statements.  (With a nontrivial
alias `from x import y as z` the rewrite `z = y` is re-emitted on every
re-bundle and the output grows; see the counterexample.) -/
theorem C7_rebundle (M : Module) (shake : Bool)
    (hal : ∀ i ∈ M.imports, ∀ mod y a, i = Imp.fromI mod y a → a = y) :
    ∃ f1 f2 r1 g M2 f3 f4 r2,
      packRun (oneModP M) shake f1 f2 = some r1 ∧
      mkModule M.name g (bundleStmts r1) = some M2 ∧
      packRun (oneModP M2) shake f3 f4 = some r2 ∧
      nonImports (bundleStmts r2) = nonImports (bundleStmts r1) := by
  obtain ⟨f1, f2, st1, h1⟩ := packRun_oneModP_gen M shake
  obtain ⟨g, M2, hmk, hbody⟩ := mkModule_exists M.name
    (bundleStmts (ownChunks (oneModP M) shake st1 true 0,
      M.imports.filter (keepImp shake st1 0)))
  obtain ⟨f3, f4, st2, h2⟩ := packRun_oneModP_gen M2 shake
  refine ⟨f1, f2, _, g, M2, f3, f4, _, h1, hmk, h2, ?_⟩
  have e1 : bundleStmts (ownChunks (oneModP M) shake st1 true 0,
      M.imports.filter (keepImp shake st1 0)) =
      toAsts (M.imports.filter (keepImp shake st1 0)) ++ rootStmts M.body := by
    unfold bundleStmts
    rw [ownChunks_flat]
    rfl
  have e2 : bundleStmts (ownChunks (oneModP M2) shake st2 true 0,
      M2.imports.filter (keepImp shake st2 0)) =
      toAsts (M2.imports.filter (keepImp shake st2 0)) ++ rootStmts M2.body := by
    unfold bundleStmts
    rw [ownChunks_flat]
    rfl
  rw [e2, e1]
  exact rebundle_core (M.imports.filter (keepImp shake st1 0))
    (M2.imports.filter (keepImp shake st2 0)) M.body M2.body
    (fun i hi => hal i (List.mem_of_mem_filter hi))
    (hbody.trans e1)

/-- Witness for C7 at a module whose only from-import has a trivial
alias, with tree shaking on (the default configuration). -/
theorem C7_witness :
    ∃ f1 f2 r1 g M2 f3 f4 r2,
      packRun (oneModP Mc7w) true f1 f2 = some r1 ∧
      mkModule Mc7w.name g (bundleStmts r1) = some M2 ∧
      packRun (oneModP M2) true f3 f4 = some r2 ∧
      nonImports (bundleStmts r2) = nonImports (bundleStmts r1) := by
  refine C7_rebundle Mc7w true ?_
  intro i hi mod y a heq
  rw [show Mc7w.imports = [Imp.fromI "x" "y" "y"] from rfl,
    List.mem_singleton] at hi
  rw [hi] at heq
  injection heq with e1 e2 e3
  rw [← e2, ← e3]

/-- Counterexample for C7 as stated: with the default configuration
(tree shaking on), the entry `from x import y as z; a = z` bundles to
`[import header, z = y, a = z]`; re-bundling that output as a new entry
re-emits the alias rewrite and yields three non-import statements instead
of two — the second result differs from its input in more than
import-statement formatting. -/
theorem C7_counterexample :
    ∃ r1 M2 r2,
      packRun (oneModP Mc7) true 3 3 = some r1 ∧
      mkModule "main.py" 9 (bundleStmts r1) = some M2 ∧
      packRun (oneModP M2) true 3 3 = some r2 ∧
      (nonImports (bundleStmts r1)).length = 2 ∧
      (nonImports (bundleStmts r2)).length = 3 := by
  refine ⟨_, _, _, rfl, rfl, rfl, ?_, ?_⟩
  · rfl
  · rfl

/-!
## Resolver totality and the unresolved-import handling (C5), and the
module cache (C6)
-/

theorem wf_dir_iter (fs : FileSys) (hwf : fs.WF) :
    ∀ (k : Nat) (q : FPath), fs.isDir q = true →
      fs.isDir (parentN k q) = true := by
  intro k
  induction k with
  | zero => intro q hq; exact hq
  | succ k ih =>
    intro q hq
    show fs.isDir (parentN k q.parent) = true
    exact ih q.parent (hwf.wf_dir q hq)

theorem relBranch_ok (fs : FileSys) (origin : FPath) (level : Nat)
    (module : String) (h : fs.isDir (parentN level origin) = true) :
    ∃ o, relBranch fs origin level module = .ok o := by
  unfold relBranch
  dsimp only
  rw [h]
  rw [if_neg (by simp)]
  split
  · exact ⟨_, rfl⟩
  · exact ⟨_, rfl⟩

theorem findSpecCore_ok (fs : FileSys)
    (pf : String → Option (List FPath) → Option MSpec)
    (module : String) (origin : FPath) (FL : Option (List FPath))
    (hwf : fs.WF)
    (hpf : ∀ m2 locs sp, pf m2 locs = some sp → fs.isFile sp.origin = true)
    (hfile : fs.isFile origin = true) :
    ∃ o, findSpecCore fs pf module origin FL = .ok o := by
  unfold findSpecCore
  dsimp only
  by_cases hl : (splitModuleName module).1 = 0
  · rw [if_pos hl]
    cases hp1 : pf (splitModuleName module).2 FL with
    | some spec => exact ⟨some spec, rfl⟩
    | none =>
      dsimp only
      split
      · exact ⟨none, rfl⟩
      · cases hp2 : pf (partitionDot (splitModuleName module).2).1 FL with
        | none => exact ⟨none, rfl⟩
        | some spec2 =>
          refine relBranch_ok fs spec2.origin 1 _ ?_
          show fs.isDir spec2.origin.parent = true
          exact hwf.wf_file _ (hpf _ _ _ hp2)
  · rw [if_neg hl]
    refine relBranch_ok fs origin _ _ ?_
    obtain ⟨k, hk⟩ : ∃ k, (splitModuleName module).1 = k + 1 :=
      ⟨(splitModuleName module).1 - 1, by omega⟩
    rw [hk]
    show fs.isDir (parentN k origin.parent) = true
    exact wf_dir_iter fs hwf k origin.parent (hwf.wf_file _ hfile)

/-- C5 (amended): a resolver lookup never raises — for any well-formed
file system, `find_spec_from` returns (`Except.ok`) either a spec or
`None`; and for a module none of whose imports resolve locally,
`_pack_from` keeps an unresolved import entry in the output iff tree
shaking is off or the module's external set is nonempty (so with shaking
on and an empty external set the unresolved import is *dropped*, not
preserved; see the counterexample). -/
theorem C5_unresolved_imports :
    (∀ (fs : FileSys) (pf : String → Option (List FPath) → Option MSpec)
      (sysP : List FPath) (module : String) (fromSpec : MSpec)
      (fromLocs0 : Option (List FPath)),
      fs.WF →
      (∀ m2 locs sp, pf m2 locs = some sp → fs.isFile sp.origin = true) →
      fs.isFile fromSpec.origin = true →
      ∃ o, findSpecFrom fs pf sysP module fromSpec fromLocs0 = .ok o) ∧
    (∀ (M : Module) (shake : Bool) (st : PState) (vis : Finset Nat),
      packF (oneModP M) shake st (M.imports.length + 1)
        (.imps 0 M.imports) vis =
      some ([], M.imports.filter (keepImp shake st 0), vis)) := by
  constructor
  · intro fs pf sysP module fromSpec fromLocs0 hwf hpf hfile
    exact findSpecCore_ok fs pf module fromSpec.origin _ hwf hpf hfile
  · intro M shake st vis0
    exact packF_keepFilter M shake st M.imports vis0

theorem fsW_wf : fsW.WF := by
  constructor
  · rintro ⟨ab, segs⟩ hp
    cases ab
    · simp [FileSys.isFile, canonP, fsW] at hp
      subst hp
      decide
    · simp [FileSys.isFile, canonP, fsW] at hp
      subst hp
      decide
  · rintro ⟨ab, segs⟩ hp
    cases ab
    · simp [FileSys.isDir, canonP, fsW] at hp
      subst hp
      decide
    · simp [FileSys.isDir, canonP, fsW] at hp
      subst hp
      decide

/-- Witness for C5: the resolver half at a concrete well-formed file
system, and the preservation half at the concrete unused-import module
with shaking on. -/
theorem C5_witness :
    (∃ o, findSpecFrom fsW (fun _ _ => none) [] "x"
      ⟨⟨false, ["a.py"]⟩, none⟩ none = .ok o) ∧
    packF (oneModP Mdrop) true (initState (oneModP Mdrop))
      (Mdrop.imports.length + 1) (.imps 0 Mdrop.imports) ∅ =
      some ([], Mdrop.imports.filter
        (keepImp true (initState (oneModP Mdrop)) 0), ∅) :=
  ⟨C5_unresolved_imports.1 fsW (fun _ _ => none) [] "x"
      ⟨⟨false, ["a.py"]⟩, none⟩ none fsW_wf
      (fun _ _ _ h => absurd h (by simp)) rfl,
    C5_unresolved_imports.2 Mdrop true (initState (oneModP Mdrop)) ∅⟩

/-- Counterexample for C5 as stated: the unresolvable from-import of
`Mdrop` is preserved with shaking off but *dropped* with shaking on
(the module's external set is empty), contradicting "preserved as an
externally-sourced import statement". -/
theorem C5_counterexample :
    (∃ cs, packRun (oneModP Mdrop) false 3 3 =
      some (cs, [.fromI "x" "y" "z"])) ∧
    (∃ cs, packRun (oneModP Mdrop) true 3 3 = some (cs, [])) :=
  ⟨⟨_, rfl⟩, ⟨_, rfl⟩⟩

theorem getSourceCode_inv (st : CacheSt) (sp : MSpec)
    (h1 : st.parseLog.Nodup)
    (h2 : ∀ k ∈ st.parseLog, ∃ e, (k, e) ∈ st.cache) :
    (getSourceCode st sp).1.parseLog.Nodup ∧
    (∀ k ∈ (getSourceCode st sp).1.parseLog,
      ∃ e, (k, e) ∈ (getSourceCode st sp).1.cache) := by
  unfold getSourceCode
  cases hlc : lookupCache st.cache sp.origin with
  | some cid => exact ⟨h1, h2⟩
  | none =>
    dsimp only
    have horig : sp.origin ∉ st.parseLog := by
      intro hmem
      obtain ⟨e, he⟩ := h2 _ hmem
      unfold lookupCache at hlc
      rw [Option.map_eq_none', List.find?_eq_none] at hlc
      exact absurd (by simp) (hlc (sp.origin, e) he)
    constructor
    · rw [List.nodup_append]
      refine ⟨h1, List.nodup_singleton _, ?_⟩
      intro a ha hb
      rw [List.mem_singleton] at hb
      subst hb
      exact horig ha
    · intro k hk
      rcases List.mem_append.mp hk with hk | hk
      · obtain ⟨e, he⟩ := h2 k hk
        exact ⟨e, List.mem_append_left _ he⟩
      · rw [List.mem_singleton] at hk
        subst hk
        exact ⟨st.specs.length,
          List.mem_append_right _ (List.mem_singleton.mpr rfl)⟩

theorem getImport_inv (fs : FileSys)
    (pf : String → Option (List FPath) → Option MSpec)
    (sysP : List FPath) (st : CacheSt) (cid : Nat) (m : String)
    (s2 : CacheSt × Option Nat)
    (h : getImport fs pf sysP st cid m = .ok s2)
    (h1 : st.parseLog.Nodup)
    (h2 : ∀ k ∈ st.parseLog, ∃ e, (k, e) ∈ st.cache) :
    s2.1.parseLog.Nodup ∧
    (∀ k ∈ s2.1.parseLog, ∃ e, (k, e) ∈ s2.1.cache) := by
  unfold getImport at h
  cases hli : lookupImp st.impCache (cid, m) with
  | some r =>
    rw [hli] at h
    dsimp only at h
    rw [← Except.ok.inj h]
    exact ⟨h1, h2⟩
  | none =>
    rw [hli] at h
    dsimp only at h
    cases hsp : st.specs[cid]? with
    | none => rw [hsp] at h; exact absurd h (by simp)
    | some sp =>
      rw [hsp] at h
      dsimp only at h
      cases hf : findSpecFrom fs pf sysP m sp none with
      | error e => rw [hf] at h; exact absurd h (by simp)
      | ok o =>
        rw [hf] at h
        match o with
        | none =>
          dsimp only at h
          have hs2 := Except.ok.inj h
          rw [← hs2]
          exact ⟨h1, h2⟩
        | some sp2 =>
          dsimp only at h
          have hs2 := Except.ok.inj h
          rw [← hs2]
          exact getSourceCode_inv st sp2 h1 h2

/-- C6 (amended): the module cache memoizes by the *raw* `Path` of a
spec's origin — per distinct path spelling, not per canonical file — so
within one run no path spelling is ever parsed twice: the parse log of
any sequence of cache-layer calls has no duplicate keys.  (The same
canonical file *can* be parsed twice under different spellings; see the
counterexample.) -/
theorem C6_cache_memo (fs : FileSys)
    (pf : String → Option (List FPath) → Option MSpec) (sysP : List FPath) :
    ∀ (calls : List CCall) (st st2 : CacheSt),
      runCalls fs pf sysP calls st = .ok st2 →
      st.parseLog.Nodup → (∀ k ∈ st.parseLog, ∃ e, (k, e) ∈ st.cache) →
      st2.parseLog.Nodup := by
  intro calls
  induction calls with
  | nil =>
    intro st st2 h h1 h2
    rw [show runCalls fs pf sysP [] st = .ok st from rfl] at h
    rw [← Except.ok.inj h]
    exact h1
  | cons c rest ih =>
    intro st st2 h h1 h2
    match c with
    | .put sp =>
      rw [show runCalls fs pf sysP (.put sp :: rest) st =
        runCalls fs pf sysP rest (putSourceCode st sp).1 from rfl] at h
      refine ih _ _ h h1 ?_
      intro k hk
      obtain ⟨e, he⟩ := h2 k hk
      exact ⟨e, List.mem_append_left _ he⟩
    | .gimp cid m =>
      rw [show runCalls fs pf sysP (.gimp cid m :: rest) st =
        (getImport fs pf sysP st cid m).bind
          (fun s2 => runCalls fs pf sysP rest s2.1) from rfl] at h
      cases hg : getImport fs pf sysP st cid m with
      | error e => rw [hg] at h; exact absurd h (by simp [Except.bind])
      | ok s2 =>
        rw [hg] at h
        obtain ⟨hn, hc⟩ := getImport_inv fs pf sysP st cid m s2 hg h1 h2
        exact ih _ _ h hn hc

/-- Witness for C6 at the concrete double-parse scenario: the run
succeeds and its parse log has no duplicate raw keys. -/
theorem C6_witness :
    runCalls fs6 (pathFinder fs6) sysP6
        [.gimp 0 ".sub.b", .gimp 1 "m", .gimp 0 "m"]
        (putSourceCode ⟨[], [], [], []⟩ ⟨⟨false, ["main.py"]⟩, none⟩).1 =
      .ok c6final ∧
    c6final.parseLog.Nodup :=
  ⟨rfl, C6_cache_memo fs6 (pathFinder fs6) sysP6
    [.gimp 0 ".sub.b", .gimp 1 "m", .gimp 0 "m"]
    (putSourceCode ⟨[], [], [], []⟩ ⟨⟨false, ["main.py"]⟩, none⟩).1 c6final rfl
    List.nodup_nil (fun k hk => absurd hk (List.not_mem_nil k))⟩

/-- Counterexample for C6 as stated: in the `/lib` scenario the same
canonical file `/lib/m.py` is reached as `m.py` (relative, from the
entry) and as `/lib/m.py` (absolute, via `sys_path` from `sub/b.py`);
the raw-path cache misses and the file is parsed twice. -/
theorem C6_counterexample :
    runCalls fs6 (pathFinder fs6) sysP6
        [.gimp 0 ".sub.b", .gimp 1 "m", .gimp 0 "m"]
        (putSourceCode ⟨[], [], [], []⟩ ⟨⟨false, ["main.py"]⟩, none⟩).1 =
      .ok c6final ∧
    c6final.parseLog.countP (fun p => canonP fs6 p = ["lib", "m.py"]) = 2 :=
  ⟨rfl, by decide⟩

end Impacker
